import Mathlib

/-!
# Ledger and settlement engine of `script.js`

A shallow embedding of the settlement aggregation (the click handler of
`computeAllButton`, lines 1626-1767 of `src/script.js`), of the debt
minimiser `settleDebts` (lines 1770-1792), of the exclusion toggle of a
participant (lines 676-682), of the currency conversion (`getRate`,
`changeReceiptCurrency` and the manual override of the rate), of the edit
and delete handlers of an item, of the pending changes of the share views
(`addPendingChange`, `discardPendingChanges`, `applyPendingChanges`, the
submit handlers and the highlighting) and of the share tokens
(`encodeShareData`, `decodeShareData`).

Conventions of the embedding:

* JavaScript numbers are exact rationals (`ℚ`); a field that may also be
  `undefined` or `NaN` has type `JsNum`.  Rounding errors of IEEE doubles are
  not part of the model.
* A JavaScript object used as a map from participant index to checkbox state
  (`item.assigned`) is the list of its entries in the order of
  `Object.entries`.
* A JavaScript object with string keys (the users, the folders, the stored
  map of pending changes) is the list of its entries.
* A value that need not be a number (the answer of the rate service, the
  result of `getRate`) has type `JsVal`.
* A `TypeError` raised by the code is the result `none`.
* The platform functions `atob`, `btoa` and `JSON.parse` are executable
  definitions (`atob`, `btoa`, `jsonParse`); `JSON.stringify` is not
  modelled.
-/

namespace Script

/-! ## Data model -/

/-- A numeric field of a record: `undefined`, `NaN`, or a number. -/
inductive JsNum where
  | undefined
  | nan
  | num (q : ℚ)
  deriving DecidableEq, Repr

/-- The test `typeof v === 'number'`. -/
def JsNum.isNumber : JsNum → Bool
  | .undefined => false
  | .nan => true
  | .num _ => true

/-- Truthiness of a numeric field: neither `undefined`, `NaN` nor `0`. -/
def JsNum.truthy : JsNum → Bool
  | .num q => q ≠ 0
  | _ => false

/-- A participant (`folder.people[i]`).  `prefs` is the object of dietary
flags, `none` when the participant has no such property. -/
structure Person where
  name : String
  excluded : Bool := false
  prefs : Option (List (String × Bool)) := none
  deriving DecidableEq, Repr

/-- A line item of a receipt.  `assigned` lists the entries of the object
`item.assigned` in the order of `Object.entries`; an item without that
property has `assignedMissing = true` and no entries.  `extras` holds the
values of the extra columns, `none` when the property is missing. -/
structure Item where
  name : String := ""
  qty : JsNum := .undefined
  unitPrice : JsNum := .undefined
  total : JsNum := .undefined
  totalBase : JsNum := .undefined
  assigned : List (Nat × Bool) := []
  assignedMissing : Bool := false
  extras : Option (List (String × String)) := none
  deriving DecidableEq, Repr

/-- A receipt (transaction).  `payer = none` stands for a payer that is not
of type number; `some k` for the number `k`.  `rateDate` is a timestamp and
`manualReason = none` stands for a reason that was never set;
`extraColumns` lists the pairs `{ id, name }`, `none` when the property is
missing. -/
structure Receipt where
  id : String := ""
  name : String := ""
  payer : Option Int := none
  currency : String := "EUR"
  rate : JsNum := .num 1
  rateDate : Nat := 0
  manualReason : Option String := none
  extraColumns : Option (List (String × String)) := none
  items : List Item := []
  deriving DecidableEq, Repr

/-- A folder (group): participants and receipts. -/
structure Folder where
  people : List Person
  receipts : List Receipt
  name : String := ""
  deriving DecidableEq, Repr

/-- The three accumulators of the handler: `totalOwe`, `debts` (the net
balances) and `oweMatrix` (the debt matrix). -/
structure Settlement where
  totalOwe : List ℚ
  debts : List ℚ
  oweMatrix : List (List ℚ)
  deriving DecidableEq, Repr

/-- A suggested transfer `{ from, to, amount }`; the fields `from` and `to`
are `fromIdx` and `toIdx`. -/
structure Transfer where
  fromIdx : Nat
  toIdx : Nat
  amount : ℚ
  deriving DecidableEq, Repr

/-- An entry `{ idx, val }` of the `creditors` and `debtors` arrays. -/
structure Party where
  idx : Nat
  val : ℚ
  deriving DecidableEq, Repr

/-! ## Settlement aggregation (lines 1634-1705) -/

/-- Lines 1635-1642: original indices of the non-excluded participants. -/
def activeIndices (people : List Person) : List Nat :=
  (people.enum.filter (fun p => !p.2.excluded)).map Prod.fst

/-- Lines 1649-1650 and the lookup `activeMap[origIdx]`: the position of
`origIdx` in `activeIndices`, `none` for `undefined`. -/
def activeMap : List Nat → Nat → Option Nat
  | [], _ => none
  | a :: rest, origIdx =>
    if a = origIdx then some 0 else (activeMap rest origIdx).map (· + 1)

/-- The update `arr[i] += v` on an index inside the array. -/
def addAt : List ℚ → Nat → ℚ → List ℚ
  | [], _, _ => []
  | x :: xs, 0, v => (x + v) :: xs
  | x :: xs, i + 1, v => x :: addAt xs i v

/-- Lines 1659-1668: the base value of an item. -/
def baseVal (rate : JsNum) (item : Item) : JsNum :=
  if item.totalBase.isNumber then item.totalBase
  else if item.total.isNumber && rate.truthy then
    match item.total, rate with
    | .num t, .num r => .num (t / r)
    | _, _ => .nan
  else if item.total.isNumber then item.total
  else .undefined

/-- Lines 1672-1678: one round of the loop over `Object.entries(item.assigned)`. -/
def selectStep (people : List Person) (act : List Nat) (sel : List Nat)
    (e : Nat × Bool) : List Nat :=
  if !e.2 then sel
  else if (people[e.1]?.map Person.excluded) = some true then sel
  else
    match activeMap act e.1 with
    | some ai => sel ++ [ai]
    | none => sel

/-- Lines 1670-1679: the array `selectedActive` of an item. -/
def selectedActive (people : List Person) (act : List Nat)
    (assigned : List (Nat × Bool)) : List Nat :=
  assigned.foldl (selectStep people act) []

/-- Lines 1657-1686: the effect of one item on the array `sums`. -/
def itemStep (people : List Person) (act : List Nat) (rate : JsNum)
    (sums : List ℚ) (item : Item) : List ℚ :=
  match baseVal rate item with
  | .num b =>
    if b = 0 then sums
    else
      let sel := selectedActive people act item.assigned
      if sel.length > 0 then
        let shareBase := b / sel.length
        sel.foldl (fun s ai => addAt s ai shareBase) sums
      else sums
  | _ => sums

/-- Lines 1656-1686: the array `sums` of a receipt. -/
def receiptSums (people : List Person) (act : List Nat) (receipt : Receipt) : List ℚ :=
  receipt.items.foldl (itemStep people act receipt.rate) (List.replicate act.length 0)

/-- Lines 1698-1702: every active person other than the payer owes the payer
their sum. -/
def oweUpdate (oweMatrix : List (List ℚ)) (sums : List ℚ) (payerAi : Nat) :
    List (List ℚ) :=
  (oweMatrix.zip sums).enum.map
    (fun r => if r.1 ≠ payerAi then addAt r.2.1 payerAi r.2.2 else r.2.1)

/-- Lines 1655-1705: the body of `folder.receipts.forEach`.  The result is
`none` when `folder.people[payerOrig].excluded` raises a `TypeError`, which
happens when the payer is a number that is not an index of `folder.people`. -/
def receiptStep (people : List Person) (act : List Nat) (st : Settlement)
    (receipt : Receipt) : Option Settlement :=
  let sums := receiptSums people act receipt
  let totalSpentBase := sums.foldl (· + ·) 0
  let totalOwe := List.zipWith (· + ·) st.totalOwe sums
  let debts := List.zipWith (· - ·) st.debts sums
  match receipt.payer with
  | none => some ⟨totalOwe, debts, st.oweMatrix⟩
  | some payerOrig =>
    if payerOrig < 0 then none
    else
      match people[payerOrig.toNat]? with
      | none => none
      | some person =>
        if person.excluded then some ⟨totalOwe, debts, st.oweMatrix⟩
        else
          match activeMap act payerOrig.toNat with
          | some payerAi =>
            some ⟨totalOwe, addAt debts payerAi (totalSpentBase - sums.getD payerAi 0),
              oweUpdate st.oweMatrix sums payerAi⟩
          | none => some ⟨totalOwe, debts, st.oweMatrix⟩

/-- Lines 1651-1653: the accumulators before the first receipt. -/
def initial (n : Nat) : Settlement :=
  ⟨List.replicate n 0, List.replicate n 0, List.replicate n (List.replicate n 0)⟩

/-- Lines 1634-1705, past the validation: the aggregation over all receipts
of the folder.  `none` when a receipt raises. -/
def computeSettlement (folder : Folder) : Option Settlement :=
  let act := activeIndices folder.people
  folder.receipts.foldlM (receiptStep folder.people act) (initial act.length)

/-! ## Exclusion of a participant (lines 676-682) -/

/-- Line 678: `person.excluded = !person.excluded` on the person at `idx`. -/
def togglePerson : List Person → Nat → List Person
  | [], _ => []
  | p :: ps, 0 => { p with excluded := !p.excluded } :: ps
  | p :: ps, idx + 1 => p :: togglePerson ps idx

/-- Lines 676-682: the exclusion toggle of a participant; only the person
record is written. -/
def toggleExcluded (folder : Folder) (idx : Nat) : Folder :=
  { folder with people := togglePerson folder.people idx }

/-! ## Debt minimiser (lines 1770-1792) -/

/-- The rounding `Math.round(x * 100) / 100`. -/
def round2 (x : ℚ) : ℚ := (⌊x * 100 + 1 / 2⌋ : ℤ) / 100

/-- Lines 1774-1777, first branch: the creditors, in index order. -/
def creditorsOf (debts : List ℚ) : List Party :=
  debts.enum.filterMap (fun e => if e.2 > 1 / 200 then some ⟨e.1, e.2⟩ else none)

/-- Lines 1774-1777, second branch: the debtors, in index order. -/
def debtorsOf (debts : List ℚ) : List Party :=
  debts.enum.filterMap
    (fun e => if e.2 > 1 / 200 then none else if e.2 < -(1 / 200) then some ⟨e.1, -e.2⟩ else none)

/-- Lines 1778-1779: `sort((a,b) => b.val - a.val)`, a stable sort by
descending `val`. -/
def sortDesc (l : List Party) : List Party :=
  l.insertionSort (fun a b => a.val ≥ b.val)

/-- Lines 1781-1790: the `while` loop.  The first argument bounds the number
of rounds; the lists are `creditors[ci..]` and `debtors[di..]`, whose heads
carry the values already reduced by `c.val -= pay` and `d.val -= pay`. -/
def settleLoop : Nat → List Party → List Party → List Transfer
  | 0, _, _ => []
  | _, [], _ => []
  | _, _ :: _, [] => []
  | fuel + 1, c :: cs, d :: ds =>
    let pay := min c.val d.val
    let cval := c.val - pay
    let dval := d.val - pay
    ⟨d.idx, c.idx, round2 pay⟩ ::
      settleLoop fuel
        (if cval < 1 / 200 then cs else ⟨c.idx, cval⟩ :: cs)
        (if dval < 1 / 200 then ds else ⟨d.idx, dval⟩ :: ds)

/-- Lines 1770-1792: `settleDebts`.  Every round of the loop moves past a
creditor or a debtor, so `creditors.length + debtors.length` rounds are
enough (`settleLoop_fuel`). -/
def settleDebts (debts : List ℚ) : List Transfer :=
  let creditors := sortDesc (creditorsOf debts)
  let debtors := sortDesc (debtorsOf debts)
  settleLoop (creditors.length + debtors.length) creditors debtors

/-- The balances after replaying transfers: the debtor `from` pays `amount`
to the creditor `to`, so the debtor's (negative) balance rises by `amount`
and the creditor's (positive) balance falls by `amount`. -/
def replay (debts : List ℚ) : List Transfer → List ℚ
  | [] => debts
  | t :: ts => replay (addAt (addAt debts t.fromIdx t.amount) t.toIdx (-t.amount)) ts

/-! ## The handler of the settlement button (lines 1626-1767) -/

/-- The handler of `computeAllButton` (lines 1626-1767) as seen by its
caller: one of the two messages of the input validation, a raised
`TypeError`, or the displayed result with the transfers of `settleDebts`. -/
inductive Outcome where
  | noPeople
  | noActive
  | raised
  | shown (s : Settlement) (transfers : List Transfer)
  deriving DecidableEq, Repr

/-- Lines 1626-1724: validation, aggregation and the call of `settleDebts`. -/
def computeAll (folder : Folder) : Outcome :=
  if folder.people.length = 0 then .noPeople
  else if (activeIndices folder.people).length = 0 then .noActive
  else
    match computeSettlement folder with
    | none => .raised
    | some s => .shown s (settleDebts s.debts)

/-! ## Currency conversion (lines 887-910 and 1536-1623) -/

/-- The product `a * b` of JavaScript; `undefined` and `NaN` give `NaN`. -/
def JsNum.mul : JsNum → JsNum → JsNum
  | .num a, .num b => .num (a * b)
  | _, _ => .nan

/-- The quotient `a / b` of JavaScript; `undefined` and `NaN` give `NaN`.
Infinite values are not part of the value model: a quotient by zero, which
is `NaN` or `±Infinity` in JavaScript, is `nan` here (of type number and not
a finite amount). -/
def JsNum.div : JsNum → JsNum → JsNum
  | .num a, .num b => if b = 0 then .nan else .num (a / b)
  | _, _ => .nan

/-- Lines 1538-1547: the fallback rates relative to EUR. -/
def DEFAULT_RATES : List (String × ℚ) :=
  [("EUR", 1), ("USD", 11 / 10), ("GBP", 85 / 100), ("CHF", 95 / 100), ("SEK", 11),
    ("JPY", 165), ("ALL", 110)]

/-- The rate of `code` in the table `DEFAULT_RATES`, `none` when the table
has no such key. -/
def defaultRate (code : String) : Option ℚ := DEFAULT_RATES.lookup code

/-- Line 1587: `receipt.currency || 'EUR'`. -/
def oldCurrencyOf (receipt : Receipt) : String :=
  if receipt.currency = "" then "EUR" else receipt.currency

/-- Line 1588: `receipt.rate || DEFAULT_RATES[oldCurrency] || 1.0`. -/
def oldRateOf (receipt : Receipt) : ℚ :=
  match receipt.rate with
  | .num r => if r ≠ 0 then r else (defaultRate (oldCurrencyOf receipt)).getD 1
  | _ => (defaultRate (oldCurrencyOf receipt)).getD 1

/-- Lines 1595-1615: the conversion of one item by `changeReceiptCurrency`. -/
def rescaleItem (oldRate newRate : ℚ) (item : Item) : Item :=
  if item.totalBase.isNumber && item.qty.isNumber && decide (item.qty ≠ .num 0) then
    let newUnit := (item.totalBase.mul (.num newRate)).div item.qty
    { item with unitPrice := newUnit, total := newUnit.mul item.qty }
  else if item.unitPrice.isNumber && item.qty.isNumber then
    let baseVal := (item.unitPrice.mul item.qty).div (.num oldRate)
    let newUnit := (baseVal.mul (.num newRate)).div item.qty
    { item with totalBase := baseVal, unitPrice := newUnit, total := baseVal.mul (.num newRate) }
  else if item.total.isNumber && item.qty.isNumber then
    let baseVal := item.total.div (.num oldRate)
    let newUnit := (baseVal.mul (.num newRate)).div item.qty
    { item with totalBase := baseVal, unitPrice := newUnit, total := baseVal.mul (.num newRate) }
  else item

/-- Lines 1586-1623: `changeReceiptCurrency`.  `newRate` is the number
`getRate(newCurrency)` resolved to, `apply` the answer to the `confirm`
dialog (asked only when the currency differs and the receipt has items) and
`now` the value of `Date.now()`. -/
def changeReceiptCurrency (receipt : Receipt) (newCurrency : String) (newRate : ℚ)
    (apply : Bool) (now : Nat) : Receipt :=
  let oldCurrency := oldCurrencyOf receipt
  let oldRate := oldRateOf receipt
  let items :=
    if oldCurrency ≠ newCurrency ∧ receipt.items.length > 0 ∧ apply = true then
      receipt.items.map (rescaleItem oldRate newRate)
    else receipt.items
  { receipt with items := items, currency := newCurrency, rate := .num newRate, rateDate := now }

/-- Lines 900-906: the update of one item by the manual override. -/
def overrideItem (newRate : ℚ) (item : Item) : Item :=
  if item.totalBase.isNumber && item.qty.isNumber && decide (item.qty ≠ .num 0) then
    let newUnit := (item.totalBase.mul (.num newRate)).div item.qty
    { item with unitPrice := newUnit, total := newUnit.mul item.qty }
  else item

/-- Lines 887-910: the click handler of the manual override.  `input` is the
first prompt after `parseFloat`: `undefined` when the prompt is cancelled or
left empty, `nan` when the text is not a number; `reason` is the answer to
the second prompt, `none` when it is cancelled. -/
def manualOverride (receipt : Receipt) (input : JsNum) (reason : Option String) (now : Nat) :
    Receipt :=
  match input with
  | .num newRate =>
    if newRate ≤ 0 then receipt
    else
      { receipt with
        rate := .num newRate, rateDate := now, manualReason := some (reason.getD ""),
        items := receipt.items.map (overrideItem newRate) }
  | _ => receipt

/-! ## Pending changes (lines 2382-2480) -/

/-- The lookup `obj[key]` in a JavaScript object given by its entries,
`none` for `undefined`. -/
def alookup {κ α : Type} [DecidableEq κ] : List (κ × α) → κ → Option α
  | [], _ => none
  | (k, v) :: rest, key => if k = key then some v else alookup rest key

/-- The assignment `obj[key] = v` on an object with string keys: an existing
entry is replaced in place, a new one is appended. -/
def aset {α : Type} : List (String × α) → String → α → List (String × α)
  | [], key, v => [(key, v)]
  | (k, w) :: rest, key, v => if k = key then (k, v) :: rest else (k, w) :: aset rest key v

/-- The statement `delete obj[key]`. -/
def aerase {α : Type} : List (String × α) → String → List (String × α)
  | [], _ => []
  | (k, v) :: rest, key => if k = key then aerase rest key else (k, v) :: aerase rest key

/-- The assignment `assigned[personIndex] = v`: an existing entry is replaced
in place, a new index takes its place in ascending order, the order in which
`Object.entries` lists integer keys. -/
def setAssigned : List (Nat × Bool) → Nat → Bool → List (Nat × Bool)
  | [], key, v => [(key, v)]
  | (k, w) :: rest, key, v =>
    if k = key then (k, v) :: rest
    else if key < k then (key, v) :: (k, w) :: rest
    else (k, w) :: setAssigned rest key v

/-- An entry `{ itemIndex, personIndex, assigned }` of a pending change list. -/
structure Change where
  itemIndex : Nat
  personIndex : Nat
  assigned : Bool
  deriving DecidableEq, Repr

/-- The map of pending changes stored under `receiptSplitterPending`:
owner, then receipt id, then the list of changes. -/
abbrev PendingMap := List (String × List (String × List Change))

/-- The state the merge functions work on: `data.users[owner].folders` for
every owner, and the stored map of pending changes. -/
structure AppState where
  users : List (String × List (String × Folder))
  pending : PendingMap
  deriving DecidableEq, Repr

/-- Lines 2434-2437: `getPendingChangesForReceipt`, `none` for `null`. -/
def getPendingChangesForReceipt (map : PendingMap) (owner receiptId : String) :
    Option (List Change) :=
  match alookup map owner with
  | none => none
  | some perOwner => alookup perOwner receiptId

/-- Lines 2444-2453: `discardPendingChanges`. -/
def discardPendingChanges (map : PendingMap) (owner receiptId : String) : PendingMap :=
  match alookup map owner with
  | none => map
  | some perOwner =>
    match alookup perOwner receiptId with
    | none => map
    | some _ =>
      let rest := aerase perOwner receiptId
      if rest.length = 0 then aerase map owner else aset map owner rest

/-- Lines 2444-2453 on the whole state: `discardPendingChanges` reads and
writes the stored map of pending changes only; `data` is not referred to. -/
def discardPendingChangesOn (st : AppState) (owner receiptId : String) : AppState :=
  { st with pending := discardPendingChanges st.pending owner receiptId }

/-- Lines 2473-2476: one change written into the items of the receipt; an
entry whose item does not exist is skipped. -/
def applyChange (items : List Item) (change : Change) : List Item :=
  match items[change.itemIndex]? with
  | none => items
  | some item =>
    items.set change.itemIndex
      { item with
        assigned := setAssigned item.assigned change.personIndex change.assigned
        assignedMissing := false }

/-- The receipts after `changes` are written into the first receipt whose id
is `receiptId` (`folder.receipts.find`); `none` when there is no such
receipt. -/
def applyToReceipts (changes : List Change) (receiptId : String) :
    List Receipt → Option (List Receipt)
  | [] => none
  | r :: rest =>
    if r.id = receiptId then some ({ r with items := changes.foldl applyChange r.items } :: rest)
    else (applyToReceipts changes receiptId rest).map (fun rs => r :: rs)

/-- Lines 2463-2480: `applyPendingChanges`. -/
def applyPendingChanges (st : AppState) (owner folderId receiptId : String) : AppState :=
  match getPendingChangesForReceipt st.pending owner receiptId with
  | none => st
  | some changes =>
    match alookup st.users owner with
    | none => st
    | some folders =>
      match alookup folders folderId with
      | none => st
      | some folder =>
        match applyToReceipts changes receiptId folder.receipts with
        | none => st
        | some receipts =>
          { users := aset st.users owner (aset folders folderId { folder with receipts := receipts }),
            pending := discardPendingChanges st.pending owner receiptId }

/-! ## Editing, deleting and highlighting items (lines 1242-1397) -/

/-- Lines 1242-1258: the `input` handler of the quantity field.  `val` is the
result of `parseInt(e.target.value)`, `none` for `NaN`; `rate` is
`receipt.rate`. -/
def qtyInputHandler (rate : JsNum) (item : Item) (val : Option Int) : Item :=
  let item := { item with qty := .num ((val.getD 0 : Int) : ℚ) }
  if item.unitPrice.isNumber && item.qty.isNumber then
    let totalCur := item.unitPrice.mul item.qty
    { item with total := totalCur, totalBase := totalCur.div rate }
  else
    { item with total := .undefined, totalBase := .undefined }

/-- Lines 1274-1298: the `input` handler of the unit price field.  `valStr`
is `e.target.value` and `valNum` the result of `parseFloat(valStr)`, `none`
for `NaN`; `rate` is `receipt.rate`. -/
def unitInputHandler (rate : JsNum) (item : Item) (valStr : String) (valNum : Option ℚ) :
    Item :=
  if valStr = "" then
    { item with unitPrice := .undefined, total := .undefined, totalBase := .undefined }
  else
    let item :=
      { item with unitPrice := match valNum with
                               | none => .undefined
                               | some v => .num v }
    if item.unitPrice.isNumber && item.qty.isNumber then
      let totalCur := item.unitPrice.mul item.qty
      { item with total := totalCur, totalBase := totalCur.div rate }
    else
      { item with total := .undefined, totalBase := .undefined }

/-- Lines 1391-1397: the click handler of the delete button in the row of
the item at position `index` (`receipt.items.indexOf(item)`):
`receipt.items.splice(index, 1)`. -/
def deleteItemHandler (receipt : Receipt) (index : Nat) : Receipt :=
  { receipt with items := receipt.items.eraseIdx index }

/-- Line 1373: `!!(item.assigned && item.assigned[origIndex])`. -/
def currentAssigned (item : Item) (origIndex : Nat) : Bool :=
  (alookup item.assigned origIndex).getD false

/-- Lines 1370-1380: the loop over the pending list for the cell of the item
at position `index` and the participant `origIndex`; the result tells whether
the cell is highlighted.  The loop ends at the first entry that targets the
cell. -/
def highlightLoop (index origIndex : Nat) (current : Bool) : List Change → Bool
  | [] => false
  | ch :: rest =>
    if ch.itemIndex = index ∧ ch.personIndex = origIndex then
      ch.assigned != current
    else highlightLoop index origIndex current rest

/-- Lines 1368-1381: whether `renderReceipts` highlights the cell of the item
at position `index` and the participant `origIndex` of `receipt` as waiting
for confirmation (there is no cell when there is no such item). -/
def pendingHighlight (map : PendingMap) (currentUser : String) (receipt : Receipt)
    (index origIndex : Nat) : Bool :=
  match getPendingChangesForReceipt map currentUser receipt.id, receipt.items[index]? with
  | some pendingList, some item =>
    highlightLoop index origIndex (currentAssigned item origIndex) pendingList
  | _, _ => false

/-! ## Submitting changes from a share view (lines 2414-2419, 2762-2779, 3182-3206, 3335-3357) -/

/-- Lines 2414-2419: `addPendingChange`. -/
def addPendingChange (map : PendingMap) (owner receiptId : String) (changes : List Change) :
    PendingMap :=
  aset map owner (aset ((alookup map owner).getD []) receiptId changes)

/-- A participant of a snapshot: `{ name, prefs }`. -/
structure SnapPerson where
  name : String
  prefs : List (String × Bool)
  deriving DecidableEq, Repr

/-- An item of a snapshot.  `assigned` is `none` when the value is not an
array, else the truth values `!!assigned[k]` of its elements. -/
structure SnapItem where
  name : String := ""
  qty : JsNum := .undefined
  unitPrice : JsNum := .undefined
  total : JsNum := .undefined
  extras : List (String × String) := []
  assigned : Option (List Bool) := none
  deriving DecidableEq, Repr

/-- A receipt of a snapshot. -/
structure SnapReceipt where
  id : String := ""
  name : String := ""
  payer : Option Int := none
  currency : String := "EUR"
  rate : JsNum := .num 1
  rateDate : Nat := 0
  extraColumns : List (String × String) := []
  items : List SnapItem := []
  deriving DecidableEq, Repr

/-- Lines 3187-3190 and 3342-3345: the original assignment of a snapshot item
for the chosen participant. -/
def snapshotOrig (selIdx : Nat) (it : SnapItem) : Bool :=
  match it.assigned with
  | some arr => if selIdx < arr.length then arr.getD selIdx false else false
  | none => false

/-- Line 2766: the original assignment of a live item for the chosen
participant. -/
def liveOrig (selIdx : Nat) (it : Item) : Bool :=
  (alookup it.assigned selIdx).getD false

/-- Lines 2741, 3161 and 3313: the state `cb.checked` of the checkboxes of
the items from position `idx` on, as the share views draw them. -/
def checkboxStates {α : Type} (orig : α → Bool) (current : Nat → Option Bool) :
    List α → Nat → List Bool
  | [], _ => []
  | it :: rest, idx => (current idx).getD (orig it) :: checkboxStates orig current rest (idx + 1)

/-- The body of `items.forEach((it, idx) => ...)` of the submit handlers, run
on the items from position `idx` on: `orig` gives the original assignment of
an item and `current idx` is `currentAssignments[idx]`, `none` for
`undefined`. -/
def collectPending {α : Type} (orig : α → Bool) (current : Nat → Option Bool) (selIdx : Nat) :
    List α → Nat → List Change → List Change
  | [], _, pending => pending
  | it :: rest, idx, pending =>
    let o := orig it
    let newVal := (current idx).getD o
    collectPending orig current selIdx rest (idx + 1)
      (if newVal != o then pending ++ [⟨idx, selIdx, newVal⟩] else pending)

/-- Lines 2762-2779: the submit handler of `loadShareView` on the live
receipt. -/
def submitShareView (map : PendingMap) (owner receiptId : String) (receipt : Receipt)
    (selIdx : Nat) (current : Nat → Option Bool) : PendingMap :=
  let pending := collectPending (liveOrig selIdx) current selIdx receipt.items 0 []
  if pending.length = 0 then map else addPendingChange map owner receiptId pending

/-- Lines 3182-3206: the submit handler of `loadReceiptSnapshotView`;
`owner` is `info.owner`, the empty string when it is missing. -/
def submitReceiptSnapshot (map : PendingMap) (owner : String) (receipt : SnapReceipt)
    (selIdx : Nat) (current : Nat → Option Bool) : PendingMap :=
  let pending := collectPending (snapshotOrig selIdx) current selIdx receipt.items 0 []
  if pending.length = 0 then map
  else if owner ≠ "" ∧ receipt.id ≠ "" then addPendingChange map owner receipt.id pending
  else map

/-- Lines 3338-3356: the body of `receipts.forEach` of the save handler of
`loadFolderSnapshotView`; `assignments id` is `assignments[id] || []`. -/
def saveFolderStep (owner : String) (selectedIdx : Nat)
    (assignments : String → Nat → Option Bool) (map : PendingMap) (receipt : SnapReceipt) :
    PendingMap :=
  let pending :=
    collectPending (snapshotOrig selectedIdx) (assignments receipt.id) selectedIdx receipt.items 0 []
  if pending.length > 0 ∧ owner ≠ "" ∧ receipt.id ≠ "" then
    addPendingChange map owner receipt.id pending
  else map

/-- Lines 3335-3357: the save handler of `loadFolderSnapshotView`. -/
def saveFolderSnapshot (map : PendingMap) (owner : String) (receipts : List SnapReceipt)
    (selectedIdx : Nat) (assignments : String → Nat → Option Bool) : PendingMap :=
  receipts.foldl (saveFolderStep owner selectedIdx assignments) map

/-! ## Share tokens (lines 2510-2616) -/

/-- The snapshot of a folder built on lines 2525-2552. -/
structure FolderSnapshot where
  owner : String
  folderId : String
  folderName : String
  people : List SnapPerson
  receipts : List SnapReceipt
  deriving DecidableEq, Repr

/-- The snapshot of a receipt built on lines 2560-2585. -/
structure ReceiptSnapshot where
  owner : String
  folderId : String
  receiptId : String
  receipt : SnapReceipt
  people : List SnapPerson
  deriving DecidableEq, Repr

/-- The outcome of `encodeShareData`: `raised` when the call raises (the
`TypeError` of a snapshot, or the error of `btoa` on a text with a character
above U+00FF); `token t` for the token `t` of the old format; `folder s`
and `receipt s` for the token `btoa(JSON.stringify(s))` of a snapshot, whose
serialisation is not part of the model. -/
inductive Encoded where
  | raised
  | token (t : String)
  | folder (s : FolderSnapshot)
  | receipt (s : ReceiptSnapshot)
  deriving DecidableEq, Repr

/-- Lines 2530 and 2584: `{ name: p.name, prefs: p.prefs || {} }`. -/
def snapPerson (p : Person) : SnapPerson :=
  { name := p.name, prefs := p.prefs.getD [] }

/-- Lines 2541-2548 and 2574-2581: the snapshot of an item, `none` when it
raises.  An item that has the property `assigned` holds an object, which is
truthy and has no method `slice`, so `it.assigned.slice()` raises a
`TypeError`; an item without the property gets `assigned: undefined`. -/
def snapItem (it : Item) : Option SnapItem :=
  if it.assignedMissing && it.assigned.isEmpty then
    some { name := it.name, qty := it.qty, unitPrice := it.unitPrice, total := it.total,
           extras := it.extras.getD [], assigned := none }
  else none

/-- Lines 2532-2550 and 2565-2583: the snapshot of a receipt, `none` when one
of its items raises. -/
def snapReceipt (r : Receipt) : Option SnapReceipt :=
  match r.items.mapM snapItem with
  | none => none
  | some items =>
    some { id := r.id, name := r.name, payer := r.payer, currency := r.currency,
           rate := r.rate, rateDate := r.rateDate, extraColumns := r.extraColumns.getD [],
           items := items }

/-- The character of the base64 alphabet for a 6-bit value. -/
def b64Char (n : Nat) : Char :=
  if n < 26 then Char.ofNat (n + 65)
  else if n < 52 then Char.ofNat (n - 26 + 97)
  else if n < 62 then Char.ofNat (n - 52 + 48)
  else if n = 62 then '+'
  else '/'

/-- The base64 characters of a list of bytes: three bytes give four
characters; one or two left over bytes give two or three characters and
the padding `=` up to four. -/
def b64Chars : List Nat → List Char
  | a :: b :: c :: rest =>
    b64Char (a / 4) :: b64Char (a % 4 * 16 + b / 16) :: b64Char (b % 16 * 4 + c / 64) ::
      b64Char (c % 64) :: b64Chars rest
  | [a, b] => [b64Char (a / 4), b64Char (a % 4 * 16 + b / 16), b64Char (b % 16 * 4), '=']
  | [a] => [b64Char (a / 4), b64Char (a % 4 * 16), '=', '=']
  | [] => []

/-- The function `btoa` of the platform, `none` when it raises: the text
must consist of characters below U+0100. -/
def btoa (text : String) : Option String :=
  if text.toList.all (fun c => c.toNat < 256) then
    some (String.mk (b64Chars (text.toList.map Char.toNat)))
  else none

/-- The text of the old format: the template literal
`${owner}|${folderId}|${receiptId}`, an undefined receipt id printing as
`undefined`. -/
def legacyText (owner folderId : String) (receiptId : Option String) : String :=
  owner ++ "|" ++ folderId ++ "|" ++ receiptId.getD "undefined"

/-- Lines 2517, 2521 and 2558: the token of the old format,
`btoa` of the text `owner|folderId|receiptId`. -/
def legacyToken (owner folderId : String) (receiptId : Option String) : Encoded :=
  match btoa (legacyText owner folderId receiptId) with
  | some t => .token t
  | none => .raised

/-- Lines 2510-2587: `encodeShareData` on the users `data.users` as loaded;
`receiptId = none` stands for `undefined`. -/
def encodeShareData (users : List (String × List (String × Folder))) (owner folderId : String)
    (receiptId : Option String) : Encoded :=
  match alookup users owner with
  | none => legacyToken owner folderId receiptId
  | some folders =>
    match alookup folders folderId with
    | none => legacyToken owner folderId receiptId
    | some folder =>
      if receiptId = some "folder" ∨ receiptId = none then
        match folder.receipts.mapM snapReceipt with
        | none => .raised
        | some receipts =>
          .folder { owner := owner, folderId := folderId, folderName := folder.name,
                    people := folder.people.map snapPerson, receipts := receipts }
      else
        match folder.receipts.find? (fun r => some r.id = receiptId) with
        | none => legacyToken owner folderId receiptId
        | some receipt =>
          match snapReceipt receipt with
          | none => .raised
          | some r =>
            .receipt { owner := owner, folderId := folderId, receiptId := receiptId.getD "",
                       receipt := r, people := folder.people.map snapPerson }

/-- The value of a character of the base64 alphabet. -/
def b64Value (c : Char) : Option Nat :=
  if 'A' ≤ c ∧ c ≤ 'Z' then some (c.toNat - 65)
  else if 'a' ≤ c ∧ c ≤ 'z' then some (c.toNat - 97 + 26)
  else if '0' ≤ c ∧ c ≤ '9' then some (c.toNat - 48 + 52)
  else if c = '+' then some 62
  else if c = '/' then some 63
  else none

/-- The bytes of a list of 6-bit values: four values give three bytes, three
left over values two bytes and two left over values one byte, the spare
bits being dropped. -/
def b64Bytes : List Nat → List Nat
  | a :: b :: c :: d :: rest =>
    let n := ((a * 64 + b) * 64 + c) * 64 + d
    (n / 65536) :: (n / 256 % 256) :: (n % 256) :: b64Bytes rest
  | [a, b, c] =>
    let n := (a * 64 + b) * 64 + c
    [n / 1024, n / 4 % 256]
  | [a, b] => [(a * 64 + b) / 16]
  | _ => []

/-- The ASCII whitespace that `atob` removes. -/
def isAsciiWs (c : Char) : Bool :=
  c = '\t' || c = '\n' || c = '\x0c' || c = '\r' || c = ' '

/-- The padding step of `atob`: when the length is a multiple of four, one or
two `=` at the end are removed. -/
def stripPadding (data : List Char) : List Char :=
  if data.length % 4 = 0 then
    match data.reverse with
    | '=' :: '=' :: rest => rest.reverse
    | '=' :: rest => rest.reverse
    | _ => data
  else data

/-- The function `atob` of the platform (forgiving base64 decoding), `none`
when it raises. -/
def atob (token : String) : Option String :=
  let data := stripPadding (token.toList.filter (fun c => !isAsciiWs c))
  if data.length % 4 = 1 then none
  else
    match data.mapM b64Value with
    | none => none
    | some values => some (String.mk ((b64Bytes values).map Char.ofNat))

/-- A JSON value as `JSON.parse` returns it; the members of an object are
listed in the order of the text. -/
inductive Json where
  | null
  | bool (b : Bool)
  | num (q : ℚ)
  | str (s : String)
  | arr (elems : List Json)
  | obj (members : List (String × Json))

/-- The whitespace of JSON texts. -/
def isJsonWs (c : Char) : Bool :=
  c = ' ' || c = '\t' || c = '\n' || c = '\r'

/-- The text without its leading JSON whitespace. -/
def skipWs : List Char → List Char
  | [] => []
  | c :: cs => if isJsonWs c then skipWs cs else c :: cs

/-- The value of a hexadecimal digit. -/
def hexValue (c : Char) : Option Nat :=
  if '0' ≤ c ∧ c ≤ '9' then some (c.toNat - 48)
  else if 'a' ≤ c ∧ c ≤ 'f' then some (c.toNat - 97 + 10)
  else if 'A' ≤ c ∧ c ≤ 'F' then some (c.toNat - 65 + 10)
  else none

/-- The character of the escape `\uXXXX` with the four digits given.  A
surrogate code unit, which no `Char` holds, is read as U+FFFD. -/
def unicodeEscape (a b c d : Char) : Option Char :=
  match hexValue a, hexValue b, hexValue c, hexValue d with
  | some x, some y, some z, some w =>
    let n := ((x * 16 + y) * 16 + z) * 16 + w
    some (if 0xD800 ≤ n ∧ n ≤ 0xDFFF then Char.ofNat 0xFFFD else Char.ofNat n)
  | _, _, _, _ => none

/-- The rest of a JSON string after its opening quote: the characters of the
string (collected in `acc` in reverse) and the text after the closing quote. -/
def parseStringBody : List Char → List Char → Option (List Char × List Char)
  | [], _ => none
  | '"' :: rest, acc => some (acc.reverse, rest)
  | '\\' :: 'u' :: a :: b :: c :: d :: rest, acc =>
    match unicodeEscape a b c d with
    | some ch => parseStringBody rest (ch :: acc)
    | none => none
  | '\\' :: e :: rest, acc =>
    if e = '"' then parseStringBody rest ('"' :: acc)
    else if e = '\\' then parseStringBody rest ('\\' :: acc)
    else if e = '/' then parseStringBody rest ('/' :: acc)
    else if e = 'b' then parseStringBody rest ('\x08' :: acc)
    else if e = 'f' then parseStringBody rest ('\x0c' :: acc)
    else if e = 'n' then parseStringBody rest ('\n' :: acc)
    else if e = 'r' then parseStringBody rest ('\r' :: acc)
    else if e = 't' then parseStringBody rest ('\t' :: acc)
    else none
  | c :: rest, acc =>
    if c.toNat < 32 ∨ c = '\\' then none else parseStringBody rest (c :: acc)

/-- Whether the character is a decimal digit. -/
def isDigitChar (c : Char) : Bool := decide (48 ≤ c.toNat ∧ c.toNat ≤ 57)

/-- The number that a list of decimal digits denotes. -/
def digitsValue (ds : List Char) : Nat :=
  ds.foldl (fun n c => n * 10 + (c.toNat - 48)) 0

/-- The optional fraction of a JSON number, a point and at least one digit:
its digits and the text after it. -/
def parseFraction (cs : List Char) : Option (List Char × List Char) :=
  match cs with
  | '.' :: rest =>
    if rest.takeWhile isDigitChar = [] then none
    else some (rest.takeWhile isDigitChar, rest.dropWhile isDigitChar)
  | _ => some ([], cs)

/-- The optional exponent of a JSON number, `e` or `E`, an optional sign and
at least one digit: its value and the text after it. -/
def parseExponent (cs : List Char) : Option (Int × List Char) :=
  match cs with
  | [] => some (0, cs)
  | e :: rest =>
    if e = 'e' ∨ e = 'E' then
      let sign : Int := if rest.head? = some '-' then -1 else 1
      let rest1 := if rest.head? = some '-' ∨ rest.head? = some '+' then rest.tail else rest
      if rest1.takeWhile isDigitChar = [] then none
      else
        some (sign * (digitsValue (rest1.takeWhile isDigitChar) : Int),
          rest1.dropWhile isDigitChar)
    else some (0, cs)

/-- A JSON number at the head of the text (an optional minus sign, an integer
part without leading zero, an optional fraction and an optional exponent) and
the text after it.  The value is the exact rational; the rounding to a double
is not part of the model. -/
def parseNumber (cs : List Char) : Option (ℚ × List Char) :=
  let neg := decide (cs.head? = some '-')
  let cs1 := if neg then cs.tail else cs
  let intDigits := cs1.takeWhile isDigitChar
  if intDigits = [] ∨ (intDigits.length > 1 ∧ intDigits.head? = some '0') then none
  else
    match parseFraction (cs1.dropWhile isDigitChar) with
    | none => none
    | some (fracDigits, cs3) =>
      match parseExponent cs3 with
      | none => none
      | some (exp, cs4) =>
        let mantissa : ℚ :=
          (digitsValue intDigits : ℚ) + (digitsValue fracDigits : ℚ) / 10 ^ fracDigits.length
        let value := mantissa * (10 : ℚ) ^ exp
        some (if neg then -value else value, cs4)

mutual
/-- A JSON value at the head of the text (after whitespace) and the text
after it; `fuel` bounds the number of nested calls. -/
def parseValue : Nat → List Char → Option (Json × List Char)
  | 0, _ => none
  | fuel + 1, cs =>
    match skipWs cs with
    | [] => none
    | c :: rest =>
      if c = '{' then
        match skipWs rest with
        | [] => none
        | d :: rest1 =>
          if d = '}' then some (.obj [], rest1)
          else (parseMembers fuel (d :: rest1)).map (fun p => (.obj p.1, p.2))
      else if c = '[' then
        match skipWs rest with
        | [] => none
        | d :: rest1 =>
          if d = ']' then some (.arr [], rest1)
          else (parseElems fuel (d :: rest1)).map (fun p => (.arr p.1, p.2))
      else if c = '"' then (parseStringBody rest []).map (fun p => (.str (String.mk p.1), p.2))
      else if c = 't' then
        match rest with
        | 'r' :: 'u' :: 'e' :: rest1 => some (.bool true, rest1)
        | _ => none
      else if c = 'f' then
        match rest with
        | 'a' :: 'l' :: 's' :: 'e' :: rest1 => some (.bool false, rest1)
        | _ => none
      else if c = 'n' then
        match rest with
        | 'u' :: 'l' :: 'l' :: rest1 => some (.null, rest1)
        | _ => none
      else (parseNumber (c :: rest)).map (fun p => (.num p.1, p.2))
/-- The elements of an array up to the closing bracket. -/
def parseElems : Nat → List Char → Option (List Json × List Char)
  | 0, _ => none
  | fuel + 1, cs =>
    match parseValue fuel cs with
    | none => none
    | some (v, rest) =>
      match skipWs rest with
      | [] => none
      | d :: rest1 =>
        if d = ',' then (parseElems fuel rest1).map (fun p => (v :: p.1, p.2))
        else if d = ']' then some ([v], rest1)
        else none
/-- The members of an object up to the closing brace. -/
def parseMembers : Nat → List Char → Option (List (String × Json) × List Char)
  | 0, _ => none
  | fuel + 1, cs =>
    match skipWs cs with
    | [] => none
    | q :: rest =>
      if q = '"' then
        match parseStringBody rest [] with
        | none => none
        | some (key, rest1) =>
          match skipWs rest1 with
          | [] => none
          | colon :: rest2 =>
            if colon = ':' then
              match parseValue fuel rest2 with
              | none => none
              | some (v, rest3) =>
                match skipWs rest3 with
                | [] => none
                | d :: rest4 =>
                  if d = ',' then
                    (parseMembers fuel rest4).map (fun p => ((String.mk key, v) :: p.1, p.2))
                  else if d = '}' then some ([(String.mk key, v)], rest4)
                  else none
            else none
      else none
end

/-- The function `JSON.parse` of the platform, `none` when it raises.  Every
nested call of the parser consumes a character, so the fuel of twice the
length of the text is never used up (`parseValue_fuel`). -/
def jsonParse (text : String) : Option Json :=
  match parseValue (2 * text.length + 2) text.toList with
  | some (v, rest) => if skipWs rest = [] then some v else none
  | none => none

/-- The whitespace and line terminators that `String.prototype.trim`
removes. -/
def isJsSpace (c : Char) : Bool :=
  let n := c.toNat
  (9 ≤ n ∧ n ≤ 13) || n = 32 || n = 160 || n = 0x1680 || (0x2000 ≤ n ∧ n ≤ 0x200A) ||
    n = 0x2028 || n = 0x2029 || n = 0x202F || n = 0x205F || n = 0x3000 || n = 0xFEFF

/-- The test `decoded.trim().startsWith('{')`. -/
def startsWithBrace (decoded : String) : Bool :=
  (decoded.toList.dropWhile isJsSpace).head? = some '{'

/-- One step of `split('|')`: the fields of the text, `field` holding the
characters of the current field in reverse. -/
def splitPipeFrom (field : List Char) : List Char → List String
  | [] => [String.mk field.reverse]
  | c :: rest =>
    if c = '|' then String.mk field.reverse :: splitPipeFrom [] rest
    else splitPipeFrom (c :: field) rest

/-- The call `decoded.split('|')`. -/
def splitPipe (decoded : String) : List String := splitPipeFrom [] decoded.toList

/-- What `decodeShareData` returns: the object read by `JSON.parse`, or the
object `{ owner, folderId, receiptId }` of the old format. -/
inductive Decoded where
  | structured (value : Json)
  | legacy (owner folderId receiptId : String)

/-- Lines 2608-2612: the reading of the old format, `none` for `null`. -/
def legacyFields (decoded : String) : Option Decoded :=
  match splitPipe decoded with
  | [owner, folderId, receiptId] => some (.legacy owner folderId receiptId)
  | _ => none

/-- Lines 2599-2612: the reading of the decoded text; a text that
`JSON.parse` rejects falls through to the old format. -/
def decodeText (decoded : String) : Option Decoded :=
  let parsed : Option Json :=
    if decoded ≠ "" ∧ startsWithBrace decoded = true then jsonParse decoded else none
  match parsed with
  | some value => some (.structured value)
  | none => legacyFields decoded

/-- Lines 2595-2616: `decodeShareData`, `none` for `null`. -/
def decodeShareData (token : String) : Option Decoded :=
  match atob token with
  | none => none
  | some decoded => decodeText decoded

/-! ## The exchange rate of a currency (lines 1561-1578) -/

/-- A JavaScript value as the live lookup yields it and `getRate` returns
it: `num q` is a finite number; `arr joined` is an array whose elements
joined by commas give the text `joined` (the string value of the array, from
which its number value is read); `obj` is any other object or a function,
whose number value is `NaN`. -/
inductive JsVal where
  | undefined
  | null
  | bool (b : Bool)
  | num (q : ℚ)
  | str (s : String)
  | arr (joined : String)
  | obj
  deriving DecidableEq, Repr

/-- The truth value of a value in a condition. -/
def JsVal.truthy : JsVal → Bool
  | .undefined => false
  | .null => false
  | .bool b => b
  | .num q => q ≠ 0
  | .str s => s ≠ ""
  | .arr _ => true
  | .obj => true

/-- The text without one leading sign. -/
def stripSign : List Char → List Char
  | '+' :: rest => rest
  | '-' :: rest => rest
  | cs => cs

/-- Whether the text is empty or an exponent part: `e` or `E`, an optional
sign and at least one digit. -/
def isExponentPart : List Char → Bool
  | [] => true
  | e :: rest =>
    (e = 'e' || e = 'E') && (stripSign rest ≠ [] && (stripSign rest).all isDigitChar)

/-- Whether the text is an unsigned decimal literal of a numeric string:
`Infinity`, or digits with an optional point and an optional exponent, at
least one digit standing before the exponent. -/
def isUnsignedDecimal (cs : List Char) : Bool :=
  cs = "Infinity".toList ||
    (match cs.dropWhile isDigitChar with
     | '.' :: rest =>
       (cs.takeWhile isDigitChar ≠ [] || rest.takeWhile isDigitChar ≠ []) &&
         isExponentPart (rest.dropWhile isDigitChar)
     | rest => cs.takeWhile isDigitChar ≠ [] && isExponentPart rest)

/-- Whether the text is a hexadecimal, binary or octal literal of a numeric
string. -/
def isRadixLiteral : List Char → Bool
  | '0' :: x :: ds =>
    ds ≠ [] &&
      (((x = 'x' || x = 'X') && ds.all (fun c => (hexValue c).isSome)) ||
        ((x = 'b' || x = 'B') && ds.all (fun c => c = '0' || c = '1')) ||
        ((x = 'o' || x = 'O') && ds.all (fun c => decide (48 ≤ c.toNat ∧ c.toNat ≤ 55))))
  | _ => false

/-- Whether the number value of the text (`Number(text)`) is a number other
than `NaN`: after trimming, the text is empty, a signed decimal literal or a
literal in another radix. -/
def isNumericText (text : String) : Bool :=
  let cs := ((text.toList.dropWhile isJsSpace).reverse.dropWhile isJsSpace).reverse
  cs = [] || isUnsignedDecimal (stripSign cs) || isRadixLiteral cs

/-- The call `isNaN(v)`: whether the number value of `v` is `NaN`. -/
def JsVal.isNaN : JsVal → Bool
  | .undefined => true
  | .null => false
  | .bool _ => false
  | .num _ => false
  | .str s => !isNumericText s
  | .arr joined => !isNumericText joined
  | .obj => true

/-- The outcome of the live lookup of `getRate`: `failed` when a call inside
the `try` block raises (`fetch`, `res.json()`, or the conversion of the value
to a number), else the value of `json && json.rates && json.rates[code]`,
which is any value of the parsed response, or `undefined` when a key is
missing. -/
inductive Live where
  | failed
  | value (v : JsVal)
  deriving DecidableEq, Repr

/-- The names of the properties that every object inherits from
`Object.prototype`. -/
def objectPrototypeNames : List String :=
  ["constructor", "hasOwnProperty", "isPrototypeOf", "propertyIsEnumerable", "toLocaleString",
    "toString", "valueOf", "__proto__", "__defineGetter__", "__defineSetter__",
    "__lookupGetter__", "__lookupSetter__"]

/-- The property access `DEFAULT_RATES[code]`: the rate of the table, an
inherited property (a function or an object), or `undefined`. -/
def tableValue (code : String) : JsVal :=
  match defaultRate code with
  | some q => .num q
  | none => if code ∈ objectPrototypeNames then .obj else .undefined

/-- Line 1577: `DEFAULT_RATES[code] || 1.0`. -/
def fallbackRate (code : String) : JsVal :=
  if (tableValue code).truthy then tableValue code else .num 1

/-- Lines 1567-1578: `getRate`, given the outcome of the live lookup. -/
def getRate (code : String) (live : Live) : JsVal :=
  if code = "EUR" then .num 1
  else
    match live with
    | .value v => if v.truthy && !v.isNaN then v else fallbackRate code
    | .failed => fallbackRate code

/-! ## Notions used to state the properties -/

/-- The participant with original index `idx` exists and is not excluded. -/
def isActive (people : List Person) (idx : Nat) : Bool :=
  match people[idx]? with
  | some p => !p.excluded
  | none => false

/-- Follows the spec's words (`activeAssignees`): all indices where
`assigned[idx] == true` and `participants[idx].excluded == false`, in the
order of the entries. -/
def activeAssignees (people : List Person) (assigned : List (Nat × Bool)) : List Nat :=
  (assigned.filter (fun e => e.2 && isActive people e.1)).map Prod.fst

/-- The choice made by one round of the loop over the assignment entries. -/
def selectOf (people : List Person) (act : List Nat) (e : Nat × Bool) : Option Nat :=
  if e.2 = true ∧ (people[e.1]?.map Person.excluded) ≠ some true then activeMap act e.1 else none

/-- The numeric base value of an item, nothing when the base value is
`undefined` or `NaN` (the handler skips such an item). -/
def baseAmount (rate : JsNum) (item : Item) : ℚ :=
  match baseVal rate item with
  | .num b => b
  | _ => 0

/-- The amount an item adds to the consumption of a receipt: its base value
when that is a number and the item has an active assignee, else nothing. -/
def itemAmount (people : List Person) (act : List Nat) (rate : JsNum) (item : Item) : ℚ :=
  match baseVal rate item with
  | .num b => if selectedActive people act item.assigned = [] then 0 else b
  | _ => 0

/-- The payer check of lines 1692-1695: the active index of the payer when
the payer is a participant who is not excluded. -/
def payerAi (people : List Person) (act : List Nat) (receipt : Receipt) : Option Nat :=
  match receipt.payer with
  | none => none
  | some payerOrig =>
    if payerOrig < 0 then none
    else
      match people[payerOrig.toNat]? with
      | none => none
      | some person => if person.excluded then none else activeMap act payerOrig.toNat

/-- The payer is not a number, or is an index of `folder.people`, so that
`folder.people[payerOrig].excluded` does not raise. -/
def validPayer (people : List Person) (receipt : Receipt) : Bool :=
  match receipt.payer with
  | none => true
  | some payerOrig => decide (0 ≤ payerOrig) && decide (payerOrig.toNat < people.length)

/-- The accumulators after a receipt that does not raise. -/
def stepResult (people : List Person) (act : List Nat) (st : Settlement)
    (receipt : Receipt) : Settlement :=
  let sums := receiptSums people act receipt
  match payerAi people act receipt with
  | some p =>
    ⟨List.zipWith (· + ·) st.totalOwe sums,
      addAt (List.zipWith (· - ·) st.debts sums) p (sums.foldl (· + ·) 0 - sums.getD p 0),
      oweUpdate st.oweMatrix sums p⟩
  | none =>
    ⟨List.zipWith (· + ·) st.totalOwe sums, List.zipWith (· - ·) st.debts sums, st.oweMatrix⟩

/-- The accumulators have the dimensions of `n` active participants. -/
def Settlement.WF (n : Nat) (st : Settlement) : Prop :=
  st.totalOwe.length = n ∧ st.debts.length = n ∧ st.oweMatrix.length = n ∧
    ∀ row ∈ st.oweMatrix, row.length = n

/-- The change of the net balance of active participant `i` by one receipt. -/
def debtDelta (people : List Person) (act : List Nat) (i : Nat) (r : Receipt) : ℚ :=
  - (receiptSums people act r).getD i 0 +
    if payerAi people act r = some i then
      (receiptSums people act r).sum - (receiptSums people act r).getD i 0
    else 0

/-- The change of the debt-matrix cell `[a][p]` by one receipt. -/
def oweDelta (people : List Person) (act : List Nat) (a p : Nat) (r : Receipt) : ℚ :=
  if payerAi people act r = some p ∧ a ≠ p then (receiptSums people act r).getD a 0 else 0

/-- The change of the sum of the net balances by one receipt. -/
def sumDelta (people : List Person) (act : List Nat) (r : Receipt) : ℚ :=
  match payerAi people act r with
  | some p => - (receiptSums people act r).getD p 0
  | none => - (receiptSums people act r).sum

/-- The amount is a whole number of cents. -/
def wholeCents (v : ℚ) : Prop := ((⌊v * 100⌋ : ℤ) : ℚ) = v * 100

instance decidableWholeCents (v : ℚ) : Decidable (wholeCents v) := by
  unfold wholeCents; infer_instance

/-- The sum of the values that the parties with index `i` hold in a list of
creditors or debtors. -/
def held (ps : List Party) (i : Nat) : ℚ :=
  (ps.map (fun c => if c.idx = i then c.val else 0)).sum

/-- The sum of the values of a list of creditors or debtors. -/
def totalVal (ps : List Party) : ℚ := (ps.map Party.val).sum

/-- Every value of the list is a positive whole number of cents. -/
def PosCents (ps : List Party) : Prop := ∀ c ∈ ps, ∃ k : ℤ, 0 < k ∧ c.val = k / 100

/-- The parties chosen from the balances `l`, numbered from `k`, by a choice
`sel` of the value to hold. -/
def partiesFrom (sel : ℚ → Option ℚ) (k : Nat) (l : List ℚ) : List Party :=
  (l.enumFrom k).filterMap (fun e => (sel e.2).map (fun v => (⟨e.1, v⟩ : Party)))

/-- The value a balance holds as a creditor. -/
def creditPart (v : ℚ) : Option ℚ := if v > 1 / 200 then some v else none

/-- The value a balance holds as a debtor. -/
def debitPart (v : ℚ) : Option ℚ :=
  if v > 1 / 200 then none else if v < -(1 / 200) then some (-v) else none

/-- The cell `items[i].assigned[p]`, `none` for `undefined` or a missing item. -/
def cell (items : List Item) (i p : Nat) : Option Bool :=
  (items[i]?).bind (fun item => alookup item.assigned p)

/-- The value of the last change of the list that targets the cell `(i, p)`. -/
def lastTarget : List Change → Nat → Nat → Option Bool
  | [], _, _ => none
  | c :: rest, i, p =>
    (lastTarget rest i p).or
      (if c.itemIndex = i ∧ c.personIndex = p then some c.assigned else none)

/-- The item without its `assigned` mapping. -/
def clearAssigned (item : Item) : Item :=
  { item with assigned := [], assignedMissing := false }

/-- The number of entries of an object that carry the key `key`. -/
def keyCount {α : Type} (m : List (String × α)) (key : String) : Nat :=
  (m.filter (fun e => e.1 = key)).length

/-- Every owner and, below every owner, every receipt id occurs at most once
as a key of the map, as in every JavaScript object. -/
def PendingMap.KeysUnique (map : PendingMap) : Prop :=
  (∀ o, keyCount map o ≤ 1) ∧ ∀ e ∈ map, ∀ r, keyCount e.2 r ≤ 1

/-- The entries of a submission as the specification words them: one entry
`{ itemIndex: i, personIndex: p, assigned: v }` for every item `i`, in
ascending order, whose checkbox value `v` differs from its original
assignment. -/
def xorEntries (origs checks : List Bool) (p : Nat) : List Change :=
  (((origs.zip checks).enum.filter (fun e => e.2.2 != e.2.1)).map
    (fun e => (⟨e.1, p, e.2.2⟩ : Change)))

/-- The first entry of a pending list that targets the cell `(i, p)`. -/
def firstTarget (pendingList : List Change) (i p : Nat) : Option Change :=
  pendingList.find? (fun ch => ch.itemIndex = i ∧ ch.personIndex = p)

/-- The 6-bit values of a list of bytes, without padding. -/
def sextets : List Nat → List Nat
  | a :: b :: c :: rest =>
    a / 4 :: (a % 4 * 16 + b / 16) :: (b % 16 * 4 + c / 64) :: c % 64 :: sextets rest
  | [a, b] => [a / 4, a % 4 * 16 + b / 16, b % 16 * 4]
  | [a] => [a / 4, a % 4 * 16]
  | [] => []

/-- The padding of the base64 form of a list of bytes. -/
def padding : List Nat → List Char
  | _ :: _ :: _ :: rest => padding rest
  | [_, _] => ['=']
  | [_] => ['=', '=']
  | [] => []

/-! ## Scenarios -/

/-- Participant `A` of the scenarios. -/
def personA : Person := { name := "A" }

/-- Participant `B` of the scenarios. -/
def personB : Person := { name := "B" }

/-- An excluded participant `C`. -/
def personC : Person := { name := "C", excluded := true }

/-- One item `{unitPrice: 10, qty: 1}` in EUR at rate 1 (total and base value
10), assigned to `A` and `B`. -/
def sharedItem : Item :=
  { name := "item", qty := .num 1, unitPrice := .num 10, total := .num 10,
    totalBase := .num 10, assigned := [(0, true), (1, true)] }

/-- The same item with no assignee. -/
def unassignedItem : Item :=
  { name := "item", qty := .num 1, unitPrice := .num 10, total := .num 10,
    totalBase := .num 10, assigned := [] }

/-- Scenario: participants `[A, B]`, one receipt in EUR at rate 1 paid by `A`
with the shared item. -/
def scenarioShared : Folder :=
  { people := [personA, personB],
    receipts := [{ id := "1", payer := some 0, currency := "EUR", rate := .num 1,
                   items := [sharedItem] }] }

/-- Scenario: as `scenarioShared`, the item having no assignee. -/
def scenarioUnassigned : Folder :=
  { people := [personA, personB],
    receipts := [{ id := "1", payer := some 0, currency := "EUR", rate := .num 1,
                   items := [unassignedItem] }] }

/-- Scenario: participants `[A, B, C]` with `C` excluded; `C` paid the receipt
with the shared item. -/
def scenarioExcludedPayer : Folder :=
  { people := [personA, personB, personC],
    receipts := [{ id := "1", payer := some 2, currency := "EUR", rate := .num 1,
                   items := [sharedItem] }] }

/-- Scenario: `A` paid an item of base value 10 that only `B` consumed. -/
def scenarioPaidForOther : Folder :=
  { people := [personA, personB],
    receipts := [{ id := "1", payer := some 0, currency := "EUR", rate := .num 1,
                   items := [({ sharedItem with assigned := [(1, true)] } : Item)] }] }

/-- A refund line: base value `-10`, assigned to `A`. -/
def refundItem : Item :=
  { name := "refund", qty := .num 1, unitPrice := .num (-10), total := .num (-10),
    totalBase := .num (-10), assigned := [(0, true)] }

/-- A receipt holding the refund line, paid by the participant at index 1. -/
def refundReceipt : Receipt :=
  { id := "2", payer := some 1, currency := "EUR", rate := .num 1, items := [refundItem] }

/-- A folder with participant `A` whose receipt still holds the payer `-1`
that the creation handlers store for a folder without participants. -/
def scenarioPayerNone : Folder :=
  { people := [personA],
    receipts := [{ id := "1", payer := some (-1), currency := "EUR", rate := .num 1,
                   items := [] }] }

/-- An item with base value 10 and quantity 1. -/
def baseItem : Item :=
  { name := "item", qty := .num 1, unitPrice := .num 10, total := .num 10, totalBase := .num 10 }

/-- An EUR receipt at rate 1 holding `baseItem`. -/
def eurReceipt : Receipt :=
  { id := "1", payer := some 0, currency := "EUR", rate := .num 1, items := [baseItem] }

/-- An item of quantity 0 that carries a total and a base value of 10 and no
unit price. -/
def zeroQtyItem : Item :=
  { name := "item", qty := .num 0, unitPrice := .undefined, total := .num 10,
    totalBase := .num 10 }

/-- A USD receipt at rate 1.1 holding `zeroQtyItem`. -/
def usdReceiptZeroQty : Receipt :=
  { id := "1", payer := some 0, currency := "USD", rate := .num (11 / 10),
    items := [zeroQtyItem] }

/-- An item with unit price 5 and quantity 1 in a receipt at rate 1. -/
def pricedItem : Item :=
  { name := "item", qty := .num 1, unitPrice := .num 5, total := .num 5, totalBase := .num 5 }

/-- The item `pricedItem` after the quantity 0 is typed into its quantity
field: total and base value are 0. -/
def pricedItemZeroQty : Item :=
  { name := "item", qty := .num 0, unitPrice := .num 5, total := .num 0, totalBase := .num 0 }

/-- An EUR receipt at rate 1 holding `pricedItemZeroQty`. -/
def eurReceiptZeroQty : Receipt :=
  { id := "1", payer := some 0, currency := "EUR", rate := .num 1,
    items := [pricedItemZeroQty] }

/-- An item with unit price 10 and quantity 1 that has no base value. -/
def legacyItem : Item :=
  { name := "item", qty := .num 1, unitPrice := .num 10, total := .num 10,
    totalBase := .undefined }

/-- An EUR receipt at rate 1 holding `legacyItem`. -/
def eurReceiptLegacy : Receipt :=
  { id := "1", payer := some 0, currency := "EUR", rate := .num 1, items := [legacyItem] }

/-- The receipt `r1` with the shared and the unassigned item. -/
def mergeReceipt : Receipt :=
  { id := "r1", payer := some 0, items := [sharedItem, unassignedItem] }

/-- The folder `f1` of the merge scenario. -/
def mergeFolder : Folder := { people := [personA, personB], receipts := [mergeReceipt] }

/-- Pending changes for `r1`: tick item 1 for participant 1, tick the missing
item 5 for participant 0, untick item 0 for participant 0. -/
def mergeChanges : List Change := [⟨1, 1, true⟩, ⟨5, 0, true⟩, ⟨0, 0, false⟩]

/-- The owner `anna` with the folder `f1` and the pending changes for `r1`. -/
def mergeState : AppState :=
  { users := [("anna", [("f1", mergeFolder)])],
    pending := [("anna", [("r1", mergeChanges)])] }

/-- The folder `f1` after the owner deleted item 0 of the receipt `r1`, with
the pending change that ticks item 0 for participant 1. -/
def deleteState : AppState :=
  { users := [("anna", [("f1", { mergeFolder with
                                  receipts := [deleteItemHandler mergeReceipt 0] })])],
    pending := [("anna", [("r1", [⟨0, 1, true⟩])])] }

/-- A pending list that targets the cell `(0, 0)` twice: first with the
value `false`, then with the value `true`. -/
def twiceTargeted : PendingMap := [("anna", [("r1", [⟨0, 0, false⟩, ⟨0, 0, true⟩])])]

/-- The receipt `r1` holding the unassigned item. -/
def unassignedReceipt : Receipt := { id := "r1", payer := some 0, items := [unassignedItem] }

/-- A snapshot receipt `r1` with two items, the first assigned to
participant 1 and the second to nobody. -/
def snapReceiptTwo : SnapReceipt :=
  { id := "r1", items := [{ name := "a", assigned := some [false, true] },
                          { name := "b", assigned := some [false, false] }] }

/-- The receipt of the shared-item scenario. -/
def sharedReceipt : Receipt :=
  { id := "1", payer := some 0, currency := "EUR", rate := .num 1, items := [sharedItem] }

/-! ## Arrays, active participants and the sums of a receipt -/

theorem length_addAt (l : List ℚ) : ∀ (i : Nat) (v : ℚ), (addAt l i v).length = l.length := by
  induction l with
  | nil => intro i v; rfl
  | cons x xs ih =>
    intro i v
    cases i with
    | zero => rfl
    | succ i => simp [addAt, ih]

theorem getD_addAt (l : List ℚ) :
    ∀ (i j : Nat) (v : ℚ),
      (addAt l i v).getD j 0 = l.getD j 0 + if j = i ∧ i < l.length then v else 0 := by
  induction l with
  | nil => intro i j v; simp [addAt]
  | cons x xs ih =>
    intro i j v
    cases i with
    | zero =>
      cases j with
      | zero => simp [addAt]
      | succ j => simp [addAt]
    | succ i =>
      cases j with
      | zero => simp [addAt]
      | succ j =>
        have := ih i j v
        simp only [List.getD_cons_succ, addAt, this]
        simp

theorem sum_addAt (l : List ℚ) :
    ∀ (i : Nat) (v : ℚ), i < l.length → (addAt l i v).sum = l.sum + v := by
  induction l with
  | nil => intro i v h; simp at h
  | cons x xs ih =>
    intro i v h
    cases i with
    | zero => simp [addAt]; ring
    | succ i =>
      have := ih i v (by simpa using h)
      simp [addAt, this]; ring

theorem foldl_add_eq_sum (l : List ℚ) : l.foldl (· + ·) 0 = l.sum := by
  rw [List.sum_eq_foldl]

theorem activeMap_some (act : List Nat) :
    ∀ (o ai : Nat), activeMap act o = some ai → act[ai]? = some o := by
  induction act with
  | nil => intro o ai h; simp [activeMap] at h
  | cons a rest ih =>
    intro o ai h
    simp only [activeMap] at h
    split at h
    · rename_i hao
      cases h
      simp [hao]
    · cases hr : activeMap rest o with
      | none => simp [hr] at h
      | some k =>
        simp [hr] at h
        subst h
        simpa using ih o k hr

theorem activeMap_lt (act : List Nat) (o ai : Nat) (h : activeMap act o = some ai) :
    ai < act.length := by
  have := activeMap_some act o ai h
  exact (List.getElem?_eq_some.mp this).1

theorem selectStep_eq (people : List Person) (act : List Nat) (sel : List Nat) (e : Nat × Bool) :
    selectStep people act sel e = sel ++ (selectOf people act e).toList := by
  unfold selectStep selectOf
  by_cases h1 : e.2 = true
  · by_cases h2 : (people[e.1]?.map Person.excluded) = some true
    · simp [h1, h2]
    · simp only [h1, h2, Bool.not_true, Bool.false_eq_true, if_false, ne_eq, not_false_eq_true,
        and_self, if_true]
      cases activeMap act e.1 <;> simp
  · simp [h1]

theorem foldl_selectStep (people : List Person) (act : List Nat) (assigned : List (Nat × Bool)) :
    ∀ sel : List Nat, assigned.foldl (selectStep people act) sel
      = sel ++ assigned.filterMap (selectOf people act) := by
  induction assigned with
  | nil => intro sel; simp
  | cons e rest ih =>
    intro sel
    rw [List.foldl_cons, ih, selectStep_eq, List.filterMap_cons]
    cases selectOf people act e <;> simp

theorem selectedActive_eq (people : List Person) (act : List Nat) (assigned : List (Nat × Bool)) :
    selectedActive people act assigned = assigned.filterMap (selectOf people act) := by
  simp [selectedActive, foldl_selectStep]

theorem selectedActive_lt (people : List Person) (act : List Nat) (assigned : List (Nat × Bool)) :
    ∀ ai ∈ selectedActive people act assigned, ai < act.length := by
  intro ai h
  rw [selectedActive_eq, List.mem_filterMap] at h
  obtain ⟨e, _, he⟩ := h
  unfold selectOf at he
  split at he
  · exact activeMap_lt act e.1 ai he
  · cases he

theorem length_foldl_addAt (sel : List Nat) (v : ℚ) :
    ∀ sums : List ℚ, (sel.foldl (fun s ai => addAt s ai v) sums).length = sums.length := by
  induction sel with
  | nil => intro sums; rfl
  | cons a rest ih => intro sums; rw [List.foldl_cons, ih, length_addAt]

theorem sum_foldl_addAt (sel : List Nat) (v : ℚ) :
    ∀ sums : List ℚ, (∀ ai ∈ sel, ai < sums.length) →
      (sel.foldl (fun s ai => addAt s ai v) sums).sum = sums.sum + sel.length * v := by
  induction sel with
  | nil => intro sums _; simp
  | cons a rest ih =>
    intro sums h
    rw [List.foldl_cons, ih]
    · rw [sum_addAt _ _ _ (h a (List.mem_cons_self _ _))]
      simp only [List.length_cons]
      push_cast
      ring
    · intro ai hai
      rw [length_addAt]
      exact h ai (List.mem_cons_of_mem _ hai)

theorem length_itemStep (people : List Person) (act : List Nat) (rate : JsNum)
    (sums : List ℚ) (item : Item) :
    (itemStep people act rate sums item).length = sums.length := by
  unfold itemStep
  split
  · split
    · rfl
    · simp only
      split
      · exact length_foldl_addAt _ _ _
      · rfl
  · rfl

theorem sum_itemStep (people : List Person) (act : List Nat) (rate : JsNum)
    (sums : List ℚ) (item : Item) (hlen : sums.length = act.length) :
    (itemStep people act rate sums item).sum = sums.sum + itemAmount people act rate item := by
  unfold itemStep itemAmount
  cases hb : baseVal rate item with
  | undefined => simp
  | nan => simp
  | num b =>
    simp only []
    by_cases hb0 : b = 0
    · simp [hb0]
    · simp only [hb0, if_false]
      by_cases hsel : selectedActive people act item.assigned = []
      · simp [hsel]
      · have hpos : (selectedActive people act item.assigned).length > 0 :=
          List.length_pos.mpr hsel
        simp only [hpos, if_true, hsel, if_false]
        rw [sum_foldl_addAt]
        · have hne : ((selectedActive people act item.assigned).length : ℚ) ≠ 0 := by
            exact_mod_cast (Nat.pos_iff_ne_zero.mp hpos)
          field_simp
        · intro ai hai
          rw [hlen]
          exact selectedActive_lt people act _ ai hai

theorem length_receiptSums (people : List Person) (act : List Nat) (r : Receipt) :
    (receiptSums people act r).length = act.length := by
  unfold receiptSums
  suffices h : ∀ (items : List Item) (sums : List ℚ),
      (items.foldl (itemStep people act r.rate) sums).length = sums.length by
    rw [h]; simp
  intro items
  induction items with
  | nil => intro sums; rfl
  | cons it rest ih => intro sums; rw [List.foldl_cons, ih, length_itemStep]

theorem sum_receiptSums (people : List Person) (act : List Nat) (r : Receipt) :
    (receiptSums people act r).sum = (r.items.map (itemAmount people act r.rate)).sum := by
  unfold receiptSums
  suffices h : ∀ (items : List Item) (sums : List ℚ), sums.length = act.length →
      (items.foldl (itemStep people act r.rate) sums).sum
        = sums.sum + (items.map (itemAmount people act r.rate)).sum by
    rw [h _ _ (by simp)]; simp
  intro items
  induction items with
  | nil => intro sums _; simp
  | cons it rest ih =>
    intro sums hlen
    rw [List.foldl_cons, ih _ (by rw [length_itemStep, hlen]), sum_itemStep _ _ _ _ _ hlen]
    simp only [List.map_cons, List.sum_cons]
    ring

theorem receiptStep_eq (people : List Person) (act : List Nat) (st : Settlement) (r : Receipt) :
    receiptStep people act st r
      = if validPayer people r then some (stepResult people act st r) else none := by
  unfold receiptStep validPayer stepResult payerAi
  cases hp : r.payer with
  | none => simp
  | some k =>
    simp only []
    by_cases hk : k < 0
    · have : ¬ (0 ≤ k) := by omega
      simp [hk, this]
    · have hk0 : 0 ≤ k := by omega
      simp only [hk, if_false, hk0, decide_True, Bool.true_and]
      cases hq : people[k.toNat]? with
      | none =>
        have : ¬ k.toNat < people.length := by
          intro hlt
          rw [List.getElem?_eq_getElem hlt] at hq
          cases hq
        simp [this]
      | some person =>
        have : k.toNat < people.length := (List.getElem?_eq_some.mp hq).1
        simp only [this, decide_True, if_true]
        by_cases hex : person.excluded = true
        · simp [hex]
        · simp only [hex, Bool.false_eq_true, if_false]
          cases activeMap act k.toNat <;> rfl

theorem payerAi_lt (people : List Person) (act : List Nat) (r : Receipt) (p : Nat)
    (h : payerAi people act r = some p) : p < act.length := by
  unfold payerAi at h
  split at h
  · cases h
  · split at h
    · cases h
    · split at h
      · cases h
      · split at h
        · cases h
        · exact activeMap_lt act _ p h

theorem getD_zipWith_sub (l : List ℚ) :
    ∀ (m : List ℚ) (i : Nat), l.length = m.length →
      (List.zipWith (· - ·) l m).getD i 0 = l.getD i 0 - m.getD i 0 := by
  induction l with
  | nil =>
    intro m i h
    have : m = [] := List.eq_nil_of_length_eq_zero h.symm
    subst this
    simp
  | cons x xs ih =>
    intro m i h
    cases m with
    | nil => simp at h
    | cons y ys =>
      cases i with
      | zero => simp
      | succ i =>
        have := ih ys i (by simpa using h)
        simpa using this

theorem getD_zipWith_add (l : List ℚ) :
    ∀ (m : List ℚ) (i : Nat), l.length = m.length →
      (List.zipWith (· + ·) l m).getD i 0 = l.getD i 0 + m.getD i 0 := by
  induction l with
  | nil =>
    intro m i h
    have : m = [] := List.eq_nil_of_length_eq_zero h.symm
    subst this
    simp
  | cons x xs ih =>
    intro m i h
    cases m with
    | nil => simp at h
    | cons y ys =>
      cases i with
      | zero => simp
      | succ i =>
        have := ih ys i (by simpa using h)
        simpa using this

theorem sum_zipWith_sub (l : List ℚ) :
    ∀ m : List ℚ, l.length = m.length → (List.zipWith (· - ·) l m).sum = l.sum - m.sum := by
  induction l with
  | nil =>
    intro m h
    have : m = [] := List.eq_nil_of_length_eq_zero h.symm
    subst this
    simp
  | cons x xs ih =>
    intro m h
    cases m with
    | nil => simp at h
    | cons y ys =>
      have := ih ys (by simpa using h)
      simp only [List.zipWith_cons_cons, List.sum_cons, this]
      ring

theorem oweMap_getElem (f : Nat × List ℚ × ℚ → List ℚ) (M : List (List ℚ)) :
    ∀ (sums : List ℚ) (k a : Nat), M.length = sums.length →
      (((M.zip sums).enumFrom k).map f)[a]?
        = (M[a]?).map (fun row => f (k + a, (row, sums.getD a 0))) := by
  induction M with
  | nil => intro sums k a _; simp
  | cons row rest ih =>
    intro sums k a h
    cases sums with
    | nil => simp at h
    | cons v vs =>
      cases a with
      | zero => simp [List.enumFrom]
      | succ a =>
        have := ih vs (k + 1) a (by simpa using h)
        have hk : k + 1 + a = k + (a + 1) := by omega
        rw [hk] at this
        simpa [List.enumFrom] using this

theorem oweUpdate_getElem (M : List (List ℚ)) (sums : List ℚ) (p a : Nat)
    (h : M.length = sums.length) :
    (oweUpdate M sums p)[a]?
      = (M[a]?).map (fun row => if a ≠ p then addAt row p (sums.getD a 0) else row) := by
  unfold oweUpdate List.enum
  rw [oweMap_getElem _ _ _ _ _ h]
  simp

theorem oweUpdate_WF (n : Nat) (M : List (List ℚ)) (sums : List ℚ) (p : Nat)
    (hM : M.length = n) (hrows : ∀ row ∈ M, row.length = n) (hs : sums.length = n) :
    (oweUpdate M sums p).length = n ∧ ∀ row ∈ oweUpdate M sums p, row.length = n := by
  constructor
  · simp [oweUpdate, hM, hs]
  · intro row hrow
    obtain ⟨a, ha⟩ := List.mem_iff_getElem?.mp hrow
    rw [oweUpdate_getElem _ _ _ _ (hM.trans hs.symm)] at ha
    cases hr : M[a]? with
    | none => simp [hr] at ha
    | some row0 =>
      simp only [hr, Option.map_some', Option.some.injEq] at ha
      have h0 : row0.length = n := hrows row0 (List.mem_iff_getElem?.mpr ⟨a, hr⟩)
      subst ha
      split
      · rw [length_addAt, h0]
      · exact h0

theorem foldlM_receiptStep (people : List Person) (act : List Nat) (rs : List Receipt) :
    ∀ st : Settlement, rs.foldlM (receiptStep people act) st
      = if rs.all (validPayer people) then some (rs.foldl (stepResult people act) st)
        else none := by
  induction rs with
  | nil => intro st; simp
  | cons r rest ih =>
    intro st
    rw [List.foldlM_cons, receiptStep_eq]
    by_cases hv : validPayer people r = true
    · simp only [hv, if_true, List.all_cons, Bool.true_and, List.foldl_cons]
      exact ih _
    · simp [hv]

theorem computeSettlement_eq (folder : Folder) :
    computeSettlement folder
      = if folder.receipts.all (validPayer folder.people) then
          some (folder.receipts.foldl
            (stepResult folder.people (activeIndices folder.people))
            (initial (activeIndices folder.people).length))
        else none := by
  unfold computeSettlement
  exact foldlM_receiptStep _ _ _ _

theorem initial_WF (n : Nat) : (initial n).WF n := by
  refine ⟨by simp [initial], by simp [initial], by simp [initial], ?_⟩
  intro row hrow
  simp only [initial] at hrow
  rw [List.eq_of_mem_replicate hrow]
  simp

theorem stepResult_WF (people : List Person) (act : List Nat) (st : Settlement) (r : Receipt)
    (h : st.WF act.length) : (stepResult people act st r).WF act.length := by
  obtain ⟨h1, h2, h3, h4⟩ := h
  have hs := length_receiptSums people act r
  unfold stepResult
  cases hp : payerAi people act r with
  | none =>
    exact ⟨by simp [h1, hs], by simp [h2, hs], h3, h4⟩
  | some p =>
    have := oweUpdate_WF act.length st.oweMatrix (receiptSums people act r) p h3 h4 hs
    exact ⟨by simp [h1, hs], by simp [length_addAt, h2, hs], this.1, this.2⟩

theorem foldl_stepResult_WF (people : List Person) (act : List Nat) (rs : List Receipt) :
    ∀ st : Settlement, st.WF act.length → (rs.foldl (stepResult people act) st).WF act.length := by
  induction rs with
  | nil => intro st h; exact h
  | cons r rest ih =>
    intro st h
    rw [List.foldl_cons]
    exact ih _ (stepResult_WF people act st r h)

theorem stepResult_debts (people : List Person) (act : List Nat) (st : Settlement) (r : Receipt)
    (h : st.WF act.length) (i : Nat) :
    (stepResult people act st r).debts.getD i 0 = st.debts.getD i 0 + debtDelta people act i r := by
  obtain ⟨_, h2, _, _⟩ := h
  have hs := length_receiptSums people act r
  unfold stepResult debtDelta
  cases hp : payerAi people act r with
  | none =>
    simp only [getD_zipWith_sub _ _ _ (h2.trans hs.symm)]
    simp
    ring
  | some p =>
    have hpl := payerAi_lt people act r p hp
    simp only [getD_addAt, getD_zipWith_sub _ _ _ (h2.trans hs.symm), foldl_add_eq_sum,
      List.length_zipWith, h2, hs, min_self, hpl, and_true, Option.some.injEq]
    by_cases hip : i = p
    · subst hip; simp; ring
    · have hpi : ¬ p = i := fun h => hip h.symm
      simp [hip, hpi]; ring

theorem stepResult_sum_debts (people : List Person) (act : List Nat) (st : Settlement)
    (r : Receipt) (h : st.WF act.length) :
    (stepResult people act st r).debts.sum
      = st.debts.sum - (receiptSums people act r).sum +
        match payerAi people act r with
        | some p => (receiptSums people act r).sum - (receiptSums people act r).getD p 0
        | none => 0 := by
  obtain ⟨_, h2, _, _⟩ := h
  have hs := length_receiptSums people act r
  unfold stepResult
  cases hp : payerAi people act r with
  | none =>
    simp only [sum_zipWith_sub _ _ (h2.trans hs.symm)]
    ring
  | some p =>
    have hpl := payerAi_lt people act r p hp
    simp only []
    rw [sum_addAt _ _ _ (by simp [h2, hs, hpl]), sum_zipWith_sub _ _ (h2.trans hs.symm),
      foldl_add_eq_sum]

theorem stepResult_owe (people : List Person) (act : List Nat) (st : Settlement) (r : Receipt)
    (h : st.WF act.length) (a p : Nat) :
    ((stepResult people act st r).oweMatrix.getD a []).getD p 0
      = (st.oweMatrix.getD a []).getD p 0 + oweDelta people act a p r := by
  obtain ⟨_, _, h3, h4⟩ := h
  have hs := length_receiptSums people act r
  unfold stepResult oweDelta
  cases hp : payerAi people act r with
  | none => simp
  | some q =>
    have hql := payerAi_lt people act r q hp
    simp only [Option.some.injEq]
    rw [List.getD_eq_getElem?_getD (oweUpdate _ _ _), oweUpdate_getElem _ _ _ _ (h3.trans hs.symm),
      List.getD_eq_getElem?_getD st.oweMatrix]
    cases hr : st.oweMatrix[a]? with
    | none =>
      have hage : st.oweMatrix.length ≤ a := List.getElem?_eq_none_iff.mp hr
      have : (receiptSums people act r)[a]? = none :=
        List.getElem?_eq_none_iff.mpr (by omega)
      simp [this]
    | some row =>
      have hrow : row.length = act.length := h4 row (List.mem_iff_getElem?.mpr ⟨a, hr⟩)
      simp only [Option.map_some', Option.getD_some]
      by_cases hap : a = q
      · subst hap
        by_cases hpa : a = p
        · simp [hpa]
        · simp [hpa]
      · simp only [ne_eq, hap, not_false_eq_true, if_true, getD_addAt, hrow, hql, and_true]
        by_cases hpq : p = q
        · subst hpq; simp [hap]
        · have hqp : ¬ q = p := fun h => hpq h.symm
          simp [hpq, hqp]

theorem foldl_stepResult_debts (people : List Person) (act : List Nat) (i : Nat)
    (rs : List Receipt) :
    ∀ st : Settlement, st.WF act.length →
      (rs.foldl (stepResult people act) st).debts.getD i 0
        = st.debts.getD i 0 + (rs.map (debtDelta people act i)).sum := by
  induction rs with
  | nil => intro st _; simp
  | cons r rest ih =>
    intro st h
    rw [List.foldl_cons, ih _ (stepResult_WF people act st r h), stepResult_debts _ _ _ _ h]
    simp only [List.map_cons, List.sum_cons]
    ring

theorem foldl_stepResult_sum_debts (people : List Person) (act : List Nat) (rs : List Receipt) :
    ∀ st : Settlement, st.WF act.length →
      (rs.foldl (stepResult people act) st).debts.sum
        = st.debts.sum + (rs.map (sumDelta people act)).sum := by
  induction rs with
  | nil => intro st _; simp
  | cons r rest ih =>
    intro st h
    rw [List.foldl_cons, ih _ (stepResult_WF people act st r h), stepResult_sum_debts _ _ _ _ h]
    simp only [List.map_cons, List.sum_cons, sumDelta]
    cases payerAi people act r <;> simp only [] <;> ring

theorem foldl_stepResult_owe (people : List Person) (act : List Nat) (a p : Nat)
    (rs : List Receipt) :
    ∀ st : Settlement, st.WF act.length →
      ((rs.foldl (stepResult people act) st).oweMatrix.getD a []).getD p 0
        = (st.oweMatrix.getD a []).getD p 0 + (rs.map (oweDelta people act a p)).sum := by
  induction rs with
  | nil => intro st _; simp
  | cons r rest ih =>
    intro st h
    rw [List.foldl_cons, ih _ (stepResult_WF people act st r h), stepResult_owe _ _ _ _ h]
    simp only [List.map_cons, List.sum_cons]
    ring

theorem initial_debts (n i : Nat) : (initial n).debts.getD i 0 = 0 := by
  simp only [initial, List.getD_eq_getElem?_getD]
  by_cases h : i < n
  · simp [List.getElem?_replicate, h]
  · simp [List.getElem?_replicate, h]

theorem initial_owe (n a p : Nat) : ((initial n).oweMatrix.getD a []).getD p 0 = 0 := by
  simp only [initial, List.getD_eq_getElem?_getD]
  by_cases h : a < n
  · by_cases h' : p < n
    · simp [List.getElem?_replicate, h, h']
    · simp [List.getElem?_replicate, h, h']
  · simp [List.getElem?_replicate, h]

theorem sum_map_oweDelta (people : List Person) (act : List Nat) (a p : Nat) (h : a ≠ p)
    (rs : List Receipt) :
    (rs.map (oweDelta people act a p)).sum
      = ((rs.filter (fun r => decide (payerAi people act r = some p))).map
          (fun r => (receiptSums people act r).getD a 0)).sum := by
  induction rs with
  | nil => simp
  | cons r rest ih =>
    simp only [List.map_cons, List.sum_cons, ih, List.filter_cons, oweDelta]
    by_cases hp : payerAi people act r = some p
    · simp [hp, h]
    · simp [hp]

theorem sum_map_oweDelta_diag (people : List Person) (act : List Nat) (a : Nat)
    (rs : List Receipt) : (rs.map (oweDelta people act a a)).sum = 0 := by
  induction rs with
  | nil => simp
  | cons r rest ih => simp [ih, oweDelta]

theorem payerAi_validPayer (people : List Person) (act : List Nat) (r : Receipt) (p : Nat)
    (h : payerAi people act r = some p) : validPayer people r = true := by
  unfold payerAi at h
  unfold validPayer
  cases hk : r.payer with
  | none => rfl
  | some k =>
    simp only [hk] at h
    simp only []
    by_cases hneg : k < 0
    · simp [hneg] at h
    · simp only [hneg, if_false] at h
      cases hq : people[k.toNat]? with
      | none => simp [hq] at h
      | some person =>
        have : k.toNat < people.length := (List.getElem?_eq_some.mp hq).1
        have h0 : 0 ≤ k := by omega
        simp [this, h0]

theorem sum_map_sumDelta (people : List Person) (act : List Nat) (rs : List Receipt)
    (hown : ∀ r ∈ rs, ∀ p, payerAi people act r = some p →
      (receiptSums people act r).getD p 0 = 0) :
    (rs.map (sumDelta people act)).sum
      = - ((rs.filter (fun r => decide (payerAi people act r = none))).map
            (fun r => (receiptSums people act r).sum)).sum := by
  induction rs with
  | nil => simp
  | cons r rest ih =>
    have ih' := ih (fun r' hr' => hown r' (List.mem_cons_of_mem _ hr'))
    simp only [List.map_cons, List.sum_cons, ih', List.filter_cons, sumDelta]
    cases hp : payerAi people act r with
    | none => simp; ring
    | some p =>
      have := hown r (List.mem_cons_self _ _) p hp
      rw [List.getD_eq_getElem?_getD] at this
      simp [this]

theorem itemStep_of_no_assignee (people : List Person) (act : List Nat) (rate : JsNum)
    (sums : List ℚ) (item : Item) (h : selectedActive people act item.assigned = []) :
    itemStep people act rate sums item = sums := by
  unfold itemStep
  cases baseVal rate item with
  | undefined => rfl
  | nan => rfl
  | num b => simp [h]

theorem receiptSums_of_no_assignee (people : List Person) (act : List Nat) (r : Receipt)
    (i1 i2 : List Item) (item : Item) (h : selectedActive people act item.assigned = []) :
    receiptSums people act { r with items := i1 ++ item :: i2 }
      = receiptSums people act { r with items := i1 ++ i2 } := by
  simp only [receiptSums, List.foldl_append, List.foldl_cons,
    itemStep_of_no_assignee people act r.rate _ item h]

theorem receiptStep_congr (people : List Person) (act : List Nat) (st : Settlement)
    (r r' : Receipt) (hp : r.payer = r'.payer)
    (hs : receiptSums people act r = receiptSums people act r') :
    receiptStep people act st r = receiptStep people act st r' := by
  simp only [receiptStep, hp, hs]

theorem mem_activeIndices (people : List Person) (o : Nat) :
    o ∈ activeIndices people ↔ isActive people o = true := by
  unfold activeIndices isActive
  simp only [List.mem_map, List.mem_filter, Prod.exists, exists_and_right, exists_eq_right,
    List.mk_mem_enum_iff_getElem?]
  cases hp : people[o]? with
  | none => simp
  | some p => simp

theorem activeMap_of_mem (act : List Nat) (o : Nat) (h : o ∈ act) :
    ∃ ai, activeMap act o = some ai := by
  induction act with
  | nil => simp at h
  | cons a rest ih =>
    simp only [activeMap]
    by_cases ha : a = o
    · exact ⟨0, by simp [ha]⟩
    · have : o ∈ rest := by
        rcases List.mem_cons.mp h with h' | h'
        · exact absurd h'.symm ha
        · exact h'
      obtain ⟨ai, hai⟩ := ih this
      exact ⟨ai + 1, by simp [ha, hai]⟩

theorem activeMap_of_not_mem (act : List Nat) (o : Nat) (h : o ∉ act) :
    activeMap act o = none := by
  cases hm : activeMap act o with
  | none => rfl
  | some ai =>
    have := activeMap_some act o ai hm
    exact absurd (List.mem_iff_getElem?.mpr ⟨ai, this⟩) h

theorem selectOf_of_active (people : List Person) (e : Nat × Bool)
    (h : (e.2 && isActive people e.1) = true) :
    ∃ ai, selectOf people (activeIndices people) e = some ai ∧
      (activeIndices people)[ai]? = some e.1 := by
  simp only [Bool.and_eq_true] at h
  obtain ⟨ai, hai⟩ := activeMap_of_mem _ _ ((mem_activeIndices people e.1).mpr h.2)
  refine ⟨ai, ?_, activeMap_some _ _ _ hai⟩
  have hex : (people[e.1]?.map Person.excluded) ≠ some true := by
    have h2 := h.2
    unfold isActive at h2
    cases hp : people[e.1]? with
    | none => simp
    | some p => simp [hp] at h2; simp [h2]
  simp [selectOf, h.1, hex, hai]

theorem selectOf_of_not_active (people : List Person) (e : Nat × Bool)
    (h : (e.2 && isActive people e.1) = false) :
    selectOf people (activeIndices people) e = none := by
  unfold selectOf
  split
  · rename_i hc
    have hna : isActive people e.1 = false := by simpa [hc.1] using h
    apply activeMap_of_not_mem
    rw [mem_activeIndices, hna]
    simp
  · rfl

theorem getD_receiptSums_nonneg (people : List Person) (act : List Nat) (r : Receipt)
    (hpos : ∀ it ∈ r.items, ∀ b, baseVal r.rate it = .num b → 0 ≤ b) (i : Nat) :
    0 ≤ (receiptSums people act r).getD i 0 := by
  unfold receiptSums
  suffices h : ∀ (items : List Item) (sums : List ℚ),
      (∀ it ∈ items, ∀ b, baseVal r.rate it = .num b → 0 ≤ b) → 0 ≤ sums.getD i 0 →
      0 ≤ (items.foldl (itemStep people act r.rate) sums).getD i 0 by
    apply h _ _ hpos
    rw [List.getD_eq_getElem?_getD]
    by_cases hi : i < act.length
    · simp [List.getElem?_replicate, hi]
    · simp [List.getElem?_replicate, hi]
  intro items
  induction items with
  | nil => intro sums _ h0; exact h0
  | cons it rest ih =>
    intro sums hp h0
    rw [List.foldl_cons]
    apply ih _ (fun it' h' => hp it' (List.mem_cons_of_mem _ h'))
    unfold itemStep
    cases hb : baseVal r.rate it with
    | undefined => exact h0
    | nan => exact h0
    | num b =>
      have hb0 : 0 ≤ b := hp it (List.mem_cons_self _ _) b hb
      simp only []
      split
      · exact h0
      · split
        · have hshare : 0 ≤ b / ((selectedActive people act it.assigned).length : ℚ) :=
            div_nonneg hb0 (Nat.cast_nonneg _)
          generalize b / ((selectedActive people act it.assigned).length : ℚ) = v at hshare
          generalize selectedActive people act it.assigned = sel
          clear hb
          induction sel generalizing sums with
          | nil => exact h0
          | cons a sel' ihs =>
            rw [List.foldl_cons]
            apply ihs
            rw [getD_addAt]
            split <;> linarith
        · exact h0

/-! ## The loop of the debt minimiser -/

theorem round2_ge (x : ℚ) (h : 1 / 200 ≤ x) : 1 / 100 ≤ round2 x := by
  unfold round2
  have h1 : (1 : ℤ) ≤ ⌊x * 100 + 1 / 2⌋ := by
    apply Int.le_floor.mpr
    push_cast
    linarith
  have h2 : (1 : ℚ) ≤ ((⌊x * 100 + 1 / 2⌋ : ℤ) : ℚ) := by exact_mod_cast h1
  linarith

theorem round2_cents (k : ℤ) : round2 ((k : ℚ) / 100) = k / 100 := by
  unfold round2
  have h : ((k : ℚ) / 100 * 100 + 1 / 2) = ((k : ℤ) : ℚ) + 1 / 2 := by ring
  rw [h, Int.floor_int_add]
  have : ⌊(1 / 2 : ℚ)⌋ = 0 := by
    rw [Int.floor_eq_iff]; norm_num
  rw [this]
  simp

theorem mem_sortDesc (l : List Party) (p : Party) : p ∈ sortDesc l ↔ p ∈ l :=
  (List.perm_insertionSort _ l).mem_iff

theorem length_sortDesc (l : List Party) : (sortDesc l).length = l.length :=
  List.length_insertionSort _ l

theorem creditorsOf_val (debts : List ℚ) : ∀ c ∈ creditorsOf debts, 1 / 200 ≤ c.val := by
  intro c hc
  simp only [creditorsOf, List.mem_filterMap] at hc
  obtain ⟨e, _, he⟩ := hc
  split at he
  · rename_i h
    cases he
    exact le_of_lt h
  · cases he

theorem debtorsOf_val (debts : List ℚ) : ∀ d ∈ debtorsOf debts, 1 / 200 ≤ d.val := by
  intro d hd
  simp only [debtorsOf, List.mem_filterMap] at hd
  obtain ⟨e, _, he⟩ := hd
  split at he
  · cases he
  · split at he
    · rename_i h
      cases he
      show 1 / 200 ≤ -e.2
      linarith
    · cases he

/-- One round of the loop moves past the creditor or past the debtor. -/
theorem settleLoop_advance (c d : Party) (cs ds : List Party) :
    (if c.val - min c.val d.val < 1 / 200 then cs
        else (⟨c.idx, c.val - min c.val d.val⟩ : Party) :: cs).length +
      (if d.val - min c.val d.val < 1 / 200 then ds
        else (⟨d.idx, d.val - min c.val d.val⟩ : Party) :: ds).length
      ≤ cs.length + ds.length + 1 := by
  rcases le_total c.val d.val with h | h
  · have h0 : c.val - min c.val d.val < 1 / 200 := by
      rw [min_eq_left h]; norm_num
    rw [if_pos h0]
    split
    · simp
    · simp only [List.length_cons]; omega
  · have h0 : d.val - min c.val d.val < 1 / 200 := by
      rw [min_eq_right h]; norm_num
    rw [if_pos h0]
    split
    · omega
    · simp only [List.length_cons]; omega

/-- The bound on the number of rounds never stops the loop: with at least
`cs.length + ds.length` rounds allowed the result does not depend on the
bound. -/
theorem settleLoop_fuel (fuel : Nat) :
    ∀ (fuel' : Nat) (cs ds : List Party), cs.length + ds.length ≤ fuel →
      cs.length + ds.length ≤ fuel' → settleLoop fuel cs ds = settleLoop fuel' cs ds := by
  induction fuel with
  | zero =>
    intro fuel' cs ds h _
    have hc : cs = [] := List.eq_nil_of_length_eq_zero (by omega)
    subst hc
    cases fuel' <;> simp [settleLoop]
  | succ fuel ih =>
    intro fuel' cs ds h h'
    match cs, ds with
    | [], _ => cases fuel' <;> simp [settleLoop]
    | _ :: _, [] => cases fuel' <;> simp [settleLoop]
    | c :: cs, d :: ds =>
      cases fuel' with
      | zero => simp at h'
      | succ fuel' =>
        simp only [settleLoop]
        have hadv := settleLoop_advance c d cs ds
        simp only [List.length_cons] at h h'
        rw [ih fuel' _ _ (by omega) (by omega)]

theorem settleLoop_length (fuel : Nat) :
    ∀ cs ds : List Party, (settleLoop fuel cs ds).length ≤ cs.length + ds.length - 1 := by
  induction fuel with
  | zero => intro cs ds; simp [settleLoop]
  | succ fuel ih =>
    intro cs ds
    match cs, ds with
    | [], _ => simp [settleLoop]
    | _ :: _, [] => simp [settleLoop]
    | c :: cs, d :: ds =>
      simp only [settleLoop, List.length_cons]
      have hadv := settleLoop_advance c d cs ds
      have hrec := ih
        (if c.val - min c.val d.val < 1 / 200 then cs
          else (⟨c.idx, c.val - min c.val d.val⟩ : Party) :: cs)
        (if d.val - min c.val d.val < 1 / 200 then ds
          else (⟨d.idx, d.val - min c.val d.val⟩ : Party) :: ds)
      omega

theorem creditorsOf_length (debts : List ℚ) :
    (creditorsOf debts).length = debts.countP (fun v => decide (v > 1 / 200)) := by
  unfold creditorsOf List.enum
  suffices h : ∀ (l : List ℚ) (k : Nat),
      ((l.enumFrom k).filterMap
        (fun e => if e.2 > 1 / 200 then some (⟨e.1, e.2⟩ : Party) else none)).length
        = l.countP (fun v => decide (v > 1 / 200)) from h debts 0
  intro l
  induction l with
  | nil => intro k; simp
  | cons x xs ih =>
    intro k
    simp only [List.enumFrom, List.filterMap_cons, List.countP_cons]
    by_cases hx : x > 1 / 200
    · simp only [hx, if_true, decide_True, List.length_cons, ih (k + 1)]
    · simp only [hx, if_false, decide_False, ih (k + 1)]
      simp

theorem debtorsOf_length (debts : List ℚ) :
    (debtorsOf debts).length = debts.countP (fun v => decide (v < -(1 / 200))) := by
  unfold debtorsOf List.enum
  suffices h : ∀ (l : List ℚ) (k : Nat),
      ((l.enumFrom k).filterMap
        (fun e => if e.2 > 1 / 200 then none
          else if e.2 < -(1 / 200) then some (⟨e.1, -e.2⟩ : Party) else none)).length
        = l.countP (fun v => decide (v < -(1 / 200))) from h debts 0
  intro l
  induction l with
  | nil => intro k; simp
  | cons x xs ih =>
    intro k
    simp only [List.enumFrom, List.filterMap_cons, List.countP_cons]
    by_cases hx : x > 1 / 200
    · have hx' : ¬ x < -(1 / 200) := by linarith
      simp only [hx, hx', if_true, decide_False, ih (k + 1)]
      simp
    · by_cases hx' : x < -(1 / 200)
      · simp only [hx, hx', if_true, if_false, decide_True, List.length_cons, ih (k + 1)]
      · simp only [hx, hx', if_false, decide_False, ih (k + 1)]
        simp

theorem settleLoop_pay (fuel : Nat) :
    ∀ cs ds : List Party, (∀ c ∈ cs, 1 / 200 ≤ c.val) → (∀ d ∈ ds, 1 / 200 ≤ d.val) →
      ∀ t ∈ settleLoop fuel cs ds, ∃ pay : ℚ, 1 / 200 ≤ pay ∧ t.amount = round2 pay := by
  induction fuel with
  | zero => intro cs ds _ _ t ht; simp [settleLoop] at ht
  | succ fuel ih =>
    intro cs ds hc hd t ht
    match cs, ds with
    | [], _ => simp [settleLoop] at ht
    | _ :: _, [] => simp [settleLoop] at ht
    | c :: cs, d :: ds =>
      simp only [settleLoop, List.mem_cons] at ht
      have hcv := hc c (List.mem_cons_self _ _)
      have hdv := hd d (List.mem_cons_self _ _)
      rcases ht with ht | ht
      · subst ht
        exact ⟨min c.val d.val, le_min hcv hdv, rfl⟩
      · refine ih _ _ ?_ ?_ t ht
        · intro c' hc'
          split at hc'
          · exact hc c' (List.mem_cons_of_mem _ hc')
          · rename_i hlt
            rcases List.mem_cons.mp hc' with h | h
            · subst h; exact not_lt.mp hlt
            · exact hc c' (List.mem_cons_of_mem _ h)
        · intro d' hd'
          split at hd'
          · exact hd d' (List.mem_cons_of_mem _ hd')
          · rename_i hlt
            rcases List.mem_cons.mp hd' with h | h
            · subst h; exact not_lt.mp hlt
            · exact hd d' (List.mem_cons_of_mem _ h)

/-! ## Replaying the transfers of whole-cent balances -/

theorem wholeCents_iff (v : ℚ) : wholeCents v ↔ ∃ k : ℤ, v = k / 100 := by
  unfold wholeCents
  constructor
  · intro h
    exact ⟨⌊v * 100⌋, by rw [h]; ring⟩
  · rintro ⟨k, rfl⟩
    have : (k : ℚ) / 100 * 100 = k := by ring
    rw [this, Int.floor_intCast]

/-- The list of remaining creditors (or debtors) after a payment of `kp`
cents by the party at its head. -/
theorem advance_spec (c : Party) (cs : List Party) (kc kp : ℤ) (pay : ℚ)
    (hc : c.val = kc / 100) (hpay : pay = kp / 100) (hle : kp ≤ kc)
    (hcs : PosCents cs) (n : Nat) (hidx : ∀ x ∈ c :: cs, x.idx < n) :
    PosCents (if c.val - pay < 1 / 200 then cs else (⟨c.idx, c.val - pay⟩ : Party) :: cs) ∧
      totalVal (if c.val - pay < 1 / 200 then cs else (⟨c.idx, c.val - pay⟩ : Party) :: cs)
        = totalVal (c :: cs) - pay ∧
      (∀ i, held (if c.val - pay < 1 / 200 then cs else (⟨c.idx, c.val - pay⟩ : Party) :: cs) i
        = held (c :: cs) i - if c.idx = i then pay else 0) ∧
      (∀ x ∈ (if c.val - pay < 1 / 200 then cs else (⟨c.idx, c.val - pay⟩ : Party) :: cs),
        x.idx < n) := by
  have hdiff : c.val - pay = ((kc - kp : ℤ) : ℚ) / 100 := by
    rw [hc, hpay]; push_cast; ring
  by_cases hz : kc - kp = 0
  · have h0 : c.val - pay = 0 := by rw [hdiff, hz]; simp
    have hlt : c.val - pay < 1 / 200 := by rw [h0]; norm_num
    have hcv : c.val = pay := by linarith
    simp only [hlt, if_true]
    refine ⟨hcs, ?_, ?_, fun x hx => hidx x (List.mem_cons_of_mem _ hx)⟩
    · simp only [totalVal, List.map_cons, List.sum_cons, hcv]; ring
    · intro i
      simp only [held, List.map_cons, List.sum_cons, hcv]
      split <;> ring
  · have hk1 : (1 : ℤ) ≤ kc - kp := by omega
    have hk1q : (1 : ℚ) ≤ ((kc - kp : ℤ) : ℚ) := by exact_mod_cast hk1
    have hnlt : ¬ c.val - pay < 1 / 200 := by
      rw [hdiff]; intro h; linarith
    simp only [hnlt, if_false]
    refine ⟨?_, ?_, ?_, ?_⟩
    · intro x hx
      rcases List.mem_cons.mp hx with h | h
      · subst h
        exact ⟨kc - kp, by omega, hdiff⟩
      · exact hcs x h
    · simp only [totalVal, List.map_cons, List.sum_cons]; ring
    · intro i
      simp only [held, List.map_cons, List.sum_cons]
      split <;> ring
    · intro x hx
      rcases List.mem_cons.mp hx with h | h
      · subst h
        exact hidx c (List.mem_cons_self _ _)
      · exact hidx x (List.mem_cons_of_mem _ h)

theorem totalVal_pos (ps : List Party) (h : PosCents ps) (hne : ps ≠ []) : 0 < totalVal ps := by
  induction ps with
  | nil => exact absurd rfl hne
  | cons c cs ih =>
    obtain ⟨k, hk, hv⟩ := h c (List.mem_cons_self _ _)
    have hkq : (0 : ℚ) < (k : ℚ) := by exact_mod_cast hk
    have hc : 0 < c.val := by rw [hv]; positivity
    have hrest : 0 ≤ totalVal cs := by
      by_cases hcs : cs = []
      · simp [hcs, totalVal]
      · exact le_of_lt (ih (fun x hx => h x (List.mem_cons_of_mem _ hx)) hcs)
    simp only [totalVal, List.map_cons, List.sum_cons] at *
    linarith

theorem getD_replay_nil (b : List ℚ) (i : Nat) : (replay b []).getD i 0 = b.getD i 0 := rfl

/-- The balances after replaying the transfers of the loop: with equal totals
of positive whole cents on both sides, the loop pays out every creditor and
every debtor in full. -/
theorem replay_settleLoop (fuel : Nat) :
    ∀ (cs ds : List Party) (b : List ℚ), cs.length + ds.length ≤ fuel →
      PosCents cs → PosCents ds → totalVal cs = totalVal ds →
      (∀ x ∈ cs, x.idx < b.length) → (∀ x ∈ ds, x.idx < b.length) →
      ∀ i, (replay b (settleLoop fuel cs ds)).getD i 0 = b.getD i 0 - held cs i + held ds i := by
  induction fuel with
  | zero =>
    intro cs ds b hf _ _ _ _ _ i
    have hc : cs = [] := List.eq_nil_of_length_eq_zero (by omega)
    have hd : ds = [] := List.eq_nil_of_length_eq_zero (by omega)
    subst hc; subst hd
    simp [settleLoop, replay, held]
  | succ fuel ih =>
    intro cs ds b hf hcs hds htot hic hid i
    match cs, ds with
    | [], ds =>
      have hd : ds = [] := by
        by_contra hne
        have := totalVal_pos ds hds hne
        simp [totalVal] at htot
        simp [totalVal] at this
        linarith
      subst hd
      simp [settleLoop, replay, held]
    | c :: cs, [] =>
      exfalso
      have := totalVal_pos (c :: cs) hcs (by simp)
      simp [totalVal] at htot
      simp [totalVal] at this
      linarith
    | c :: cs, d :: ds =>
      obtain ⟨kc, hkc, hcv⟩ := hcs c (List.mem_cons_self _ _)
      obtain ⟨kd, hkd, hdv⟩ := hds d (List.mem_cons_self _ _)
      have hpay : min c.val d.val = ((min kc kd : ℤ) : ℚ) / 100 := by
        rw [hcv, hdv]
        rcases le_total kc kd with h | h
        · have hq : (kc : ℚ) / 100 ≤ (kd : ℚ) / 100 := by
            have : (kc : ℚ) ≤ (kd : ℚ) := by exact_mod_cast h
            linarith
          rw [min_eq_left h, min_eq_left hq]
        · have hq : (kd : ℚ) / 100 ≤ (kc : ℚ) / 100 := by
            have : (kd : ℚ) ≤ (kc : ℚ) := by exact_mod_cast h
            linarith
          rw [min_eq_right h, min_eq_right hq]
      have hC := advance_spec c cs kc (min kc kd) (min c.val d.val) hcv hpay
        (min_le_left _ _) (fun x hx => hcs x (List.mem_cons_of_mem _ hx)) b.length hic
      have hD := advance_spec d ds kd (min kc kd) (min c.val d.val) hdv hpay
        (min_le_right _ _) (fun x hx => hds x (List.mem_cons_of_mem _ hx)) b.length hid
      have hadv := settleLoop_advance c d cs ds
      simp only [List.length_cons] at hf
      simp only [settleLoop, replay]
      rw [ih _ _ _ (by omega) hC.1 hD.1 (by rw [hC.2.1, hD.2.1, htot])
        (by simpa [length_addAt] using hC.2.2.2) (by simpa [length_addAt] using hD.2.2.2) i,
        hC.2.2.1 i, hD.2.2.1 i, getD_addAt, getD_addAt, hpay, round2_cents]
      have hci := hic c (List.mem_cons_self _ _)
      have hdi := hid d (List.mem_cons_self _ _)
      simp only [length_addAt, hci, hdi, and_true, @eq_comm _ c.idx i, @eq_comm _ d.idx i]
      split_ifs <;> ring

theorem creditorsOf_eq (debts : List ℚ) : creditorsOf debts = partiesFrom creditPart 0 debts := by
  unfold creditorsOf partiesFrom List.enum creditPart
  congr 1
  funext e
  split <;> rfl

theorem debtorsOf_eq (debts : List ℚ) : debtorsOf debts = partiesFrom debitPart 0 debts := by
  unfold debtorsOf partiesFrom List.enum debitPart
  congr 1
  funext e
  split
  · rfl
  · split <;> rfl

theorem partiesFrom_cons (sel : ℚ → Option ℚ) (k : Nat) (x : ℚ) (xs : List ℚ) :
    partiesFrom sel k (x :: xs)
      = match sel x with
        | some v => ⟨k, v⟩ :: partiesFrom sel (k + 1) xs
        | none => partiesFrom sel (k + 1) xs := by
  unfold partiesFrom
  simp only [List.enumFrom, List.filterMap_cons]
  cases sel x <;> rfl

theorem held_partiesFrom_lt (sel : ℚ → Option ℚ) (l : List ℚ) :
    ∀ (k i : Nat), i < k → held (partiesFrom sel k l) i = 0 := by
  induction l with
  | nil => intro k i _; simp [partiesFrom, held]
  | cons x xs ih =>
    intro k i hik
    rw [partiesFrom_cons]
    have hrec := ih (k + 1) i (by omega)
    cases sel x with
    | none => exact hrec
    | some v =>
      simp only [held, List.map_cons, List.sum_cons] at hrec ⊢
      have : ¬ k = i := by omega
      simp [this, hrec]

theorem held_partiesFrom (sel : ℚ → Option ℚ) (l : List ℚ) :
    ∀ (k j : Nat), held (partiesFrom sel k l) (k + j) = ((l[j]?).bind sel).getD 0 := by
  induction l with
  | nil => intro k j; simp [partiesFrom, held]
  | cons x xs ih =>
    intro k j
    rw [partiesFrom_cons]
    cases j with
    | zero =>
      have hrec := held_partiesFrom_lt sel xs (k + 1) k (by omega)
      cases hs : sel x with
      | none => simpa [hs] using hrec
      | some v =>
        simp only [held, List.map_cons, List.sum_cons] at hrec ⊢
        simp [hrec, hs]
    | succ j =>
      have hrec := ih (k + 1) j
      have hidx : k + 1 + j = k + (j + 1) := by omega
      rw [hidx] at hrec
      cases hs : sel x with
      | none => simpa using hrec
      | some v =>
        simp only [held, List.map_cons, List.sum_cons] at hrec ⊢
        have : ¬ k = k + (j + 1) := by omega
        simp [this, hrec]

theorem totalVal_partiesFrom (sel : ℚ → Option ℚ) (l : List ℚ) :
    ∀ k : Nat, totalVal (partiesFrom sel k l) = (l.map (fun v => (sel v).getD 0)).sum := by
  induction l with
  | nil => intro k; simp [partiesFrom, totalVal]
  | cons x xs ih =>
    intro k
    rw [partiesFrom_cons]
    have hrec := ih (k + 1)
    cases hs : sel x with
    | none => simpa [hs] using hrec
    | some v =>
      simp only [totalVal, List.map_cons, List.sum_cons] at hrec ⊢
      simp [hrec, hs]

theorem mem_partiesFrom (sel : ℚ → Option ℚ) (l : List ℚ) :
    ∀ (k : Nat) (p : Party), p ∈ partiesFrom sel k l →
      (∃ v ∈ l, sel v = some p.val) ∧ p.idx < k + l.length := by
  induction l with
  | nil => intro k p h; simp [partiesFrom] at h
  | cons x xs ih =>
    intro k p h
    rw [partiesFrom_cons] at h
    cases hs : sel x with
    | none =>
      simp only [hs] at h
      obtain ⟨⟨v, hv, hsv⟩, hlt⟩ := ih (k + 1) p h
      exact ⟨⟨v, List.mem_cons_of_mem _ hv, hsv⟩, by simp only [List.length_cons]; omega⟩
    | some w =>
      simp only [hs] at h
      rcases List.mem_cons.mp h with h' | h'
      · subst h'
        exact ⟨⟨x, List.mem_cons_self _ _, hs⟩, by simp⟩
      · obtain ⟨⟨v, hv, hsv⟩, hlt⟩ := ih (k + 1) p h'
        exact ⟨⟨v, List.mem_cons_of_mem _ hv, hsv⟩, by simp only [List.length_cons]; omega⟩

theorem cents_parts (v : ℚ) (h : wholeCents v) :
    (creditPart v).getD 0 - (debitPart v).getD 0 = v := by
  obtain ⟨k, rfl⟩ := (wholeCents_iff v).mp h
  unfold creditPart debitPart
  rcases lt_trichotomy k 0 with hk | hk | hk
  · have hk1 : (k : ℚ) ≤ -1 := by exact_mod_cast (by omega : k ≤ -1)
    have h1 : ¬ (k : ℚ) / 100 > 1 / 200 := by intro h; linarith
    have h2 : (k : ℚ) / 100 < -(1 / 200) := by linarith
    simp only [h1, h2, if_true, if_false, Option.getD_none, Option.getD_some]
    ring
  · subst hk
    norm_num
  · have hk1 : (1 : ℚ) ≤ (k : ℚ) := by exact_mod_cast (by omega : 1 ≤ k)
    have h1 : (k : ℚ) / 100 > 1 / 200 := by
      show 1 / 200 < (k : ℚ) / 100
      linarith
    simp only [h1, if_true, Option.getD_none, Option.getD_some]
    ring

theorem posCents_creditors (debts : List ℚ) (h : ∀ v ∈ debts, wholeCents v) :
    PosCents (creditorsOf debts) := by
  intro c hc
  rw [creditorsOf_eq] at hc
  obtain ⟨⟨v, hv, hsel⟩, _⟩ := mem_partiesFrom _ _ _ _ hc
  obtain ⟨k, rfl⟩ := (wholeCents_iff v).mp (h v hv)
  unfold creditPart at hsel
  split at hsel
  · rename_i hgt
    have hval := Option.some.inj hsel
    refine ⟨k, ?_, hval.symm⟩
    by_contra hk
    have : (k : ℚ) ≤ 0 := by exact_mod_cast (by omega : k ≤ 0)
    have hgt' : 1 / 200 < (k : ℚ) / 100 := hgt
    linarith
  · cases hsel

theorem posCents_debtors (debts : List ℚ) (h : ∀ v ∈ debts, wholeCents v) :
    PosCents (debtorsOf debts) := by
  intro c hc
  rw [debtorsOf_eq] at hc
  obtain ⟨⟨v, hv, hsel⟩, _⟩ := mem_partiesFrom _ _ _ _ hc
  obtain ⟨k, rfl⟩ := (wholeCents_iff v).mp (h v hv)
  unfold debitPart at hsel
  split at hsel
  · cases hsel
  · split at hsel
    · rename_i hlt
      have hval := Option.some.inj hsel
      refine ⟨-k, ?_, ?_⟩
      · by_contra hk
        have : (0 : ℚ) ≤ (k : ℚ) := by exact_mod_cast (by omega : 0 ≤ k)
        linarith
      · rw [← hval]; push_cast; ring
    · cases hsel

theorem held_sortDesc (l : List Party) (i : Nat) : held (sortDesc l) i = held l i := by
  unfold held sortDesc
  exact ((List.perm_insertionSort _ l).map _).sum_eq

theorem totalVal_sortDesc (l : List Party) : totalVal (sortDesc l) = totalVal l := by
  unfold totalVal sortDesc
  exact ((List.perm_insertionSort _ l).map _).sum_eq

theorem length_replay (ts : List Transfer) :
    ∀ b : List ℚ, (replay b ts).length = b.length := by
  induction ts with
  | nil => intro b; rfl
  | cons t rest ih => intro b; simp [replay, ih, length_addAt]

theorem sum_parts (debts : List ℚ) (h : ∀ v ∈ debts, wholeCents v) :
    (debts.map (fun v => (creditPart v).getD 0)).sum
      - (debts.map (fun v => (debitPart v).getD 0)).sum = debts.sum := by
  induction debts with
  | nil => simp
  | cons x xs ih =>
    have hx := cents_parts x (h x (List.mem_cons_self _ _))
    have hxs := ih (fun v hv => h v (List.mem_cons_of_mem _ hv))
    simp only [List.map_cons, List.sum_cons]
    linarith

/-! ## Exchange rates and the conversion of items -/

theorem defaultRate_pos (code : String) (r : ℚ) (h : defaultRate code = some r) : 0 < r := by
  unfold defaultRate DEFAULT_RATES at h
  simp only [List.lookup] at h
  repeat' split at h
  all_goals first
    | (cases h; norm_num)
    | cases h

theorem defaultRate_getD_pos (code : String) : 0 < (defaultRate code).getD 1 := by
  cases h : defaultRate code with
  | none => simp
  | some r => simpa using defaultRate_pos code r h

theorem fallbackRate_of_table (code : String) (q : ℚ) (h : defaultRate code = some q) :
    fallbackRate code = .num q := by
  have hq := defaultRate_pos code q h
  have hne : q ≠ 0 := ne_of_gt hq
  simp [fallbackRate, tableValue, h, JsVal.truthy, hne]

theorem fallbackRate_of_unknown (code : String) (h : defaultRate code = none)
    (hn : code ∉ objectPrototypeNames) : fallbackRate code = .num 1 := by
  simp [fallbackRate, tableValue, h, hn, JsVal.truthy]

theorem fallbackRate_of_inherited (code : String) (h : defaultRate code = none)
    (hn : code ∈ objectPrototypeNames) : fallbackRate code = .obj := by
  simp [fallbackRate, tableValue, h, hn, JsVal.truthy]

theorem fallbackRate_pos (code : String) (hn : code ∉ objectPrototypeNames) :
    ∃ r : ℚ, fallbackRate code = .num r ∧ 0 < r := by
  cases h : defaultRate code with
  | none => exact ⟨1, fallbackRate_of_unknown code h hn, by norm_num⟩
  | some q => exact ⟨q, fallbackRate_of_table code q h, defaultRate_pos code q h⟩

theorem oldRateOf_ne_zero (receipt : Receipt) : oldRateOf receipt ≠ 0 := by
  unfold oldRateOf
  have hd := defaultRate_getD_pos (oldCurrencyOf receipt)
  split
  · split
    · assumption
    · exact ne_of_gt hd
  · exact ne_of_gt hd

theorem rescaleItem_of_base (oldRate newRate : ℚ) (item : Item) (b q : ℚ)
    (hb : item.totalBase = .num b) (hq : item.qty = .num q) (hq0 : q ≠ 0) :
    rescaleItem oldRate newRate item
      = { item with unitPrice := .num (b * newRate / q), total := .num (b * newRate) } := by
  have hne : item.qty ≠ .num 0 := by
    rw [hq]; intro h; exact hq0 (JsNum.num.inj h)
  unfold rescaleItem
  simp only [hb, hq, JsNum.isNumber, Bool.true_and, decide_eq_true_eq, ne_eq, JsNum.mul,
    JsNum.div, hq0, if_false]
  rw [hq] at hne
  simp only [hne, not_false_eq_true, if_true]
  congr 2
  field_simp

theorem overrideItem_eq_rescaleItem (oldRate newRate : ℚ) (item : Item)
    (h : (item.totalBase.isNumber && item.qty.isNumber && decide (item.qty ≠ .num 0)) = true) :
    overrideItem newRate item = rescaleItem oldRate newRate item := by
  unfold overrideItem rescaleItem
  simp only [h, if_true]

theorem overrideItem_totalBase (newRate : ℚ) (item : Item) :
    (overrideItem newRate item).totalBase = item.totalBase := by
  unfold overrideItem
  split <;> rfl

theorem rescaleItem_totalBase (oldRate newRate : ℚ) (item : Item)
    (h : item.totalBase.isNumber = true)
    (hq : item.qty.isNumber = false ∨ item.qty ≠ .num 0) :
    (rescaleItem oldRate newRate item).totalBase = item.totalBase := by
  unfold rescaleItem
  rcases hq with hq | hq
  · simp [h, hq]
  · by_cases hn : item.qty.isNumber = true
    · simp [h, hn, hq]
    · have hn' : item.qty.isNumber = false := by simpa using hn
      simp [h, hn']

/-- After the conversion of an item at a non-zero old rate, an item with a
numeric unit price `u` and a non-zero quantity `q` has a numeric base value
`b` with `b * newRate = u * q`. -/
theorem rescaleItem_sync (oldRate newRate : ℚ) (hold : oldRate ≠ 0) (item : Item) (u q : ℚ)
    (hu : (rescaleItem oldRate newRate item).unitPrice = .num u)
    (hq : (rescaleItem oldRate newRate item).qty = .num q) (hq0 : q ≠ 0) :
    ∃ b, (rescaleItem oldRate newRate item).totalBase = .num b ∧ b * newRate = u * q := by
  have hqty : (rescaleItem oldRate newRate item).qty = item.qty := by
    unfold rescaleItem
    split
    · rfl
    · split
      · rfl
      · split <;> rfl
  rw [hqty] at hq
  unfold rescaleItem at hu ⊢
  simp only [hq, JsNum.isNumber, Bool.and_true, ne_eq, JsNum.num.injEq, hq0, not_false_eq_true,
    decide_True] at hu ⊢
  cases hb : item.totalBase with
  | num b =>
    simp only [hb, JsNum.isNumber, if_true, JsNum.mul, JsNum.div, hq0, if_false,
      JsNum.num.injEq] at hu ⊢
    exact ⟨b, rfl, by rw [← hu]; field_simp⟩
  | nan =>
    simp [hb, JsNum.isNumber, JsNum.mul, JsNum.div] at hu
  | undefined =>
    simp only [hb, JsNum.isNumber, Bool.false_eq_true, if_false] at hu ⊢
    cases hup : item.unitPrice with
    | num u0 =>
      simp only [hup, JsNum.isNumber, if_true, JsNum.mul, JsNum.div, hold, hq0, if_false,
        JsNum.num.injEq] at hu ⊢
      exact ⟨u0 * q / oldRate, rfl, by rw [← hu]; field_simp; ring⟩
    | nan =>
      simp [hup, JsNum.isNumber, JsNum.mul, JsNum.div] at hu
    | undefined =>
      simp only [hup, JsNum.isNumber, Bool.false_eq_true, if_false] at hu ⊢
      cases ht : item.total with
      | num t =>
        simp only [ht, JsNum.isNumber, if_true, JsNum.mul, JsNum.div, hold, hq0, if_false,
          JsNum.num.injEq] at hu ⊢
        exact ⟨t / oldRate, rfl, by rw [← hu]; field_simp; ring⟩
      | nan =>
        simp [ht, JsNum.isNumber, JsNum.mul, JsNum.div, hold] at hu
      | undefined =>
        simp [ht, JsNum.isNumber, hup] at hu

/-- After the manual override, an item with a numeric base value `b`, a
numeric unit price `u` and a non-zero quantity `q` has `b * newRate = u * q`. -/
theorem overrideItem_sync (newRate : ℚ) (item : Item) (b u q : ℚ)
    (hb : (overrideItem newRate item).totalBase = .num b)
    (hu : (overrideItem newRate item).unitPrice = .num u)
    (hq : (overrideItem newRate item).qty = .num q) (hq0 : q ≠ 0) :
    b * newRate = u * q := by
  have hqty : (overrideItem newRate item).qty = item.qty := by
    unfold overrideItem
    split <;> rfl
  rw [hqty] at hq
  rw [overrideItem_totalBase] at hb
  unfold overrideItem at hu
  simp only [hb, hq, JsNum.isNumber, Bool.and_true, ne_eq, JsNum.num.injEq, hq0,
    not_false_eq_true, decide_True, if_true, JsNum.mul, JsNum.div, if_false] at hu
  rw [← hu]; field_simp

/-! ## Writing pending changes into the ledger -/

theorem alookup_setAssigned (l : List (Nat × Bool)) (key : Nat) (v : Bool) (k : Nat) :
    alookup (setAssigned l key v) k = if k = key then some v else alookup l k := by
  induction l with
  | nil =>
    simp only [setAssigned, alookup]
    by_cases h : k = key
    · simp [h]
    · have h' : ¬ key = k := fun e => h e.symm
      simp [h, h']
  | cons e rest ih =>
    obtain ⟨k0, w⟩ := e
    simp only [setAssigned]
    by_cases h0 : k0 = key
    · subst h0
      simp only [if_true, alookup]
      by_cases h : k0 = k
      · simp [h]
      · have h' : ¬ k = k0 := fun e => h e.symm
        simp [h, h']
    · simp only [h0, if_false]
      by_cases hlt : key < k0
      · simp only [hlt, if_true, alookup]
        by_cases h : key = k
        · simp [h]
        · have h' : ¬ k = key := fun e => h e.symm
          simp [h, h']
      · simp only [hlt, if_false, alookup, ih]
        by_cases h : k0 = k
        · have h' : ¬ k = key := by rw [← h]; exact h0
          simp [h, h']
        · simp [h]

theorem length_applyChange (items : List Item) (c : Change) :
    (applyChange items c).length = items.length := by
  unfold applyChange
  split <;> simp

theorem map_clearAssigned_applyChange (items : List Item) (c : Change) :
    (applyChange items c).map clearAssigned = items.map clearAssigned := by
  unfold applyChange
  cases h : items[c.itemIndex]? with
  | none => rfl
  | some item =>
    simp only [List.map_set]
    apply List.ext_getElem?
    intro j
    rw [List.getElem?_set]
    by_cases hj : c.itemIndex = j
    · subst hj
      obtain ⟨hlt, heq⟩ := List.getElem?_eq_some.mp h
      subst heq
      simp [hlt, clearAssigned]
    · simp [hj]

theorem applyChange_of_missing (items : List Item) (c : Change)
    (h : items.length ≤ c.itemIndex) : applyChange items c = items := by
  unfold applyChange
  rw [List.getElem?_eq_none_iff.mpr h]

theorem cell_applyChange (items : List Item) (c : Change) (i p : Nat) :
    cell (applyChange items c) i p
      = if c.itemIndex = i ∧ c.personIndex = p ∧ i < items.length then some c.assigned
        else cell items i p := by
  unfold applyChange cell
  cases h : items[c.itemIndex]? with
  | none =>
    have hge : items.length ≤ c.itemIndex := List.getElem?_eq_none_iff.mp h
    by_cases hi : c.itemIndex = i
    · subst hi
      have : ¬ c.itemIndex < items.length := by omega
      simp [this]
    · simp [hi]
  | some item =>
    have hlt : c.itemIndex < items.length := (List.getElem?_eq_some.mp h).1
    simp only [List.getElem?_set]
    by_cases hi : c.itemIndex = i
    · subst hi
      simp only [hlt, if_true, Option.some_bind, alookup_setAssigned, true_and, and_true, h]
      by_cases hp : p = c.personIndex
      · simp [hp]
      · have hp' : ¬ c.personIndex = p := fun e => hp e.symm
        simp [hp, hp']
    · simp [hi]

theorem length_foldl_applyChange (changes : List Change) :
    ∀ items : List Item, (changes.foldl applyChange items).length = items.length := by
  induction changes with
  | nil => intro items; rfl
  | cons c rest ih => intro items; rw [List.foldl_cons, ih, length_applyChange]

theorem map_clearAssigned_foldl (changes : List Change) :
    ∀ items : List Item,
      (changes.foldl applyChange items).map clearAssigned = items.map clearAssigned := by
  induction changes with
  | nil => intro items; rfl
  | cons c rest ih => intro items; rw [List.foldl_cons, ih, map_clearAssigned_applyChange]

theorem cell_foldl_applyChange (changes : List Change) (i p : Nat) :
    ∀ items : List Item, i < items.length →
      cell (changes.foldl applyChange items) i p
        = (lastTarget changes i p).or (cell items i p) := by
  induction changes with
  | nil => intro items _; simp [lastTarget]
  | cons c rest ih =>
    intro items hi
    rw [List.foldl_cons, ih _ (by rw [length_applyChange]; exact hi), cell_applyChange]
    simp only [lastTarget]
    by_cases h : c.itemIndex = i ∧ c.personIndex = p
    · simp only [h, and_self, hi, if_true]
      cases lastTarget rest i p <;> simp
    · have h' : ¬ (c.itemIndex = i ∧ c.personIndex = p ∧ i < items.length) :=
        fun hh => h ⟨hh.1, hh.2.1⟩
      simp only [h, h', if_false]
      cases lastTarget rest i p <;> simp

theorem lastTarget_of_mem (changes : List Change) (c : Change) (h : c ∈ changes) :
    ∃ v, lastTarget changes c.itemIndex c.personIndex = some v := by
  induction changes with
  | nil => simp at h
  | cons c0 rest ih =>
    simp only [lastTarget]
    rcases List.mem_cons.mp h with heq | hrest
    · subst heq
      cases lastTarget rest c.itemIndex c.personIndex <;> simp
    · obtain ⟨v, hv⟩ := ih hrest
      exact ⟨v, by simp [hv]⟩

theorem lastTarget_none (changes : List Change) (i p : Nat)
    (h : ∀ d ∈ changes, ¬ (d.itemIndex = i ∧ d.personIndex = p)) :
    lastTarget changes i p = none := by
  induction changes with
  | nil => rfl
  | cons c0 rest ih =>
    have h0 := h c0 (List.mem_cons_self _ _)
    simp only [lastTarget, ih (fun d hd => h d (List.mem_cons_of_mem _ hd)), h0, if_false]
    rfl

theorem lastTarget_of_last (l1 l2 : List Change) (c : Change)
    (h : ∀ d ∈ l2, ¬ (d.itemIndex = c.itemIndex ∧ d.personIndex = c.personIndex)) :
    lastTarget (l1 ++ c :: l2) c.itemIndex c.personIndex = some c.assigned := by
  induction l1 with
  | nil =>
    simp only [List.nil_append, lastTarget, lastTarget_none l2 _ _ h, and_self, if_true]
    rfl
  | cons x rest ih =>
    rw [List.cons_append, lastTarget, ih]
    rfl

theorem alookup_aset_self {α : Type} (m : List (String × α)) (key : String) (v : α) :
    alookup (aset m key v) key = some v := by
  induction m with
  | nil => simp [aset, alookup]
  | cons e rest ih =>
    obtain ⟨k, w⟩ := e
    simp only [aset]
    by_cases h : k = key
    · simp [h, alookup]
    · simp [h, alookup, ih]

theorem alookup_aset_ne {α : Type} (m : List (String × α)) (key k : String) (v : α)
    (hne : k ≠ key) : alookup (aset m key v) k = alookup m k := by
  induction m with
  | nil =>
    have : ¬ key = k := fun e => hne e.symm
    simp [aset, alookup, this]
  | cons e rest ih =>
    obtain ⟨k0, w⟩ := e
    simp only [aset]
    by_cases h : k0 = key
    · subst h
      have : ¬ k0 = k := fun e => hne e.symm
      simp [alookup, this]
    · simp only [h, if_false, alookup, ih]

theorem alookup_aerase_self {α : Type} (m : List (String × α)) (key : String) :
    alookup (aerase m key) key = none := by
  induction m with
  | nil => rfl
  | cons e rest ih =>
    obtain ⟨k, w⟩ := e
    simp only [aerase]
    by_cases h : k = key
    · simp [h, ih]
    · simp [h, alookup, ih]

theorem alookup_aerase_ne {α : Type} (m : List (String × α)) (key k : String) (hne : k ≠ key) :
    alookup (aerase m key) k = alookup m k := by
  induction m with
  | nil => rfl
  | cons e rest ih =>
    obtain ⟨k0, w⟩ := e
    simp only [aerase]
    by_cases h : k0 = key
    · subst h
      have : ¬ k0 = k := fun e => hne e.symm
      simp [alookup, this, ih]
    · simp only [h, if_false, alookup, ih]

/-- After `discardPendingChanges` no pending changes are stored for the pair. -/
theorem getPending_discard_self (map : PendingMap) (owner receiptId : String) :
    getPendingChangesForReceipt (discardPendingChanges map owner receiptId) owner receiptId
      = none := by
  cases ho : alookup map owner with
  | none => simp [discardPendingChanges, getPendingChangesForReceipt, ho]
  | some perOwner =>
    cases hr : alookup perOwner receiptId with
    | none => simp [discardPendingChanges, getPendingChangesForReceipt, ho, hr]
    | some changes =>
      simp only [discardPendingChanges, ho, hr]
      split
      · simp [getPendingChangesForReceipt, alookup_aerase_self]
      · simp [getPendingChangesForReceipt, alookup_aset_self, alookup_aerase_self]

theorem applyToReceipts_none (changes : List Change) (receiptId : String) (rs : List Receipt)
    (h : ∀ x ∈ rs, x.id ≠ receiptId) : applyToReceipts changes receiptId rs = none := by
  induction rs with
  | nil => rfl
  | cons r rest ih =>
    have hr := h r (List.mem_cons_self _ _)
    simp [applyToReceipts, hr, ih (fun x hx => h x (List.mem_cons_of_mem _ hx))]

theorem applyToReceipts_found (changes : List Change) (receiptId : String)
    (pre post : List Receipt) (r : Receipt) (hid : r.id = receiptId)
    (hpre : ∀ x ∈ pre, x.id ≠ receiptId) :
    applyToReceipts changes receiptId (pre ++ r :: post)
      = some (pre ++ { r with items := changes.foldl applyChange r.items } :: post) := by
  induction pre with
  | nil => simp [applyToReceipts, hid]
  | cons x rest ih =>
    have hx := hpre x (List.mem_cons_self _ _)
    simp [applyToReceipts, hx, ih (fun y hy => hpre y (List.mem_cons_of_mem _ hy))]

theorem receipts_split_at_id (receiptId : String) (rs : List Receipt)
    (h : ∃ x ∈ rs, x.id = receiptId) :
    ∃ pre r post, rs = pre ++ r :: post ∧ r.id = receiptId ∧ ∀ x ∈ pre, x.id ≠ receiptId := by
  induction rs with
  | nil => obtain ⟨x, hx, _⟩ := h; simp at hx
  | cons r rest ih =>
    by_cases hr : r.id = receiptId
    · exact ⟨[], r, rest, rfl, hr, by simp⟩
    · obtain ⟨x, hx, hxid⟩ := h
      have hx' : x ∈ rest := by
        rcases List.mem_cons.mp hx with e | e
        · subst e; exact absurd hxid hr
        · exact e
      obtain ⟨pre, r', post, heq, hid, hpre⟩ := ih ⟨x, hx', hxid⟩
      refine ⟨r :: pre, r', post, by simp [heq], hid, ?_⟩
      intro y hy
      rcases List.mem_cons.mp hy with e | e
      · subst e; exact hr
      · exact hpre y e

/-- The two ways `applyPendingChanges` ends: nothing is touched (no pending
changes, or the owner, the folder or the receipt is not found), or the
changes are written into the receipt and the pending entry is discarded. -/
theorem applyPendingChanges_cases (st : AppState) (owner folderId receiptId : String) :
    ((getPendingChangesForReceipt st.pending owner receiptId = none ∨
        alookup st.users owner = none ∨
        (∃ folders, alookup st.users owner = some folders ∧ alookup folders folderId = none) ∨
        (∃ folders folder, alookup st.users owner = some folders ∧
          alookup folders folderId = some folder ∧ ∀ x ∈ folder.receipts, x.id ≠ receiptId)) ∧
      applyPendingChanges st owner folderId receiptId = st) ∨
    (∃ changes folders folder pre r post,
      getPendingChangesForReceipt st.pending owner receiptId = some changes ∧
      alookup st.users owner = some folders ∧ alookup folders folderId = some folder ∧
      folder.receipts = pre ++ r :: post ∧ r.id = receiptId ∧ (∀ x ∈ pre, x.id ≠ receiptId) ∧
      applyPendingChanges st owner folderId receiptId
        = { users := aset st.users owner (aset folders folderId
              { folder with receipts :=
                pre ++ { r with items := changes.foldl applyChange r.items } :: post }),
            pending := discardPendingChanges st.pending owner receiptId }) := by
  cases hp : getPendingChangesForReceipt st.pending owner receiptId with
  | none => exact Or.inl ⟨Or.inl rfl, by simp only [applyPendingChanges, hp]⟩
  | some changes =>
    cases hu : alookup st.users owner with
    | none => exact Or.inl ⟨Or.inr (Or.inl rfl), by simp only [applyPendingChanges, hp, hu]⟩
    | some folders =>
      cases hf : alookup folders folderId with
      | none =>
        exact Or.inl ⟨Or.inr (Or.inr (Or.inl ⟨folders, rfl, hf⟩)),
          by simp only [applyPendingChanges, hp, hu, hf]⟩
      | some folder =>
        by_cases hex : ∃ x ∈ folder.receipts, x.id = receiptId
        · obtain ⟨pre, r, post, heq, hid, hpre⟩ :=
            receipts_split_at_id receiptId folder.receipts hex
          refine Or.inr ⟨changes, folders, folder, pre, r, post, rfl, rfl, hf, heq, hid, hpre, ?_⟩
          simp only [applyPendingChanges, hp, hu, hf, heq,
            applyToReceipts_found changes receiptId pre post r hid hpre]
        · have hall : ∀ x ∈ folder.receipts, x.id ≠ receiptId := by
            intro x hx hxid
            exact hex ⟨x, hx, hxid⟩
          refine Or.inl ⟨Or.inr (Or.inr (Or.inr ⟨folders, folder, rfl, hf, hall⟩)), ?_⟩
          simp only [applyPendingChanges, hp, hu, hf,
            applyToReceipts_none changes receiptId folder.receipts hall]

/-! ## The stored map of pending changes -/

theorem keyCount_aset {α : Type} (m : List (String × α)) (key k : String) (v : α) :
    keyCount (aset m key v) k
      = if k = key then max 1 (keyCount m key) else keyCount m k := by
  induction m with
  | nil =>
    by_cases h : k = key
    · subst h; simp [aset, keyCount]
    · have : ¬ key = k := fun e => h e.symm
      simp [aset, keyCount, h, this]
  | cons e rest ih =>
    obtain ⟨k0, w⟩ := e
    simp only [aset]
    by_cases h0 : k0 = key
    · subst h0
      by_cases h : k = k0
      · subst h
        simp [keyCount, List.filter_cons]
      · have : ¬ k0 = k := fun e => h e.symm
        simp [keyCount, List.filter_cons, h, this]
    · simp only [h0, if_false]
      by_cases h : k = key
      · subst h
        have ih' : keyCount (aset rest k v) k = max 1 (keyCount rest k) := by simpa using ih
        simp only [keyCount] at ih' ⊢
        simp [List.filter_cons, h0, ih']
      · have ih' : keyCount (aset rest key v) k = keyCount rest k := by simpa [h] using ih
        simp only [keyCount] at ih' ⊢
        by_cases hk : k0 = k
        · simp [List.filter_cons, hk, h, ih']
        · simp [List.filter_cons, hk, h, ih']

theorem mem_aset {α : Type} (m : List (String × α)) (key : String) (v : α)
    (e : String × α) (he : e ∈ aset m key v) : e = (key, v) ∨ e ∈ m := by
  induction m with
  | nil => simp [aset] at he; exact Or.inl he
  | cons e0 rest ih =>
    obtain ⟨k0, w⟩ := e0
    simp only [aset] at he
    by_cases h0 : k0 = key
    · simp only [h0, if_true, List.mem_cons] at he
      rcases he with he | he
      · exact Or.inl he
      · exact Or.inr (List.mem_cons_of_mem _ he)
    · simp only [h0, if_false, List.mem_cons] at he
      rcases he with he | he
      · exact Or.inr (he ▸ List.mem_cons_self _ _)
      · rcases ih he with h | h
        · exact Or.inl h
        · exact Or.inr (List.mem_cons_of_mem _ h)

theorem mem_of_alookup {α : Type} (m : List (String × α)) (key : String) (v : α)
    (h : alookup m key = some v) : (key, v) ∈ m := by
  induction m with
  | nil => simp [alookup] at h
  | cons e rest ih =>
    obtain ⟨k0, w⟩ := e
    simp only [alookup] at h
    by_cases h0 : k0 = key
    · simp only [h0, if_true, Option.some.injEq] at h
      subst h0; subst h
      exact List.mem_cons_self _ _
    · simp only [h0, if_false] at h
      exact List.mem_cons_of_mem _ (ih h)

theorem getPending_add_self (map : PendingMap) (owner receiptId : String)
    (changes : List Change) :
    getPendingChangesForReceipt (addPendingChange map owner receiptId changes) owner receiptId
      = some changes := by
  simp [getPendingChangesForReceipt, addPendingChange, alookup_aset_self]

theorem getPending_add_ne (map : PendingMap) (owner receiptId : String)
    (changes : List Change) (o r : String) (h : o ≠ owner ∨ r ≠ receiptId) :
    getPendingChangesForReceipt (addPendingChange map owner receiptId changes) o r
      = getPendingChangesForReceipt map o r := by
  unfold getPendingChangesForReceipt addPendingChange
  by_cases ho : o = owner
  · subst ho
    have hr : r ≠ receiptId := by
      rcases h with h | h
      · exact absurd rfl h
      · exact h
    rw [alookup_aset_self]
    simp only
    rw [alookup_aset_ne _ _ _ _ hr]
    cases alookup map o with
    | none => simp [alookup]
    | some perOwner => simp
  · rw [alookup_aset_ne _ _ _ _ ho]

theorem alookup_of_aerase_nil {α : Type} (m : List (String × α)) (key k : String)
    (h : aerase m key = []) (hne : k ≠ key) : alookup m k = none := by
  rw [← alookup_aerase_ne m key k hne, h]
  rfl

theorem getPending_discard_ne (map : PendingMap) (owner receiptId : String)
    (o r : String) (h : o ≠ owner ∨ r ≠ receiptId) :
    getPendingChangesForReceipt (discardPendingChanges map owner receiptId) o r
      = getPendingChangesForReceipt map o r := by
  cases hown : alookup map owner with
  | none => simp [discardPendingChanges, hown]
  | some perOwner =>
    cases hrec : alookup perOwner receiptId with
    | none => simp [discardPendingChanges, hown, hrec]
    | some changes =>
      simp only [discardPendingChanges, hown, hrec]
      by_cases ho : o = owner
      · subst ho
        have hr : r ≠ receiptId := by
          rcases h with h | h
          · exact absurd rfl h
          · exact h
        split
        · rename_i hlen
          have hnil : aerase perOwner receiptId = [] := List.length_eq_zero.mp hlen
          simp [getPendingChangesForReceipt, alookup_aerase_self, hown,
            alookup_of_aerase_nil perOwner receiptId r hnil hr]
        · simp [getPendingChangesForReceipt, alookup_aset_self, hown,
            alookup_aerase_ne perOwner receiptId r hr]
      · split
        · simp [getPendingChangesForReceipt, alookup_aerase_ne _ _ _ ho]
        · simp [getPendingChangesForReceipt, alookup_aset_ne _ _ _ _ ho]

/-! ## Submissions from the share views and their highlighting -/

theorem liveOrig_iff (p : Nat) (it : Item) :
    liveOrig p it = true ↔ alookup it.assigned p = some true := by
  unfold liveOrig
  cases alookup it.assigned p with
  | none => simp
  | some b => simp

theorem snapshotOrig_iff (p : Nat) (it : SnapItem) :
    snapshotOrig p it = true ↔ ∃ arr, it.assigned = some arr ∧ arr[p]? = some true := by
  unfold snapshotOrig
  cases h : it.assigned with
  | none => simp
  | some arr =>
    simp only [Option.some.injEq, exists_eq_left']
    by_cases hp : p < arr.length
    · simp [hp, List.getD_eq_getElem?_getD, List.getElem?_eq_getElem hp]
    · have : arr[p]? = none := List.getElem?_eq_none_iff.mpr (by omega)
      simp [hp, this]

theorem collectPending_eq {α : Type} (orig : α → Bool) (current : Nat → Option Bool)
    (p : Nat) (items : List α) :
    ∀ (idx : Nat) (acc : List Change),
      collectPending orig current p items idx acc
        = acc ++ ((((items.map orig).zip (checkboxStates orig current items idx)).enumFrom idx
            |>.filter (fun e => e.2.2 != e.2.1)).map
              (fun e => (⟨e.1, p, e.2.2⟩ : Change))) := by
  induction items with
  | nil => intro idx acc; simp [collectPending, checkboxStates]
  | cons it rest ih =>
    intro idx acc
    simp only [collectPending, checkboxStates, List.map_cons, List.zip_cons_cons,
      List.enumFrom_cons, List.filter_cons]
    rw [ih]
    by_cases h : ((current idx).getD (orig it) != orig it) = true
    · simp [h]
    · simp [h]

theorem collectPending_xor {α : Type} (orig : α → Bool) (current : Nat → Option Bool)
    (p : Nat) (items : List α) :
    collectPending orig current p items 0 []
      = xorEntries (items.map orig) (checkboxStates orig current items 0) p := by
  rw [collectPending_eq]
  simp [xorEntries, List.enum]

theorem mem_xorEntries (origs checks : List Bool) (p : Nat) (c : Change) :
    c ∈ xorEntries origs checks p ↔
      c.personIndex = p ∧
      ∃ o v, origs[c.itemIndex]? = some o ∧ checks[c.itemIndex]? = some v ∧
        c.assigned = v ∧ v ≠ o := by
  unfold xorEntries
  simp only [List.mem_map, List.mem_filter, Prod.exists, List.mk_mem_enum_iff_getElem?,
    List.getElem?_zip_eq_some]
  constructor
  · rintro ⟨i, o, v, ⟨⟨ho, hv⟩, hne⟩, rfl⟩
    refine ⟨rfl, o, v, ho, hv, rfl, ?_⟩
    simpa using hne
  · rintro ⟨hp, o, v, ho, hv, ha, hne⟩
    refine ⟨c.itemIndex, o, v, ⟨⟨ho, hv⟩, by simpa using hne⟩, ?_⟩
    cases c
    simp_all

theorem pairwise_enumFrom_entries (p : Nat) (l : List (Bool × Bool)) :
    ∀ n : Nat,
      (((l.enumFrom n).filter (fun e => e.2.2 != e.2.1)).map
          (fun e => (⟨e.1, p, e.2.2⟩ : Change))).Pairwise
        (fun a b => a.itemIndex < b.itemIndex) ∧
      ∀ c ∈ ((l.enumFrom n).filter (fun e => e.2.2 != e.2.1)).map
          (fun e => (⟨e.1, p, e.2.2⟩ : Change)), n ≤ c.itemIndex := by
  induction l with
  | nil => intro n; simp
  | cons x rest ih =>
    intro n
    obtain ⟨ihp, ihm⟩ := ih (n + 1)
    simp only [List.enumFrom_cons, List.filter_cons]
    split
    · simp only [List.map_cons, List.pairwise_cons, List.mem_cons, forall_eq_or_imp, le_refl,
        true_and]
      refine ⟨⟨?_, ihp⟩, ?_⟩
      · intro c hc
        have := ihm c hc
        show n < c.itemIndex
        omega
      · intro c hc
        have := ihm c hc
        omega
    · refine ⟨ihp, ?_⟩
      intro c hc
      have := ihm c hc
      omega

theorem pairwise_xorEntries (origs checks : List Bool) (p : Nat) :
    (xorEntries origs checks p).Pairwise (fun a b => a.itemIndex < b.itemIndex) :=
  (pairwise_enumFrom_entries p (origs.zip checks) 0).1

theorem highlightLoop_eq (i p : Nat) (current : Bool) (l : List Change) :
    highlightLoop i p current l
      = match firstTarget l i p with
        | some ch => ch.assigned != current
        | none => false := by
  induction l with
  | nil => rfl
  | cons ch rest ih =>
    unfold highlightLoop firstTarget
    by_cases h : ch.itemIndex = i ∧ ch.personIndex = p
    · simp [h, List.find?_cons]
    · rw [if_neg h, ih]
      simp [List.find?_cons, h, firstTarget]

theorem firstTarget_of_unique (l : List Change) (i p : Nat)
    (h : (l.filter (fun ch => ch.itemIndex = i ∧ ch.personIndex = p)).length ≤ 1)
    (ch : Change) (hmem : ch ∈ l) (hi : ch.itemIndex = i) (hp : ch.personIndex = p) :
    firstTarget l i p = some ch := by
  induction l with
  | nil => simp at hmem
  | cons c rest ih =>
    unfold firstTarget
    by_cases hc : c.itemIndex = i ∧ c.personIndex = p
    · have hflt : (rest.filter (fun ch => ch.itemIndex = i ∧ ch.personIndex = p)) = [] := by
        simp only [List.filter_cons, hc, and_self, decide_True, if_true, List.length_cons] at h
        exact List.length_eq_zero.mp (by omega)
      rcases List.mem_cons.mp hmem with heq | hrest
      · subst heq
        simp [List.find?_cons, hc]
      · have : ch ∈ rest.filter (fun ch => ch.itemIndex = i ∧ ch.personIndex = p) := by
          simp [List.mem_filter, hrest, hi, hp]
        rw [hflt] at this
        simp at this
    · have hne : ch ≠ c := by
        intro e
        subst e
        exact hc ⟨hi, hp⟩
      have hrest : ch ∈ rest := by
        rcases List.mem_cons.mp hmem with heq | hrest
        · exact absurd heq hne
        · exact hrest
      have h' : (rest.filter (fun ch => ch.itemIndex = i ∧ ch.personIndex = p)).length ≤ 1 := by
        simpa [List.filter_cons, hc] using h
      have := ih h' hrest
      unfold firstTarget at this
      rw [List.find?_cons, this]
      simp only [hc, decide_False]

theorem targets_of_ascending (l : List Change) (i p : Nat)
    (h : l.Pairwise (fun a b => a.itemIndex < b.itemIndex)) :
    (l.filter (fun ch => ch.itemIndex = i ∧ ch.personIndex = p)).length ≤ 1 := by
  induction l with
  | nil => simp
  | cons c rest ih =>
    obtain ⟨hc, hrest⟩ := List.pairwise_cons.mp h
    by_cases hm : c.itemIndex = i ∧ c.personIndex = p
    · have hnil : rest.filter (fun ch => ch.itemIndex = i ∧ ch.personIndex = p) = [] := by
        rw [List.filter_eq_nil_iff]
        intro b hb hcond
        have := hc b hb
        simp only [decide_eq_true_eq] at hcond
        omega
      rw [List.filter_cons, if_pos (by simpa using hm), hnil]
      simp
    · simpa [List.filter_cons, hm] using ih hrest

/-! ## Edits of an item and the settlement under a change of currency -/

theorem baseVal_of_totalBase (rate : JsNum) (item : Item)
    (h : item.totalBase.isNumber = true) : baseVal rate item = item.totalBase := by
  simp [baseVal, h]

theorem rescaleItem_assigned (oldRate newRate : ℚ) (item : Item) :
    (rescaleItem oldRate newRate item).assigned = item.assigned := by
  unfold rescaleItem
  split
  · rfl
  · split
    · rfl
    · split <;> rfl

theorem overrideItem_assigned (newRate : ℚ) (item : Item) :
    (overrideItem newRate item).assigned = item.assigned := by
  unfold overrideItem
  split <;> rfl

theorem itemStep_congr (people : List Person) (act : List Nat) (rate rate' : JsNum)
    (sums : List ℚ) (item item' : Item) (hb : baseVal rate item = baseVal rate' item')
    (ha : item.assigned = item'.assigned) :
    itemStep people act rate sums item = itemStep people act rate' sums item' := by
  simp only [itemStep, hb, ha]

theorem foldl_itemStep_map (people : List Person) (act : List Nat) (rate rate' : JsNum)
    (f : Item → Item) (items : List Item)
    (h : ∀ item ∈ items, ∀ sums,
      itemStep people act rate' sums (f item) = itemStep people act rate sums item) :
    ∀ init : List ℚ,
      (items.map f).foldl (itemStep people act rate') init
        = items.foldl (itemStep people act rate) init := by
  induction items with
  | nil => intro init; rfl
  | cons item rest ih =>
    intro init
    simp only [List.map_cons, List.foldl_cons]
    rw [h item (List.mem_cons_self _ _), ih (fun x hx => h x (List.mem_cons_of_mem _ hx))]

theorem receiptSums_changeReceiptCurrency (people : List Person) (act : List Nat)
    (r : Receipt) (h : ∀ item ∈ r.items, item.totalBase.isNumber = true ∧ item.qty ≠ .num 0)
    (newCurrency : String) (newRate : ℚ) (apply : Bool) (now : Nat) :
    receiptSums people act (changeReceiptCurrency r newCurrency newRate apply now)
      = receiptSums people act r := by
  unfold receiptSums changeReceiptCurrency
  simp only
  split
  · apply foldl_itemStep_map
    intro item hitem sums
    obtain ⟨hb, hq⟩ := h item hitem
    have htb := rescaleItem_totalBase (oldRateOf r) newRate item hb (Or.inr hq)
    apply itemStep_congr
    · rw [baseVal_of_totalBase _ _ (by rw [htb]; exact hb), baseVal_of_totalBase _ _ hb, htb]
    · exact rescaleItem_assigned _ _ _
  · have := foldl_itemStep_map people act r.rate (.num newRate) id r.items (by
      intro item hitem sums
      obtain ⟨hb, _⟩ := h item hitem
      apply itemStep_congr
      · rw [baseVal_of_totalBase _ _ hb]
        exact baseVal_of_totalBase _ _ hb
      · rfl)
    simpa using this (List.replicate act.length 0)

theorem receiptSums_manualOverride (people : List Person) (act : List Nat)
    (r : Receipt) (h : ∀ item ∈ r.items, item.totalBase.isNumber = true)
    (input : JsNum) (reason : Option String) (now : Nat) :
    receiptSums people act (manualOverride r input reason now) = receiptSums people act r := by
  unfold manualOverride
  cases input with
  | undefined => rfl
  | nan => rfl
  | num newRate =>
    simp only
    split
    · rfl
    · unfold receiptSums
      simp only
      apply foldl_itemStep_map
      intro item hitem sums
      have hb := h item hitem
      have htb := overrideItem_totalBase newRate item
      apply itemStep_congr
      · rw [baseVal_of_totalBase _ _ (by rw [htb]; exact hb), baseVal_of_totalBase _ _ hb, htb]
      · exact overrideItem_assigned _ _

theorem payer_changeReceiptCurrency (r : Receipt) (newCurrency : String) (newRate : ℚ)
    (apply : Bool) (now : Nat) :
    (changeReceiptCurrency r newCurrency newRate apply now).payer = r.payer := rfl

theorem payer_manualOverride (r : Receipt) (input : JsNum) (reason : Option String)
    (now : Nat) : (manualOverride r input reason now).payer = r.payer := by
  unfold manualOverride
  cases input with
  | undefined => rfl
  | nan => rfl
  | num newRate =>
    simp only
    split <;> rfl

theorem computeSettlement_replace (folder : Folder) (rs1 rs2 : List Receipt) (r r' : Receipt)
    (hp : r'.payer = r.payer)
    (hs : receiptSums folder.people (activeIndices folder.people) r'
      = receiptSums folder.people (activeIndices folder.people) r) :
    computeSettlement { folder with receipts := rs1 ++ r' :: rs2 }
      = computeSettlement { folder with receipts := rs1 ++ r :: rs2 } := by
  simp only [computeSettlement, List.foldlM_append, List.foldlM_cons]
  have hstep : ∀ st, receiptStep folder.people (activeIndices folder.people) st r'
      = receiptStep folder.people (activeIndices folder.people) st r :=
    fun st => receiptStep_congr _ _ st _ _ hp hs
  simp only [hstep]

/-! ## Share tokens: the parser and the fields of the old format -/

theorem isJsSpace_of_isJsonWs (c : Char) (h : isJsonWs c = true) : isJsSpace c = true := by
  simp only [isJsonWs, Bool.or_eq_true, decide_eq_true_eq] at h
  rcases h with ((h | h) | h) | h <;> subst h <;> decide

theorem skipWs_of_brace (cs : List Char)
    (h : (cs.dropWhile isJsSpace).head? = some '{') :
    (∃ rest, skipWs cs = '{' :: rest) ∨
      ∃ c rest, skipWs cs = c :: rest ∧ isJsSpace c = true := by
  induction cs with
  | nil => simp at h
  | cons c t ih =>
    by_cases hj : isJsonWs c = true
    · have hs := isJsSpace_of_isJsonWs c hj
      simp only [List.dropWhile_cons, hs, if_true] at h
      simp only [skipWs, hj, if_true]
      exact ih h
    · by_cases hs : isJsSpace c = true
      · right
        exact ⟨c, t, by simp [skipWs, hj], hs⟩
      · left
        have hc : c = '{' := by simpa [List.dropWhile_cons, hs] using h
        refine ⟨t, ?_⟩
        rw [← hc]
        simp [skipWs, hj]

theorem toNat_of_isJsSpace (c : Char) (h : isJsSpace c = true) :
    c.toNat ≤ 32 ∨ 160 ≤ c.toNat := by
  simp only [isJsSpace, Bool.or_eq_true, decide_eq_true_eq] at h
  omega

theorem parseNumber_of_space (c : Char) (rest : List Char) (h : isJsSpace c = true) :
    parseNumber (c :: rest) = none := by
  have hn := toNat_of_isJsSpace c h
  have hd : isDigitChar c = false := by
    simp only [isDigitChar, decide_eq_false_iff_not]
    omega
  have hm : c ≠ '-' := by
    intro e
    subst e
    simp at hn
  simp [parseNumber, hm, hd]

theorem parseValue_of_space (fuel : Nat) (cs : List Char) (c : Char) (rest : List Char)
    (hskip : skipWs cs = c :: rest) (h : isJsSpace c = true) :
    parseValue fuel cs = none := by
  have hn := toNat_of_isJsSpace c h
  cases fuel with
  | zero => simp [parseValue]
  | succ fuel =>
    have h1 : c ≠ '{' := by intro e; subst e; simp at hn
    have h2 : c ≠ '[' := by intro e; subst e; simp at hn
    have h3 : c ≠ '"' := by intro e; subst e; simp at hn
    have h4 : c ≠ 't' := by intro e; subst e; simp at hn
    have h5 : c ≠ 'f' := by intro e; subst e; simp at hn
    have h6 : c ≠ 'n' := by intro e; subst e; simp at hn
    simp only [parseValue, hskip, h1, h2, h3, h4, h5, h6, if_false,
      parseNumber_of_space c rest h, Option.map_none']

theorem parseValue_of_brace (fuel : Nat) (cs rest : List Char) (v : Json) (r : List Char)
    (hskip : skipWs cs = '{' :: rest) (h : parseValue fuel cs = some (v, r)) :
    ∃ ms, v = .obj ms := by
  cases fuel with
  | zero => simp [parseValue] at h
  | succ fuel =>
    simp only [parseValue, hskip, if_true] at h
    split at h
    · simp at h
    · split at h
      · simp only [Option.some.injEq, Prod.mk.injEq] at h
        exact ⟨[], h.1.symm⟩
      · simp only [Option.map_eq_some', Prod.mk.injEq] at h
        obtain ⟨p, _, hp, _⟩ := h
        exact ⟨p.1, hp.symm⟩

theorem jsonParse_obj_of_brace (text : String) (v : Json)
    (hb : startsWithBrace text = true) (h : jsonParse text = some v) : ∃ ms, v = .obj ms := by
  unfold jsonParse at h
  simp only [String.toList] at h hb ⊢
  cases hp : parseValue (2 * text.length + 2) text.data with
  | none => simp [hp] at h
  | some p =>
    obtain ⟨w, r⟩ := p
    simp only [hp] at h
    split at h
    · have hv : w = v := Option.some.inj h
      subst hv
      simp only [startsWithBrace, decide_eq_true_eq, String.toList] at hb
      rcases skipWs_of_brace _ hb with ⟨rest, hs⟩ | ⟨c, rest, hs, hsp⟩
      · exact parseValue_of_brace _ _ _ _ _ hs hp
      · rw [parseValue_of_space _ _ c rest hs hsp] at hp
        simp at hp
    · simp at h

theorem splitPipeFrom_no_pipe (a : List Char) (ha : '|' ∉ a) :
    ∀ field : List Char, splitPipeFrom field a = [String.mk (field.reverse ++ a)] := by
  induction a with
  | nil => intro field; simp [splitPipeFrom]
  | cons c t ih =>
    intro field
    have hc : c ≠ '|' := fun e => ha (e ▸ List.mem_cons_self _ _)
    have ht : '|' ∉ t := fun h => ha (List.mem_cons_of_mem _ h)
    simp [splitPipeFrom, hc, ih ht]

theorem splitPipeFrom_pipe (a rest : List Char) (ha : '|' ∉ a) :
    ∀ field : List Char,
      splitPipeFrom field (a ++ '|' :: rest)
        = String.mk (field.reverse ++ a) :: splitPipeFrom [] rest := by
  induction a with
  | nil => intro field; simp [splitPipeFrom]
  | cons c t ih =>
    intro field
    have hc : c ≠ '|' := fun e => ha (e ▸ List.mem_cons_self _ _)
    have ht : '|' ∉ t := fun h => ha (List.mem_cons_of_mem _ h)
    simp [splitPipeFrom, hc, ih ht]

theorem splitPipe_legacyText (owner folderId receiptId : String)
    (ho : '|' ∉ owner.toList) (hf : '|' ∉ folderId.toList) (hr : '|' ∉ receiptId.toList) :
    splitPipe (legacyText owner folderId (some receiptId)) = [owner, folderId, receiptId] := by
  have htext : (legacyText owner folderId (some receiptId)).toList
      = owner.toList ++ '|' :: (folderId.toList ++ '|' :: receiptId.toList) := by
    simp [legacyText, String.toList, String.data_append]
  unfold splitPipe
  rw [htext, splitPipeFrom_pipe _ _ ho, splitPipeFrom_pipe _ _ hf,
    splitPipeFrom_no_pipe _ hr]
  simp [String.toList]

theorem decodeShareData_of_text (token decoded : String) (h : atob token = some decoded) :
    decodeShareData token = decodeText decoded := by
  simp only [decodeShareData, h]

theorem decodeText_of_not_parsed (decoded : String)
    (h : (if decoded ≠ "" ∧ startsWithBrace decoded = true then jsonParse decoded else none)
      = none) :
    decodeText decoded = legacyFields decoded := by
  simp only [decodeText, h]

theorem decodeText_of_parsed (decoded : String) (value : Json)
    (h : (if decoded ≠ "" ∧ startsWithBrace decoded = true then jsonParse decoded else none)
      = some value) :
    decodeText decoded = some (.structured value) := by
  simp only [decodeText, h]

/-! ## The fuel of the JSON parser -/

theorem skipWs_length (cs : List Char) : (skipWs cs).length ≤ cs.length := by
  induction cs with
  | nil => simp [skipWs]
  | cons c t ih =>
    simp only [skipWs]
    split
    · simp only [List.length_cons]; omega
    · simp

theorem parseStringBody_length (cs acc : List Char) :
    ∀ (s rest : List Char), parseStringBody cs acc = some (s, rest) →
      rest.length < cs.length := by
  induction cs, acc using parseStringBody.induct <;> intro s rest h <;>
    simp_all [parseStringBody]
  all_goals omega

theorem length_dropWhile_le (p : Char → Bool) (l : List Char) :
    (l.dropWhile p).length ≤ l.length := by
  have h := congrArg List.length (List.takeWhile_append_dropWhile p l)
  simp only [List.length_append] at h
  omega

theorem length_dropWhile_lt (p : Char → Bool) (l : List Char) (h : l.takeWhile p ≠ []) :
    (l.dropWhile p).length < l.length := by
  have h1 := congrArg List.length (List.takeWhile_append_dropWhile p l)
  simp only [List.length_append] at h1
  have h2 : 0 < (l.takeWhile p).length := List.length_pos.mpr h
  omega

theorem parseFraction_length (cs ds rest : List Char)
    (h : parseFraction cs = some (ds, rest)) : rest.length ≤ cs.length := by
  unfold parseFraction at h
  split at h
  · rename_i t
    split at h
    · simp at h
    · simp only [Option.some.injEq, Prod.mk.injEq] at h
      rw [← h.2]
      have := length_dropWhile_le isDigitChar t
      simp only [List.length_cons]
      omega
  · simp only [Option.some.injEq, Prod.mk.injEq] at h
    rw [← h.2]

theorem parseExponent_length (cs : List Char) (e : Int) (rest : List Char)
    (h : parseExponent cs = some (e, rest)) : rest.length ≤ cs.length := by
  cases cs with
  | nil =>
    simp only [parseExponent, Option.some.injEq, Prod.mk.injEq] at h
    rw [← h.2]
  | cons c t =>
    by_cases hc : c = 'e' ∨ c = 'E'
    · simp only [parseExponent, hc, if_true] at h
      generalize hr1 : (if t.head? = some '-' ∨ t.head? = some '+' then t.tail else t) = rest1
        at h
      have h2 : rest1.length ≤ t.length := by
        rw [← hr1]
        split
        · simp
        · exact le_refl _
      by_cases ht : List.takeWhile isDigitChar rest1 = []
      · simp [ht] at h
      · simp only [ht, if_false, Option.some.injEq, Prod.mk.injEq] at h
        rw [← h.2]
        have h1 := length_dropWhile_le isDigitChar rest1
        simp only [List.length_cons]
        omega
    · simp only [parseExponent, hc, if_false, Option.some.injEq, Prod.mk.injEq] at h
      rw [← h.2]

theorem parseNumber_length (cs : List Char) (q : ℚ) (rest : List Char)
    (h : parseNumber cs = some (q, rest)) : rest.length < cs.length := by
  unfold parseNumber at h
  simp only at h
  generalize hc1 : (if decide (cs.head? = some '-') = true then cs.tail else cs) = cs1 at h
  have h2 : cs1.length ≤ cs.length := by
    rw [← hc1]
    split
    · simp
    · exact le_refl _
  by_cases hint : List.takeWhile isDigitChar cs1 = [] ∨
      ((List.takeWhile isDigitChar cs1).length > 1 ∧
        (List.takeWhile isDigitChar cs1).head? = some '0')
  · rw [if_pos hint] at h
    simp at h
  · rw [if_neg hint] at h
    have hne : List.takeWhile isDigitChar cs1 ≠ [] := fun e => hint (Or.inl e)
    have h1 := length_dropWhile_lt isDigitChar _ hne
    cases hf : parseFraction (List.dropWhile isDigitChar cs1) with
    | none => simp [hf] at h
    | some p =>
      obtain ⟨fd, cs3⟩ := p
      have h3 := parseFraction_length _ _ _ hf
      simp only [hf] at h
      cases he : parseExponent cs3 with
      | none => simp [he] at h
      | some p2 =>
        obtain ⟨ex, cs4⟩ := p2
        have h4 := parseExponent_length _ _ _ he
        simp only [he, Option.some.injEq, Prod.mk.injEq] at h
        rw [← h.2]
        omega

theorem parseValue_scalar (n m : Nat) (cs : List Char) (c : Char) (rest0 : List Char)
    (hs : skipWs cs = c :: rest0) (h1 : c ≠ '{') (h2 : c ≠ '[') :
    parseValue (n + 1) cs = parseValue (m + 1) cs := by
  simp only [parseValue, hs, h1, h2, if_false]

theorem parseValue_scalar_length (n : Nat) (cs : List Char) (c : Char) (rest0 : List Char)
    (hs : skipWs cs = c :: rest0) (h1 : c ≠ '{') (h2 : c ≠ '[') (v : Json) (rest : List Char)
    (h : parseValue (n + 1) cs = some (v, rest)) : rest.length < cs.length := by
  have hlen := skipWs_length cs
  rw [hs] at hlen
  simp only [List.length_cons] at hlen
  simp only [parseValue, hs, h1, h2, if_false] at h
  split at h
  · simp only [Option.map_eq_some', Prod.mk.injEq] at h
    obtain ⟨p, hp, _, hrest⟩ := h
    have := parseStringBody_length _ _ _ _ (show parseStringBody rest0 [] = some (p.1, p.2) from hp)
    rw [← hrest]
    omega
  · split at h
    · split at h
      · simp only [Option.some.injEq, Prod.mk.injEq] at h
        rw [← h.2]
        simp only [List.length_cons] at hlen
        omega
      · simp at h
    · split at h
      · split at h
        · simp only [Option.some.injEq, Prod.mk.injEq] at h
          rw [← h.2]
          simp only [List.length_cons] at hlen
          omega
        · simp at h
      · split at h
        · split at h
          · simp only [Option.some.injEq, Prod.mk.injEq] at h
            rw [← h.2]
            simp only [List.length_cons] at hlen
            omega
          · simp at h
        · simp only [Option.map_eq_some', Prod.mk.injEq] at h
          obtain ⟨p, hp, _, hrest⟩ := h
          have := parseNumber_length _ _ _ (show parseNumber (c :: rest0) = some (p.1, p.2) from hp)
          rw [← hrest]
          simp only [List.length_cons] at this
          omega

/-- What fuel `n` parses is parsed by every fuel of at least twice the
number of characters consumed, and at least one character is consumed. -/
theorem parse_fuel (n : Nat) :
    (∀ cs v rest, parseValue n cs = some (v, rest) →
      rest.length < cs.length ∧
      ∀ m, 2 * (cs.length - rest.length) ≤ m + 1 → parseValue m cs = some (v, rest)) ∧
    (∀ cs vs rest, parseElems n cs = some (vs, rest) →
      rest.length < cs.length ∧
      ∀ m, 2 * (cs.length - rest.length) ≤ m → parseElems m cs = some (vs, rest)) ∧
    (∀ cs ms rest, parseMembers n cs = some (ms, rest) →
      rest.length < cs.length ∧
      ∀ m, 2 * (cs.length - rest.length) ≤ m → parseMembers m cs = some (ms, rest)) := by
  induction n with
  | zero =>
    refine ⟨?_, ?_, ?_⟩ <;> intro cs v rest h <;> simp [parseValue, parseElems, parseMembers] at h
  | succ n ih =>
    obtain ⟨ihV, ihE, ihM⟩ := ih
    refine ⟨?_, ?_, ?_⟩
    · intro cs v rest h
      cases hs : skipWs cs with
      | nil => simp [parseValue, hs] at h
      | cons c rest0 =>
        have hlen := skipWs_length cs
        rw [hs] at hlen
        simp only [List.length_cons] at hlen
        by_cases h1 : c = '{'
        · simp only [parseValue, hs, h1, if_true] at h
          cases hs2 : skipWs rest0 with
          | nil => simp [hs2] at h
          | cons d rest1 =>
            have hlen2 := skipWs_length rest0
            rw [hs2] at hlen2
            simp only [List.length_cons] at hlen2
            simp only [hs2] at h
            by_cases hd : d = '}'
            · simp only [hd, if_true, Option.some.injEq, Prod.mk.injEq] at h
              obtain ⟨hv, hrest⟩ := h
              subst hrest
              refine ⟨by omega, ?_⟩
              intro m hm
              cases m with
              | zero => omega
              | succ m => simp only [parseValue, hs, h1, if_true, hs2, hd, hv]
            · simp only [hd, if_false, Option.map_eq_some', Prod.mk.injEq] at h
              obtain ⟨p, hp, hv, hrest⟩ := h
              obtain ⟨hl, hall⟩ := ihM _ _ _ (show parseMembers n (d :: rest1) = some (p.1, p.2)
                from hp)
              rw [hrest] at hl hall
              simp only [List.length_cons] at hl hall
              refine ⟨by omega, ?_⟩
              intro m hm
              cases m with
              | zero => omega
              | succ m =>
                simp only [parseValue, hs, h1, if_true, hs2, hd, if_false]
                rw [hall m (by omega)]
                simp [hv, ← hrest]
        · by_cases h2 : c = '['
          · have h1' : ¬ ('[' : Char) = '{' := by decide
            simp only [parseValue, hs, h2, h1', if_false, if_true] at h
            cases hs2 : skipWs rest0 with
            | nil => simp [hs2] at h
            | cons d rest1 =>
              have hlen2 := skipWs_length rest0
              rw [hs2] at hlen2
              simp only [List.length_cons] at hlen2
              simp only [hs2] at h
              by_cases hd : d = ']'
              · simp only [hd, if_true, Option.some.injEq, Prod.mk.injEq] at h
                obtain ⟨hv, hrest⟩ := h
                subst hrest
                refine ⟨by omega, ?_⟩
                intro m hm
                cases m with
                | zero => omega
                | succ m => simp only [parseValue, hs, h2, h1', if_false, if_true, hs2, hd, hv]
              · simp only [hd, if_false, Option.map_eq_some', Prod.mk.injEq] at h
                obtain ⟨p, hp, hv, hrest⟩ := h
                obtain ⟨hl, hall⟩ := ihE _ _ _ (show parseElems n (d :: rest1) = some (p.1, p.2)
                  from hp)
                rw [hrest] at hl hall
                simp only [List.length_cons] at hl hall
                refine ⟨by omega, ?_⟩
                intro m hm
                cases m with
                | zero => omega
                | succ m =>
                  simp only [parseValue, hs, h2, h1', if_false, if_true, hs2, hd]
                  rw [hall m (by omega)]
                  simp [hv, ← hrest]
          · have hl := parseValue_scalar_length n cs c rest0 hs h1 h2 v rest h
            refine ⟨hl, ?_⟩
            intro m hm
            cases m with
            | zero => omega
            | succ m => rw [← parseValue_scalar n m cs c rest0 hs h1 h2]; exact h
    · intro cs vs rest h
      simp only [parseElems] at h
      cases hv : parseValue n cs with
      | none => simp [hv] at h
      | some p =>
        obtain ⟨v, rest0⟩ := p
        obtain ⟨hl, hall⟩ := ihV _ _ _ hv
        simp only [hv] at h
        cases hs : skipWs rest0 with
        | nil => simp [hs] at h
        | cons d rest1 =>
          have hlen := skipWs_length rest0
          rw [hs] at hlen
          simp only [List.length_cons] at hlen
          simp only [hs] at h
          by_cases hd : d = ','
          · simp only [hd, if_true, Option.map_eq_some', Prod.mk.injEq] at h
            obtain ⟨p, hp, hvs, hrest⟩ := h
            obtain ⟨hl2, hall2⟩ := ihE _ _ _ (show parseElems n rest1 = some (p.1, p.2) from hp)
            rw [hrest] at hl2 hall2
            refine ⟨by omega, ?_⟩
            intro m hm
            cases m with
            | zero => omega
            | succ m =>
              simp only [parseElems]
              rw [hall m (by omega)]
              simp only [hs, hd, if_true]
              rw [hall2 m (by omega)]
              simp [hvs, ← hrest]
          · by_cases hd2 : d = ']'
            · subst hd2
              have hne : ¬ (']' : Char) = ',' := by decide
              simp only [hne, if_false, if_true, Option.some.injEq, Prod.mk.injEq] at h
              obtain ⟨hvs, hrest⟩ := h
              subst hrest
              refine ⟨by omega, ?_⟩
              intro m hm
              cases m with
              | zero => omega
              | succ m =>
                simp only [parseElems]
                rw [hall m (by omega)]
                simp only [hs, hne, if_false, if_true, hvs]
            · simp [hd, hd2] at h
    · intro cs ms rest h
      simp only [parseMembers] at h
      cases hs0 : skipWs cs with
      | nil => simp [hs0] at h
      | cons q rest0 =>
        have hlen0 := skipWs_length cs
        rw [hs0] at hlen0
        simp only [List.length_cons] at hlen0
        simp only [hs0] at h
        by_cases hq : q = '"'
        · simp only [hq, if_true] at h
          cases hk : parseStringBody rest0 [] with
          | none => simp [hk] at h
          | some pk =>
            obtain ⟨key, rest1⟩ := pk
            have hlk := parseStringBody_length _ _ _ _ hk
            simp only [hk] at h
            cases hs1 : skipWs rest1 with
            | nil => simp [hs1] at h
            | cons colon rest2 =>
              have hlen1 := skipWs_length rest1
              rw [hs1] at hlen1
              simp only [List.length_cons] at hlen1
              simp only [hs1] at h
              by_cases hc : colon = ':'
              · simp only [hc, if_true] at h
                cases hv : parseValue n rest2 with
                | none => simp [hv] at h
                | some p =>
                  obtain ⟨v, rest3⟩ := p
                  obtain ⟨hl, hall⟩ := ihV _ _ _ hv
                  simp only [hv] at h
                  cases hs : skipWs rest3 with
                  | nil => simp [hs] at h
                  | cons d rest4 =>
                    have hlen := skipWs_length rest3
                    rw [hs] at hlen
                    simp only [List.length_cons] at hlen
                    simp only [hs] at h
                    by_cases hd : d = ','
                    · simp only [hd, if_true, Option.map_eq_some', Prod.mk.injEq] at h
                      obtain ⟨p, hp, hms, hrest⟩ := h
                      obtain ⟨hl2, hall2⟩ := ihM _ _ _
                        (show parseMembers n rest4 = some (p.1, p.2) from hp)
                      rw [hrest] at hl2 hall2
                      refine ⟨by omega, ?_⟩
                      intro m hm
                      cases m with
                      | zero => omega
                      | succ m =>
                        simp only [parseMembers, hs0, hq, if_true, hk, hs1, hc]
                        rw [hall m (by omega)]
                        simp only [hs, hd, if_true]
                        rw [hall2 m (by omega)]
                        simp [hms, ← hrest]
                    · by_cases hd2 : d = '}'
                      · subst hd2
                        have hne : ¬ ('}' : Char) = ',' := by decide
                        simp only [hne, if_false, if_true, Option.some.injEq,
                          Prod.mk.injEq] at h
                        obtain ⟨hms, hrest⟩ := h
                        subst hrest
                        refine ⟨by omega, ?_⟩
                        intro m hm
                        cases m with
                        | zero => omega
                        | succ m =>
                          simp only [parseMembers, hs0, hq, if_true, hk, hs1, hc]
                          rw [hall m (by omega)]
                          simp only [hs, hne, if_false, if_true, hms]
                      · simp [hd, hd2] at h
              · simp [hc] at h
        · simp [hq] at h

theorem parseValue_fuel (text : String) (n : Nat) (v : Json) (rest : List Char)
    (h : parseValue n text.toList = some (v, rest)) :
    parseValue (2 * text.length + 2) text.toList = some (v, rest) := by
  obtain ⟨_, hall⟩ := (parse_fuel n).1 _ _ _ h
  apply hall
  have : text.toList.length = text.length := rfl
  omega

theorem jsonParse_of_parseValue (text : String) (n : Nat) (v : Json) (rest : List Char)
    (h : parseValue n text.toList = some (v, rest)) (hrest : skipWs rest = []) :
    jsonParse text = some v := by
  simp only [jsonParse, parseValue_fuel text n v rest h, hrest, if_true]

/-! ## Base64: decoding what `btoa` encodes -/

theorem b64Char_spec : ∀ n, n < 64 →
    b64Value (b64Char n) = some n ∧ isAsciiWs (b64Char n) = false ∧ b64Char n ≠ '=' := by
  decide


theorem b64Chars_eq (bytes : List Nat) :
    b64Chars bytes = (sextets bytes).map b64Char ++ padding bytes := by
  induction bytes using sextets.induct with
  | case1 a b c rest ih => simp [b64Chars, sextets, padding, ih]
  | case2 a b => simp [b64Chars, sextets, padding]
  | case3 a => simp [b64Chars, sextets, padding]
  | case4 => simp [b64Chars, sextets, padding]

theorem sextets_lt (bytes : List Nat) (h : ∀ b ∈ bytes, b < 256) :
    ∀ s ∈ sextets bytes, s < 64 := by
  induction bytes using sextets.induct with
  | case1 a b c rest ih =>
    have ha := h a (by simp)
    have hb := h b (by simp)
    have hc := h c (by simp)
    have ih' := ih (fun x hx => h x (by simp [hx]))
    intro s hs
    simp only [sextets, List.mem_cons] at hs
    rcases hs with hs | hs | hs | hs | hs
    · omega
    · omega
    · omega
    · omega
    · exact ih' s hs
  | case2 a b =>
    have ha := h a (by simp)
    have hb := h b (by simp)
    intro s hs
    simp only [sextets, List.mem_cons, List.mem_singleton, List.not_mem_nil, or_false] at hs
    rcases hs with hs | hs | hs <;> omega
  | case3 a =>
    have ha := h a (by simp)
    intro s hs
    simp only [sextets, List.mem_cons, List.mem_singleton, List.not_mem_nil, or_false] at hs
    rcases hs with hs | hs <;> omega
  | case4 => simp [sextets]

theorem sextets_length (bytes : List Nat) : (sextets bytes).length % 4 ≠ 1 := by
  induction bytes using sextets.induct with
  | case1 a b c rest ih =>
    simp only [sextets, List.length_cons]
    omega
  | case2 a b => simp [sextets]
  | case3 a => simp [sextets]
  | case4 => simp [sextets]

theorem length_sextets_padding (bytes : List Nat) :
    ((sextets bytes).length + (padding bytes).length) % 4 = 0 := by
  induction bytes using sextets.induct with
  | case1 a b c rest ih =>
    simp only [sextets, padding, List.length_cons]
    omega
  | case2 a b => simp [sextets, padding]
  | case3 a => simp [sextets, padding]
  | case4 => simp [sextets, padding]

theorem padding_cases (bytes : List Nat) :
    padding bytes = [] ∨ padding bytes = ['='] ∨ padding bytes = ['=', '='] := by
  induction bytes using sextets.induct with
  | case1 a b c rest ih => simpa [padding] using ih
  | case2 a b => simp [padding]
  | case3 a => simp [padding]
  | case4 => simp [padding]

theorem b64Bytes_sextets (bytes : List Nat) (h : ∀ b ∈ bytes, b < 256) :
    b64Bytes (sextets bytes) = bytes := by
  induction bytes using sextets.induct with
  | case1 a b c rest ih =>
    have ha := h a (by simp)
    have hb := h b (by simp)
    have hc := h c (by simp)
    have ih' := ih (fun x hx => h x (by simp [hx]))
    simp only [sextets, b64Bytes, ih', List.cons.injEq, and_true]
    refine ⟨by omega, by omega, by omega⟩
  | case2 a b =>
    have ha := h a (by simp)
    have hb := h b (by simp)
    simp only [sextets, b64Bytes, List.cons.injEq, and_true]
    refine ⟨by omega, by omega⟩
  | case3 a =>
    have ha := h a (by simp)
    simp only [sextets, b64Bytes, List.cons.injEq, and_true]
    omega
  | case4 => simp [sextets, b64Bytes]

theorem mapM_b64Value (ss : List Nat) (h : ∀ s ∈ ss, s < 64) :
    (ss.map b64Char).mapM b64Value = some ss := by
  induction ss with
  | nil => rfl
  | cons s rest ih =>
    have hs := (b64Char_spec s (h s (by simp))).1
    have ih' := ih (fun x hx => h x (by simp [hx]))
    rw [List.map_cons, List.mapM_cons, hs, ih']
    rfl

theorem filter_b64 (ss : List Nat) (h : ∀ s ∈ ss, s < 64) (pad : List Char)
    (hpad : ∀ c ∈ pad, c = '=') :
    (ss.map b64Char ++ pad).filter (fun c => !isAsciiWs c) = ss.map b64Char ++ pad := by
  rw [List.filter_eq_self]
  intro c hc
  rcases List.mem_append.mp hc with hc | hc
  · obtain ⟨s, hs, rfl⟩ := List.mem_map.mp hc
    simp [(b64Char_spec s (h s hs)).2.1]
  · rw [hpad c hc]
    decide

theorem stripPadding_b64 (ss : List Nat) (h : ∀ s ∈ ss, s < 64) (pad : List Char)
    (hpad : pad = [] ∨ pad = ['='] ∨ pad = ['=', '='])
    (hlen : (ss.length + pad.length) % 4 = 0) :
    stripPadding (ss.map b64Char ++ pad) = ss.map b64Char := by
  have hhead : ∀ rest, (ss.map b64Char).reverse ≠ '=' :: rest := by
    intro rest e
    have hmem : '=' ∈ (ss.map b64Char).reverse := by rw [e]; simp
    rw [List.mem_reverse] at hmem
    obtain ⟨s, hs, hse⟩ := List.mem_map.mp hmem
    exact (b64Char_spec s (h s hs)).2.2 hse
  unfold stripPadding
  have hl : (ss.map b64Char ++ pad).length % 4 = 0 := by simpa using hlen
  rw [if_pos hl]
  rcases hpad with hp | hp | hp
  · subst hp
    simp only [List.append_nil]
    cases hr : (ss.map b64Char).reverse with
    | nil => rfl
    | cons c t =>
      have hc : c ≠ '=' := fun e => hhead t (e ▸ hr)
      simp [hc]
  · subst hp
    simp only [List.reverse_append, List.reverse_cons, List.reverse_nil, List.nil_append,
      List.singleton_append]
    cases hr : (ss.map b64Char).reverse with
    | nil =>
      have : ss.map b64Char = [] := by simpa using hr
      simp [this]
    | cons c t =>
      have hc : c ≠ '=' := fun e => hhead t (e ▸ hr)
      have : (c :: t).reverse = ss.map b64Char := by rw [← hr]; simp
      simp [hc, this]
  · subst hp
    simp only [List.reverse_append, List.reverse_cons, List.reverse_nil, List.nil_append,
      List.singleton_append, List.cons_append]
    have : (ss.map b64Char).reverse.reverse = ss.map b64Char := List.reverse_reverse _
    simp [this]

theorem atob_btoa (text token : String) (h : btoa text = some token) :
    atob token = some text := by
  unfold btoa at h
  simp only [String.toList] at h
  split at h
  · rename_i hall
    have htok : token = String.mk (b64Chars (text.data.map Char.toNat)) :=
      (Option.some.inj h).symm
    have hbytes : ∀ b ∈ text.data.map Char.toNat, b < 256 := by
      intro b hb
      obtain ⟨c, hc, rfl⟩ := List.mem_map.mp hb
      have := List.all_eq_true.mp hall c hc
      simpa using this
    have hss := sextets_lt _ hbytes
    have hpadc : ∀ c ∈ padding (text.data.map Char.toNat), c = '=' := by
      intro c hc
      rcases padding_cases (text.data.map Char.toNat) with hp | hp | hp
      · rw [hp] at hc
        simp at hc
      · rw [hp] at hc
        simpa using hc
      · rw [hp] at hc
        simpa using hc
    subst htok
    unfold atob
    simp only [String.toList, b64Chars_eq]
    rw [filter_b64 _ hss _ hpadc,
      stripPadding_b64 _ hss _ (padding_cases _) (length_sextets_padding _)]
    simp only [List.length_map]
    rw [if_neg (sextets_length _), mapM_b64Value _ hss]
    simp only [b64Bytes_sextets _ hbytes, List.map_map]
    have : (Char.ofNat ∘ Char.toNat) = id := by
      funext c
      simp [Char.ofNat_toNat]
    simp [this]
  · simp at h

/-! ## The claims -/

/-- C1 (the code at the scenario): with participants `[A, B]`, payer `A` and
one item of base value 10 assigned to both, the handler computes the net
balances `[0, -5]` (not `[+5, -5]`): the payer is debited their own share of 5
and then credited only `10 - 5`.  The debt matrix holds `B` owes `A` 5, and
`settleDebts` on `[0, -5]` returns no transfer. -/
theorem C1_shared_item_scenario :
    computeSettlement scenarioShared = some ⟨[5, 5], [0, -5], [[0, 0], [5, 0]]⟩ ∧
      settleDebts [0, -5] = [] ∧
      settleDebts [5, -5] = [⟨1, 0, 5⟩] := by
  decide!

/-- C2 (counterexample): with the excluded participant `C` as payer of an item
shared by the active participants `A` and `B`, the net balances are
`[-5, -5]` and their sum is `-10`. -/
theorem C2_sum_not_zero :
    ∃ s, computeSettlement scenarioExcludedPayer = some s ∧ s.debts = [-5, -5] ∧
      ¬ |s.debts.sum| < 1 / 100 :=
  ⟨⟨[5, 5], [-5, -5], [[0, 0], [0, 0]]⟩, by decide!, rfl, by decide!⟩

/-- C2 (amended): when no receipt raises and every receipt paid by an active
participant holds no share of that payer, the computation returns net
balances whose sum is minus the total consumption of the receipts without an
active payer; it is exactly zero when every receipt has an active payer. -/
theorem C2_sum_of_balances (folder : Folder)
    (hvalid : ∀ r ∈ folder.receipts, validPayer folder.people r = true)
    (hown : ∀ r ∈ folder.receipts, ∀ p,
      payerAi folder.people (activeIndices folder.people) r = some p →
        (receiptSums folder.people (activeIndices folder.people) r).getD p 0 = 0) :
    ∃ s, computeSettlement folder = some s ∧
      s.debts.sum
        = - ((folder.receipts.filter (fun r =>
              decide (payerAi folder.people (activeIndices folder.people) r = none))).map
            (fun r => (receiptSums folder.people (activeIndices folder.people) r).sum)).sum ∧
      ((∀ r ∈ folder.receipts,
          payerAi folder.people (activeIndices folder.people) r ≠ none) → s.debts.sum = 0) := by
  have hall : folder.receipts.all (validPayer folder.people) = true :=
    List.all_eq_true.mpr hvalid
  refine ⟨_, by rw [computeSettlement_eq, if_pos hall], ?_, ?_⟩
  · rw [foldl_stepResult_sum_debts _ _ _ _ (initial_WF _), sum_map_sumDelta _ _ _ hown]
    simp [initial]
  · intro hact
    rw [foldl_stepResult_sum_debts _ _ _ _ (initial_WF _), sum_map_sumDelta _ _ _ hown]
    have : folder.receipts.filter (fun r =>
        decide (payerAi folder.people (activeIndices folder.people) r = none)) = [] := by
      rw [List.filter_eq_nil_iff]
      intro r hr
      simpa using hact r hr
    simp [this, initial]

/-- C2 (witness): `A` paid an item consumed only by `B`. -/
theorem C2_sum_of_balances_witness :
    ∃ s, computeSettlement scenarioPaidForOther = some s ∧
      s.debts.sum
        = - ((scenarioPaidForOther.receipts.filter (fun r =>
              decide (payerAi scenarioPaidForOther.people
                (activeIndices scenarioPaidForOther.people) r = none))).map
            (fun r => (receiptSums scenarioPaidForOther.people
                (activeIndices scenarioPaidForOther.people) r).sum)).sum ∧
      ((∀ r ∈ scenarioPaidForOther.receipts,
          payerAi scenarioPaidForOther.people
            (activeIndices scenarioPaidForOther.people) r ≠ none) → s.debts.sum = 0) :=
  C2_sum_of_balances scenarioPaidForOther (by decide!) (by decide!)

/-- C3 (counterexample): on the unbalanced vector `[10, -3]` the only transfer
moves 3 and participant 0 keeps a balance of 7; on the balanced vector
`[0.018, -0.006, -0.006, -0.006]` three transfers of 0.01 are returned and
participant 0 ends at `-0.012`. -/
theorem C3_replay_not_settled :
    settleDebts [10, -3] = [⟨1, 0, 3⟩] ∧
      ¬ |(replay [10, -3] (settleDebts [10, -3])).getD 0 0| ≤ 1 / 100 ∧
      ([18 / 1000, -6 / 1000, -6 / 1000, -6 / 1000] : List ℚ).sum = 0 ∧
      settleDebts [18 / 1000, -6 / 1000, -6 / 1000, -6 / 1000]
        = [⟨1, 0, 1 / 100⟩, ⟨2, 0, 1 / 100⟩, ⟨3, 0, 1 / 100⟩] ∧
      ¬ |(replay [18 / 1000, -6 / 1000, -6 / 1000, -6 / 1000]
          (settleDebts [18 / 1000, -6 / 1000, -6 / 1000, -6 / 1000])).getD 0 0| ≤ 1 / 100 := by
  decide!

/-- C3 (amended): for a vector of net balances that are whole cents and sum
to zero, replaying the transfers of `settleDebts` leaves every participant
with a balance of exactly zero. -/
theorem C3_replay_settles (debts : List ℚ) (hcents : ∀ v ∈ debts, wholeCents v)
    (hsum : debts.sum = 0) :
    (replay debts (settleDebts debts)).length = debts.length ∧
      ∀ i, (replay debts (settleDebts debts)).getD i 0 = 0 := by
  refine ⟨length_replay _ _, ?_⟩
  intro i
  have hparts := sum_parts debts hcents
  have htot : totalVal (sortDesc (creditorsOf debts)) = totalVal (sortDesc (debtorsOf debts)) := by
    rw [totalVal_sortDesc, totalVal_sortDesc, creditorsOf_eq, debtorsOf_eq,
      totalVal_partiesFrom, totalVal_partiesFrom]
    linarith
  have hpc : PosCents (sortDesc (creditorsOf debts)) :=
    fun c hc => posCents_creditors debts hcents c ((mem_sortDesc _ _).mp hc)
  have hpd : PosCents (sortDesc (debtorsOf debts)) :=
    fun c hc => posCents_debtors debts hcents c ((mem_sortDesc _ _).mp hc)
  have hic : ∀ x ∈ sortDesc (creditorsOf debts), x.idx < debts.length := by
    intro x hx
    have := (mem_sortDesc _ _).mp hx
    rw [creditorsOf_eq] at this
    simpa using (mem_partiesFrom _ _ _ _ this).2
  have hid : ∀ x ∈ sortDesc (debtorsOf debts), x.idx < debts.length := by
    intro x hx
    have := (mem_sortDesc _ _).mp hx
    rw [debtorsOf_eq] at this
    simpa using (mem_partiesFrom _ _ _ _ this).2
  unfold settleDebts
  simp only []
  rw [replay_settleLoop _ _ _ _ (le_refl _) hpc hpd htot hic hid i, held_sortDesc,
    held_sortDesc, creditorsOf_eq, debtorsOf_eq]
  have h1 := held_partiesFrom creditPart debts 0 i
  have h2 := held_partiesFrom debitPart debts 0 i
  rw [Nat.zero_add] at h1 h2
  rw [h1, h2, List.getD_eq_getElem?_getD]
  cases hv : debts[i]? with
  | none => simp
  | some v =>
    have hmem : v ∈ debts := List.mem_iff_getElem?.mpr ⟨i, hv⟩
    have := cents_parts v (hcents v hmem)
    simp only [Option.getD_some, Option.some_bind]
    linarith

/-- C3 (witness): the balanced whole-cent vector `[5, -2, -3]`. -/
theorem C3_replay_settles_witness :
    (replay [5, -2, -3] (settleDebts [5, -2, -3])).length = ([5, -2, -3] : List ℚ).length ∧
      ∀ i, (replay [5, -2, -3] (settleDebts [5, -2, -3])).getD i 0 = 0 :=
  C3_replay_settles [5, -2, -3] (by decide!) (by decide!)

/-- C4 (counterexample): for the balances `[0, 0]` there is no creditor and no
debtor, so the bound is `-1`, while the number of transfers is 0. -/
theorem C4_bound_fails_without_parties :
    ¬ (((settleDebts [0, 0]).length : ℤ)
        ≤ (([0, 0] : List ℚ).countP (fun v => decide (v > 1 / 200)) : ℤ)
          + (([0, 0] : List ℚ).countP (fun v => decide (v < -(1 / 200))) : ℤ) - 1) := by
  decide!

/-- C4 (amended): the number of transfers is at most
`#creditors + #debtors - 1` when that number is not negative, and 0
otherwise; creditors are the balances above 0.005 and debtors those below
-0.005. -/
theorem C4_transfer_count (debts : List ℚ) :
    ((settleDebts debts).length : ℤ)
      ≤ max 0 ((debts.countP (fun v => decide (v > 1 / 200)) : ℤ)
          + (debts.countP (fun v => decide (v < -(1 / 200))) : ℤ) - 1) := by
  have h := settleLoop_length
    ((sortDesc (creditorsOf debts)).length + (sortDesc (debtorsOf debts)).length)
    (sortDesc (creditorsOf debts)) (sortDesc (debtorsOf debts))
  rw [length_sortDesc, length_sortDesc, creditorsOf_length, debtorsOf_length] at h
  unfold settleDebts
  simp only [length_sortDesc, creditorsOf_length, debtorsOf_length]
  omega

/-- C5: every transfer returned by `settleDebts` is the rounding to two
decimals of a payment of at least 0.005 (the remaining balances of the current
creditor and debtor are both at least 0.005), so its amount is at least 0.01
and strictly positive. -/
theorem C5_amount_positive (debts : List ℚ) (t : Transfer) (ht : t ∈ settleDebts debts) :
    (∃ pay : ℚ, 1 / 200 ≤ pay ∧ t.amount = round2 pay) ∧ 1 / 100 ≤ t.amount ∧ 0 < t.amount := by
  have hp := settleLoop_pay _ (sortDesc (creditorsOf debts)) (sortDesc (debtorsOf debts))
    (fun c hc => creditorsOf_val debts c ((mem_sortDesc _ _).mp hc))
    (fun d hd => debtorsOf_val debts d ((mem_sortDesc _ _).mp hd)) t ht
  obtain ⟨pay, hpay, heq⟩ := hp
  have h100 : 1 / 100 ≤ t.amount := by rw [heq]; exact round2_ge pay hpay
  exact ⟨⟨pay, hpay, heq⟩, h100, by linarith⟩

/-- C5 (witness): the transfer of 5 from participant 1 to participant 0 for
the balances `[5, -5]`. -/
theorem C5_amount_positive_witness :
    (∃ pay : ℚ, 1 / 200 ≤ pay ∧ (⟨1, 0, 5⟩ : Transfer).amount = round2 pay) ∧
      1 / 100 ≤ (⟨1, 0, 5⟩ : Transfer).amount ∧ 0 < (⟨1, 0, 5⟩ : Transfer).amount :=
  C5_amount_positive [5, -5] ⟨1, 0, 5⟩ (by decide!)

/-- C6: an item with no active assignee adds nothing: with or without it (at
any place of any receipt of any folder) the settlement computation gives the
same result, be it the accumulators or the raised error; and for participants
`[A, B]`, payer `A` and one unassigned item of value 10 the net balances are
`[0, 0]`, the debt matrix is zero, and `settleDebts` returns no transfer. -/
theorem C6_item_without_assignee (people : List Person) (rs1 rs2 : List Receipt) (r : Receipt)
    (i1 i2 : List Item) (item : Item)
    (h : selectedActive people (activeIndices people) item.assigned = []) :
    computeSettlement
        { people := people, receipts := rs1 ++ { r with items := i1 ++ item :: i2 } :: rs2 }
        = computeSettlement
            { people := people, receipts := rs1 ++ { r with items := i1 ++ i2 } :: rs2 } ∧
      computeSettlement scenarioUnassigned = some ⟨[0, 0], [0, 0], [[0, 0], [0, 0]]⟩ ∧
      settleDebts [0, 0] = [] := by
  refine ⟨?_, by decide!, by decide!⟩
  simp only [computeSettlement, List.foldlM_append, List.foldlM_cons]
  have hstep : ∀ st, receiptStep people (activeIndices people) st
        { r with items := i1 ++ item :: i2 }
      = receiptStep people (activeIndices people) st { r with items := i1 ++ i2 } :=
    fun st => receiptStep_congr people _ st _ _ rfl
      (receiptSums_of_no_assignee people _ r i1 i2 item h)
  simp only [hstep]

/-- C6 (witness): the unassigned item added to the receipt of the shared-item
scenario. -/
theorem C6_item_without_assignee_witness :
    computeSettlement
        { people := [personA, personB],
          receipts := [] ++ { ({ payer := some 0, items := [] } : Receipt) with
            items := [sharedItem] ++ unassignedItem :: [] } :: [] }
        = computeSettlement
            { people := [personA, personB],
              receipts := [] ++ { ({ payer := some 0, items := [] } : Receipt) with
                items := [sharedItem] ++ [] } :: [] } ∧
      computeSettlement scenarioUnassigned = some ⟨[0, 0], [0, 0], [[0, 0], [0, 0]]⟩ ∧
      settleDebts [0, 0] = [] :=
  C6_item_without_assignee [personA, personB] [] [] { payer := some 0, items := [] }
    [sharedItem] [] unassignedItem (by decide)

/-- C7: for an item whose base value is the number `b` and that has at least
one active assignee, the shares `b / count` of its assignees add up to `b`,
and the item raises the sum of the array `sums` by exactly `b`; hence the
total consumption `totalSpentBase` of a receipt is the sum of the numeric base
values of its items that have an active assignee (exact arithmetic). -/
theorem C7_shares_add_up (people : List Person) (r : Receipt) (item : Item) (b : ℚ)
    (sums : List ℚ)
    (hb : baseVal r.rate item = .num b)
    (hsel : selectedActive people (activeIndices people) item.assigned ≠ [])
    (hlen : sums.length = (activeIndices people).length) :
    ((selectedActive people (activeIndices people) item.assigned).map
        (fun _ => b / (selectedActive people (activeIndices people) item.assigned).length)).sum
        = b ∧
      (itemStep people (activeIndices people) r.rate sums item).sum = sums.sum + b ∧
      (receiptSums people (activeIndices people) r).foldl (· + ·) 0
        = ((r.items.filter (fun it =>
              decide (selectedActive people (activeIndices people) it.assigned ≠ []))).map
            (baseAmount r.rate)).sum := by
  have hpos : (selectedActive people (activeIndices people) item.assigned).length > 0 :=
    List.length_pos.mpr hsel
  have hne : ((selectedActive people (activeIndices people) item.assigned).length : ℚ) ≠ 0 := by
    exact_mod_cast (Nat.pos_iff_ne_zero.mp hpos)
  refine ⟨?_, ?_, ?_⟩
  · simp only [List.map_const', List.sum_replicate, nsmul_eq_mul]
    field_simp
  · rw [sum_itemStep _ _ _ _ _ hlen]
    simp [itemAmount, hb, hsel]
  · rw [foldl_add_eq_sum, sum_receiptSums]
    generalize r.items = items
    induction items with
    | nil => simp
    | cons it rest ih =>
      simp only [List.map_cons, List.sum_cons, ih, List.filter_cons]
      by_cases hs : selectedActive people (activeIndices people) it.assigned = []
      · cases hbv : baseVal r.rate it <;> simp [itemAmount, hbv, hs]
      · cases hbv : baseVal r.rate it <;> simp [itemAmount, baseAmount, hbv, hs]

/-- C7 (witness): the shared item of value 10 split between `A` and `B`. -/
theorem C7_shares_add_up_witness :
    ((selectedActive [personA, personB] (activeIndices [personA, personB])
          sharedItem.assigned).map
        (fun _ => (10 : ℚ) / (selectedActive [personA, personB]
          (activeIndices [personA, personB]) sharedItem.assigned).length)).sum = 10 ∧
      (itemStep [personA, personB] (activeIndices [personA, personB])
          ({ items := [sharedItem] } : Receipt).rate [0, 0] sharedItem).sum
        = ([0, 0] : List ℚ).sum + 10 ∧
      (receiptSums [personA, personB] (activeIndices [personA, personB])
          { items := [sharedItem] }).foldl (· + ·) 0
        = ((({ items := [sharedItem] } : Receipt).items.filter (fun it =>
              decide (selectedActive [personA, personB] (activeIndices [personA, personB])
                it.assigned ≠ []))).map
            (baseAmount ({ items := [sharedItem] } : Receipt).rate)).sum :=
  C7_shares_add_up [personA, personB] { items := [sharedItem] } sharedItem 10 [0, 0]
    (by decide) (by decide) (by decide)

/-- C8: the participants among which an item is split are exactly the indices
`idx` with `assigned[idx] == true` whose participant exists and is not
excluded: translated back to original indices, `selectedActive` is the list
`activeAssignees`, the divisor of the split is its length, and the exclusion
toggle leaves every receipt (hence every `assigned` mapping) as it was. -/
theorem C8_active_assignees (folder : Folder) (assigned : List (Nat × Bool)) (idx : Nat) :
    (selectedActive folder.people (activeIndices folder.people) assigned).map
        (fun ai => (activeIndices folder.people)[ai]?)
        = (activeAssignees folder.people assigned).map some ∧
      (selectedActive folder.people (activeIndices folder.people) assigned).length
        = (activeAssignees folder.people assigned).length ∧
      (toggleExcluded folder idx).receipts = folder.receipts := by
  have hmain : (selectedActive folder.people (activeIndices folder.people) assigned).map
        (fun ai => (activeIndices folder.people)[ai]?)
        = (activeAssignees folder.people assigned).map some := by
    rw [selectedActive_eq]
    unfold activeAssignees
    induction assigned with
    | nil => simp
    | cons e rest ih =>
      cases hact : (e.2 && isActive folder.people e.1) with
      | true =>
        obtain ⟨ai, h1, h2⟩ := selectOf_of_active folder.people e hact
        simp only [List.filterMap_cons, h1, List.map_cons, h2, List.filter_cons, hact, if_true, ih]
      | false =>
        have h1 := selectOf_of_not_active folder.people e hact
        simp only [List.filterMap_cons, h1, List.filter_cons, hact, Bool.false_eq_true,
          if_false, ih]
  refine ⟨hmain, ?_, rfl⟩
  have := congrArg List.length hmain
  simpa using this

/-- C9: the computation returns a result whenever no receipt raises, and in
every result the accumulators have the dimension of the active participants,
the diagonal of the debt matrix is 0, and for `a ≠ p` the cell `[a][p]` is
the sum of `sums[a]` (the consumption of `a`) over the receipts whose payer is
the active participant `p`; receipts without an active payer add nothing. -/
theorem C9_debt_matrix (folder : Folder) :
    ((∀ r ∈ folder.receipts, validPayer folder.people r = true) →
        (computeSettlement folder).isSome = true) ∧
      ∀ s, computeSettlement folder = some s →
        s.WF (activeIndices folder.people).length ∧
        ∀ a p : Nat,
          (s.oweMatrix.getD a []).getD p 0
            = if a = p then 0
              else ((folder.receipts.filter (fun r =>
                      decide (payerAi folder.people (activeIndices folder.people) r = some p))).map
                    (fun r => (receiptSums folder.people
                      (activeIndices folder.people) r).getD a 0)).sum := by
  constructor
  · intro hvalid
    rw [computeSettlement_eq, if_pos (List.all_eq_true.mpr hvalid)]
    rfl
  · intro s hs
    rw [computeSettlement_eq] at hs
    split at hs
    · cases hs
      refine ⟨foldl_stepResult_WF _ _ _ _ (initial_WF _), ?_⟩
      intro a p
      rw [foldl_stepResult_owe _ _ _ _ _ _ (initial_WF _), initial_owe, zero_add]
      by_cases hap : a = p
      · subst hap
        simp [sum_map_oweDelta_diag]
      · rw [if_neg hap, sum_map_oweDelta _ _ _ _ hap]
    · cases hs

/-- C10 (counterexample): the excluded participant at index 1 paid a refund
line of base value `-10` assigned to `A`; the net balance of `A` rises from 0
to 10. -/
theorem C10_balance_increased :
    ∃ st, receiptStep [personA, personC] (activeIndices [personA, personC]) (initial 1)
        refundReceipt = some st ∧
      st.debts = [10] ∧ (initial 1).debts.getD 0 0 < st.debts.getD 0 0 :=
  ⟨⟨[-10], [10], [[0]]⟩, by decide!, rfl, by decide!⟩

/-- C10 (amended): a receipt whose payer is an excluded participant changes
every net balance by exactly minus that participant's consumption `sums[i]`,
adds no credit to any balance and leaves the debt matrix as it was; when no
item of the receipt has a negative base value, no net balance is increased. -/
theorem C10_excluded_payer (people : List Person) (st : Settlement) (r : Receipt) (k : Int)
    (person : Person)
    (hk : r.payer = some k) (h0 : 0 ≤ k) (hp : people[k.toNat]? = some person)
    (hex : person.excluded = true) (hwf : st.WF (activeIndices people).length) :
    ∃ st', receiptStep people (activeIndices people) st r = some st' ∧
      st'.oweMatrix = st.oweMatrix ∧
      st'.debts.length = st.debts.length ∧
      (∀ i, st'.debts.getD i 0
        = st.debts.getD i 0 - (receiptSums people (activeIndices people) r).getD i 0) ∧
      ((∀ it ∈ r.items, ∀ b, baseVal r.rate it = .num b → 0 ≤ b) →
        ∀ i, st'.debts.getD i 0 ≤ st.debts.getD i 0) := by
  have hlen := length_receiptSums people (activeIndices people) r
  have hneg : ¬ k < 0 := by omega
  have hstep : receiptStep people (activeIndices people) st r
      = some ⟨List.zipWith (· + ·) st.totalOwe (receiptSums people (activeIndices people) r),
          List.zipWith (· - ·) st.debts (receiptSums people (activeIndices people) r),
          st.oweMatrix⟩ := by
    simp [receiptStep, hk, hneg, hp, hex]
  have hd : ∀ i, (List.zipWith (· - ·) st.debts
        (receiptSums people (activeIndices people) r)).getD i 0
      = st.debts.getD i 0 - (receiptSums people (activeIndices people) r).getD i 0 :=
    fun i => getD_zipWith_sub _ _ i (hwf.2.1.trans hlen.symm)
  refine ⟨_, hstep, rfl, ?_, hd, ?_⟩
  · simp [hwf.2.1, hlen]
  · intro hpos i
    have := getD_receiptSums_nonneg people (activeIndices people) r hpos i
    rw [hd i]
    linarith

/-- C10 (witness): the excluded participant `C` paid the shared item. -/
theorem C10_excluded_payer_witness :
    ∃ st', receiptStep [personA, personB, personC]
        (activeIndices [personA, personB, personC]) (initial 2)
        { payer := some 2, items := [sharedItem] } = some st' ∧
      st'.oweMatrix = (initial 2).oweMatrix ∧
      st'.debts.length = (initial 2).debts.length ∧
      (∀ i, st'.debts.getD i 0
        = (initial 2).debts.getD i 0 - (receiptSums [personA, personB, personC]
            (activeIndices [personA, personB, personC])
            { payer := some 2, items := [sharedItem] }).getD i 0) ∧
      ((∀ it ∈ ({ payer := some 2, items := [sharedItem] } : Receipt).items, ∀ b,
          baseVal ({ payer := some 2, items := [sharedItem] } : Receipt).rate it = .num b →
            0 ≤ b) →
        ∀ i, st'.debts.getD i 0 ≤ (initial 2).debts.getD i 0) :=
  C10_excluded_payer [personA, personB, personC] (initial 2)
    { payer := some 2, items := [sharedItem] } 2 personC rfl (by decide) rfl rfl
    (initial_WF 2)

/-- C11 (the code at the failing input): for the folder with one active
participant whose receipt holds the payer `-1`, the handler passes the input
validation and then raises at `folder.people[payerOrig].excluded`; it raises
for no folder whose numeric payers are indices of `folder.people`. -/
theorem C11_payer_none_raises :
    computeAll scenarioPayerNone = .raised ∧
      ∀ folder : Folder, (∀ r ∈ folder.receipts, validPayer folder.people r = true) →
        computeAll folder ≠ .raised := by
  refine ⟨by decide!, ?_⟩
  intro folder hvalid
  unfold computeAll
  rw [computeSettlement_eq, if_pos (List.all_eq_true.mpr hvalid)]
  split
  · simp
  · split <;> simp

/-- C12: retargeting to a different currency with conversion of the existing
items gives every item that has a numeric base value `b` and a non-zero
quantity `q` the unit price `b * newRate / q` and the total `b * newRate`,
leaves its other fields (the base value among them) as they were, and sets
the currency and the rate of the receipt to the new values; from EUR at rate 1
to USD at the table rate 1.1, an item with base value 10 and quantity 1 gets
unit price 11 and total 11 and keeps the base value 10. -/
theorem C12_retarget_rescale (receipt : Receipt) (newCurrency : String) (newRate : ℚ)
    (now i : Nat) (item : Item) (b q : ℚ)
    (hcur : oldCurrencyOf receipt ≠ newCurrency)
    (hitem : receipt.items[i]? = some item)
    (hb : item.totalBase = .num b) (hq : item.qty = .num q) (hq0 : q ≠ 0) :
    (changeReceiptCurrency receipt newCurrency newRate true now).currency = newCurrency ∧
      (changeReceiptCurrency receipt newCurrency newRate true now).rate = .num newRate ∧
      (changeReceiptCurrency receipt newCurrency newRate true now).items[i]?
        = some { item with unitPrice := .num (b * newRate / q), total := .num (b * newRate) } ∧
      getRate "USD" .failed = .num (11 / 10) ∧
      (changeReceiptCurrency eurReceipt "USD" (11 / 10) true 0).items
        = [{ baseItem with unitPrice := .num 11, total := .num 11, totalBase := .num 10 }] := by
  refine ⟨rfl, rfl, ?_, by decide!, by decide!⟩
  have hlen : receipt.items.length > 0 := by
    have := (List.getElem?_eq_some.mp hitem).1
    omega
  simp only [changeReceiptCurrency, hcur, ne_eq, not_false_eq_true, hlen, and_self, if_true,
    List.getElem?_map, hitem, Option.map_some', rescaleItem_of_base _ _ _ _ _ hb hq hq0]

/-- C12 (witness): the EUR receipt with `baseItem`, retargeted to USD at 1.1. -/
theorem C12_retarget_rescale_witness :
    (changeReceiptCurrency eurReceipt "USD" (11 / 10) true 7).currency = "USD" ∧
      (changeReceiptCurrency eurReceipt "USD" (11 / 10) true 7).rate = .num (11 / 10) ∧
      (changeReceiptCurrency eurReceipt "USD" (11 / 10) true 7).items[0]?
        = some { baseItem with
            unitPrice := .num (10 * (11 / 10) / 1), total := .num (10 * (11 / 10)) } ∧
      getRate "USD" .failed = .num (11 / 10) ∧
      (changeReceiptCurrency eurReceipt "USD" (11 / 10) true 0).items
        = [{ baseItem with unitPrice := .num 11, total := .num 11, totalBase := .num 10 }] :=
  C12_retarget_rescale eurReceipt "USD" (11 / 10) 7 0 baseItem 10 1 (by decide) rfl rfl rfl
    (by norm_num)

/-- C13 (the code at the failing input): a USD receipt at rate 1.1 holds an
item of quantity 0 with total 10 and base value 10; retargeting it to GBP
with conversion takes the third branch and overwrites the base value with
`total / oldRate = 100 / 11`.  The manual override leaves the base value of
the same item as it was.  The same happens from the editor alone: typing the
quantity 0 into an item of unit price 5 gives the base value 0; a retarget of
its EUR receipt to USD with conversion takes the second branch and sets the
unit price to `0 / 0`, and a second retarget to GBP with conversion computes
the base value from that unit price, so the base value 0 becomes `NaN`. -/
theorem C13_base_value_overwritten :
    ((changeReceiptCurrency usdReceiptZeroQty "GBP" (85 / 100) true 7).items.map
        Item.totalBase) = [.num (100 / 11)] ∧
      usdReceiptZeroQty.items.map Item.totalBase = [.num 10] ∧
      ((manualOverride usdReceiptZeroQty (.num (85 / 100)) none 7).items.map
        Item.totalBase) = [.num 10] ∧
      qtyInputHandler (.num 1) pricedItem (some 0) = pricedItemZeroQty ∧
      eurReceiptZeroQty.items.map Item.totalBase = [.num 0] ∧
      ((changeReceiptCurrency eurReceiptZeroQty "USD" (11 / 10) true 7).items.map
        Item.totalBase) = [.num 0] ∧
      ((changeReceiptCurrency eurReceiptZeroQty "USD" (11 / 10) true 7).items.map
        Item.unitPrice) = [.nan] ∧
      ((changeReceiptCurrency (changeReceiptCurrency eurReceiptZeroQty "USD" (11 / 10) true 7)
        "GBP" (85 / 100) true 8).items.map Item.totalBase) = [.nan] := by
  decide!

/-- C14 (counterexample): retargeting the EUR receipt to USD at rate 1.1
without conversion leaves the item as it was: quantity 1, unit price 10 and
base value 10, so `totalBase * rate = 11` and `unitPrice * qty = 10`. -/
theorem C14_not_in_sync_without_rescale :
    (changeReceiptCurrency eurReceipt "USD" (11 / 10) false 7).rate = .num (11 / 10) ∧
      (changeReceiptCurrency eurReceipt "USD" (11 / 10) false 7).items = [baseItem] ∧
      baseItem.qty = .num 1 ∧ baseItem.unitPrice = .num 10 ∧ baseItem.totalBase = .num 10 ∧
      ¬ |(10 : ℚ) * (11 / 10) - 10 * 1| ≤ 1 / 1000000000 := by
  decide!

/-- C14 (amended): after a retarget to a different currency with conversion
of the existing items, every item with a numeric unit price `u` and a
quantity `q > 0` has a numeric base value `b` with `b * rate = u * q`; after
an accepted manual override to the rate `r`, the same equation holds for
every item that has a numeric base value (exact arithmetic). -/
theorem C14_in_sync_after_rescale (receipt : Receipt) (newCurrency : String) (newRate r : ℚ)
    (reason : Option String) (now : Nat)
    (hcur : oldCurrencyOf receipt ≠ newCurrency) (hr : 0 < r) :
    (∀ item ∈ (changeReceiptCurrency receipt newCurrency newRate true now).items,
        ∀ u q : ℚ, item.unitPrice = .num u → item.qty = .num q → 0 < q →
          ∃ b, item.totalBase = .num b ∧ b * newRate = u * q) ∧
      (changeReceiptCurrency receipt newCurrency newRate true now).rate = .num newRate ∧
      (∀ item ∈ (manualOverride receipt (.num r) reason now).items,
        ∀ b u q : ℚ, item.totalBase = .num b → item.unitPrice = .num u → item.qty = .num q →
          0 < q → b * r = u * q) ∧
      (manualOverride receipt (.num r) reason now).rate = .num r := by
  refine ⟨?_, rfl, ?_, ?_⟩
  · intro item hitem u q hu hq hq0
    have hmem : item ∈ receipt.items.map (rescaleItem (oldRateOf receipt) newRate) := by
      simp only [changeReceiptCurrency] at hitem
      split at hitem
      · exact hitem
      · rename_i hcond
        have hlen : receipt.items.length > 0 := List.length_pos_of_mem hitem
        exact absurd ⟨hcur, hlen, trivial⟩ hcond
    obtain ⟨item0, _, rfl⟩ := List.mem_map.mp hmem
    exact rescaleItem_sync _ _ (oldRateOf_ne_zero receipt) item0 u q hu hq (ne_of_gt hq0)
  · intro item hitem b u q hb hu hq hq0
    have hnot : ¬ r ≤ 0 := not_le.mpr hr
    simp only [manualOverride, hnot, if_false] at hitem
    obtain ⟨item0, _, rfl⟩ := List.mem_map.mp hitem
    exact overrideItem_sync r item0 b u q hb hu hq (ne_of_gt hq0)
  · have hnot : ¬ r ≤ 0 := not_le.mpr hr
    simp only [manualOverride, hnot, if_false]

/-- C14 (witness): the EUR receipt with `baseItem`, retargeted to USD and
overridden to the rate 1.1. -/
theorem C14_in_sync_after_rescale_witness :
    (∀ item ∈ (changeReceiptCurrency eurReceipt "USD" (11 / 10) true 7).items,
        ∀ u q : ℚ, item.unitPrice = .num u → item.qty = .num q → 0 < q →
          ∃ b, item.totalBase = .num b ∧ b * (11 / 10) = u * q) ∧
      (changeReceiptCurrency eurReceipt "USD" (11 / 10) true 7).rate = .num (11 / 10) ∧
      (∀ item ∈ (manualOverride eurReceipt (.num (11 / 10)) none 7).items,
        ∀ b u q : ℚ, item.totalBase = .num b → item.unitPrice = .num u → item.qty = .num q →
          0 < q → b * (11 / 10) = u * q) ∧
      (manualOverride eurReceipt (.num (11 / 10)) none 7).rate = .num (11 / 10) :=
  C14_in_sync_after_rescale eurReceipt "USD" (11 / 10) (11 / 10) none 7 (by decide)
    (by norm_num)

/-- C15 (counterexample): for the EUR receipt whose item has unit price 10,
quantity 1 and no base value, the manual override to 1.1 leaves the item as
it was, while the retarget to USD at 1.1 with conversion derives the base
value 10 and sets unit price and total to 11. -/
theorem C15_override_differs_from_retarget :
    (manualOverride eurReceiptLegacy (.num (11 / 10)) none 7).items = [legacyItem] ∧
      (changeReceiptCurrency eurReceiptLegacy "USD" (11 / 10) true 7).items
        = [{ legacyItem with unitPrice := .num 11, total := .num 11, totalBase := .num 10 }] ∧
      (manualOverride eurReceiptLegacy (.num (11 / 10)) none 7).items
        ≠ (changeReceiptCurrency eurReceiptLegacy "USD" (11 / 10) true 7).items := by
  decide!

/-- C15 (amended): when every item of the receipt has a base value and a
quantity of type number, the quantity not being 0, the items after an accepted
manual override to the rate `r` are the items after a retarget to a different
currency at the rate `r` with conversion of the existing items. -/
theorem C15_override_as_retarget (receipt : Receipt) (newCurrency : String) (r : ℚ)
    (reason : Option String) (now now' : Nat)
    (hcur : oldCurrencyOf receipt ≠ newCurrency) (hr : 0 < r)
    (hitems : ∀ item ∈ receipt.items,
      (item.totalBase.isNumber && item.qty.isNumber && decide (item.qty ≠ .num 0)) = true) :
    (manualOverride receipt (.num r) reason now).items
      = (changeReceiptCurrency receipt newCurrency r true now').items := by
  have hnot : ¬ r ≤ 0 := not_le.mpr hr
  simp only [manualOverride, hnot, if_false, changeReceiptCurrency]
  split
  · apply List.map_congr_left
    intro item hitem
    exact overrideItem_eq_rescaleItem _ _ _ (hitems item hitem)
  · rename_i hcond
    have hnil : receipt.items = [] := by
      by_contra hne
      exact hcond ⟨hcur, List.length_pos.mpr hne, trivial⟩
    simp [hnil]

/-- C15 (witness): the EUR receipt with `baseItem`. -/
theorem C15_override_as_retarget_witness :
    (manualOverride eurReceipt (.num (11 / 10)) none 7).items
      = (changeReceiptCurrency eurReceipt "USD" (11 / 10) true 8).items :=
  C15_override_as_retarget eurReceipt "USD" (11 / 10) none 7 8 (by decide) (by norm_num)
    (by decide)

/-- C16: a manual override whose parsed input is no number greater than 0
(the prompt was cancelled or empty, the text is not a number, or the number
is `≤ 0`) leaves the whole receipt as it was; an input `r > 0` is accepted:
the rate becomes `r`, the rate date the current time and the reason the
entered text. -/
theorem C16_manual_override_validation (receipt : Receipt) (reason : Option String) (now : Nat) :
    (∀ input : JsNum, (∀ r : ℚ, input = .num r → r ≤ 0) →
        manualOverride receipt input reason now = receipt) ∧
      (∀ r : ℚ, 0 < r →
        (manualOverride receipt (.num r) reason now).rate = .num r ∧
        (manualOverride receipt (.num r) reason now).rateDate = now ∧
        (manualOverride receipt (.num r) reason now).manualReason = some (reason.getD "")) := by
  constructor
  · intro input hin
    cases input with
    | undefined => rfl
    | nan => rfl
    | num r => simp [manualOverride, hin r rfl]
  · intro r hr
    have hnot : ¬ r ≤ 0 := not_le.mpr hr
    simp [manualOverride, hnot]

/-- C17 (counterexample): when the live lookup answers `-1` for USD,
`getRate` returns `-1`, which is not positive. -/
theorem C17_negative_live_rate :
    getRate "USD" (.value (.num (-1))) = .num (-1) ∧ ¬ (0 : ℚ) < -1 := by
  decide!

/-- C17 (amended): `getRate` is total; it is 1 for EUR whatever the live
lookup answers; for another code, when the lookup fails or its value is
missing (`undefined`, `null`) or the number 0, the result is the value of
the fallback table for that code, or 1 when the code is neither in the table
nor the name of a property that objects inherit; when the live value is a
number other than 0, the result is that number.  So for such codes and such
outcomes the result is a number other than 0, positive unless the live value
is negative.  The statement also records the code outside these cases: any
truthy live value whose number value is not `NaN` (the text `2`, the value
`true`, the array `[2]`) is returned as it is, every other live value gives
the fallback, and a code that names an inherited property gives that
property when the fallback is used. -/
theorem C17_getRate (code : String) (live : Live) :
    getRate "EUR" live = .num 1 ∧
      (code ≠ "EUR" → ∀ v, live = .value v → v.truthy = true → v.isNaN = false →
        getRate code live = v) ∧
      (code ≠ "EUR" →
        (live = .failed ∨ ∃ v, live = .value v ∧ (v.truthy = false ∨ v.isNaN = true)) →
        getRate code live = fallbackRate code) ∧
      (∀ q, defaultRate code = some q → fallbackRate code = .num q ∧ 0 < q) ∧
      (defaultRate code = none →
        fallbackRate code = if code ∈ objectPrototypeNames then .obj else .num 1) ∧
      (code ∉ objectPrototypeNames →
        (live = .failed ∨ live = .value .undefined ∨ live = .value .null ∨
          ∃ q, live = .value (.num q)) →
        ∃ r : ℚ, getRate code live = .num r ∧ r ≠ 0 ∧
          ((∀ q, live = .value (.num q) → 0 ≤ q) → 0 < r)) ∧
      getRate "USD" .failed = .num (11 / 10) ∧ getRate "XXX" .failed = .num 1 ∧
      getRate "USD" (.value (.num 0)) = .num (11 / 10) ∧
      getRate "USD" (.value (.num (6 / 5))) = .num (6 / 5) ∧
      getRate "USD" (.value (.str "2")) = .str "2" ∧
      getRate "USD" (.value (.bool true)) = .bool true ∧
      getRate "USD" (.value (.arr "2")) = .arr "2" ∧
      getRate "USD" (.value (.str "abc")) = .num (11 / 10) ∧
      getRate "toString" .failed = .obj := by
  have hfall : code ≠ "EUR" →
      (live = .failed ∨ ∃ v, live = .value v ∧ (v.truthy = false ∨ v.isNaN = true)) →
      getRate code live = fallbackRate code := by
    intro hc h
    rcases h with h | ⟨v, h, hv⟩
    · subst h
      simp [getRate, hc]
    · subst h
      rcases hv with hv | hv <;> simp [getRate, hc, hv]
  refine ⟨by simp [getRate], ?_, hfall, ?_, ?_, ?_, by decide!, by decide!, by decide!,
    by decide!, by decide!, by decide!, by decide!, by decide!, by decide!⟩
  · intro hc v hl ht hn
    subst hl
    simp [getRate, hc, ht, hn]
  · intro q hq
    exact ⟨fallbackRate_of_table code q hq, defaultRate_pos code q hq⟩
  · intro h
    split
    · rename_i hn
      exact fallbackRate_of_inherited code h hn
    · rename_i hn
      exact fallbackRate_of_unknown code h hn
  · intro hn hl
    by_cases hc : code = "EUR"
    · subst hc
      exact ⟨1, by simp [getRate], by norm_num, fun _ => by norm_num⟩
    · obtain ⟨r, hr, hpos⟩ := fallbackRate_pos code hn
      have hfb : getRate code live = fallbackRate code →
          ∃ r : ℚ, getRate code live = .num r ∧ r ≠ 0 ∧
            ((∀ q, live = .value (.num q) → 0 ≤ q) → 0 < r) := fun h =>
        ⟨r, h.trans hr, ne_of_gt hpos, fun _ => hpos⟩
      rcases hl with hl | hl | hl | ⟨q, hl⟩
      · exact hfb (hfall hc (Or.inl hl))
      · exact hfb (hfall hc (Or.inr ⟨_, hl, Or.inl rfl⟩))
      · exact hfb (hfall hc (Or.inr ⟨_, hl, Or.inl rfl⟩))
      · by_cases hq : q = 0
        · subst hq
          exact hfb (hfall hc (Or.inr ⟨_, hl, Or.inl (by simp [JsVal.truthy])⟩))
        · subst hl
          refine ⟨q, by simp [getRate, hc, JsVal.truthy, JsVal.isNaN, hq], hq, ?_⟩
          intro hnn
          exact lt_of_le_of_ne (hnn q rfl) (Ne.symm hq)

/-- C18: with pending changes stored for `(owner, receiptId)` and the owner,
the folder and the receipt found (the first receipt of the folder with that
id), `applyPendingChanges` replaces the items of that receipt by the result
of writing the changes in order, in place, and touches nothing else of the
folder.  Each change writes `assigned[personIndex] = assigned` into an
existing item and is skipped when the item does not exist; so every cell
`(i, p)` of an existing item holds the value of the last change that targets
it, or its old value when no change targets it, and the number of items and
their other fields stay as they were.  Afterwards no pending changes are
stored for `(owner, receiptId)`. -/
theorem C18_apply_writes_entries (st : AppState) (owner folderId receiptId : String)
    (changes : List Change) (folders : List (String × Folder)) (folder : Folder)
    (pre post : List Receipt) (r : Receipt)
    (hp : getPendingChangesForReceipt st.pending owner receiptId = some changes)
    (hu : alookup st.users owner = some folders)
    (hf : alookup folders folderId = some folder)
    (hr : folder.receipts = pre ++ r :: post) (hid : r.id = receiptId)
    (hpre : ∀ x ∈ pre, x.id ≠ receiptId) :
    (alookup (applyPendingChanges st owner folderId receiptId).users owner).bind
        (fun fs => alookup fs folderId)
      = some { folder with receipts :=
          pre ++ { r with items := changes.foldl applyChange r.items } :: post } ∧
    (∀ (items : List Item) (c : Change),
      (c.itemIndex < items.length →
        cell (applyChange items c) c.itemIndex c.personIndex = some c.assigned) ∧
      (items.length ≤ c.itemIndex → applyChange items c = items)) ∧
    (changes.foldl applyChange r.items).length = r.items.length ∧
    (changes.foldl applyChange r.items).map clearAssigned = r.items.map clearAssigned ∧
    (∀ i p, i < r.items.length →
      cell (changes.foldl applyChange r.items) i p
        = (lastTarget changes i p).or (cell r.items i p)) ∧
    (∀ o, o ≠ owner →
      alookup (applyPendingChanges st owner folderId receiptId).users o = alookup st.users o) ∧
    (∀ f, f ≠ folderId →
      (alookup (applyPendingChanges st owner folderId receiptId).users owner).bind
          (fun fs => alookup fs f)
        = alookup folders f) ∧
    getPendingChangesForReceipt (applyPendingChanges st owner folderId receiptId).pending
      owner receiptId = none := by
  have happly : applyPendingChanges st owner folderId receiptId
      = { users := aset st.users owner (aset folders folderId
            { folder with receipts :=
              pre ++ { r with items := changes.foldl applyChange r.items } :: post }),
          pending := discardPendingChanges st.pending owner receiptId } := by
    simp only [applyPendingChanges, hp, hu, hf, hr,
      applyToReceipts_found changes receiptId pre post r hid hpre]
  refine ⟨?_, ?_, length_foldl_applyChange _ _, map_clearAssigned_foldl _ _,
    fun i p hi => cell_foldl_applyChange changes i p r.items hi, ?_, ?_, ?_⟩
  · rw [happly]
    simp [alookup_aset_self]
  · intro items c
    refine ⟨fun hlt => ?_, applyChange_of_missing items c⟩
    rw [cell_applyChange]
    simp [hlt]
  · intro o ho
    rw [happly]
    exact alookup_aset_ne _ _ _ _ ho
  · intro f hfne
    rw [happly]
    simp [alookup_aset_self, alookup_aset_ne _ _ _ _ hfne]
  · rw [happly]
    exact getPending_discard_self _ _ _

/-- C18 (witness): the state `mergeState`. -/
theorem C18_apply_writes_entries_witness :
    (alookup (applyPendingChanges mergeState "anna" "f1" "r1").users "anna").bind
        (fun fs => alookup fs "f1")
      = some { mergeFolder with receipts :=
          [] ++ { mergeReceipt with
            items := mergeChanges.foldl applyChange mergeReceipt.items } :: [] } ∧
    (∀ (items : List Item) (c : Change),
      (c.itemIndex < items.length →
        cell (applyChange items c) c.itemIndex c.personIndex = some c.assigned) ∧
      (items.length ≤ c.itemIndex → applyChange items c = items)) ∧
    (mergeChanges.foldl applyChange mergeReceipt.items).length = mergeReceipt.items.length ∧
    (mergeChanges.foldl applyChange mergeReceipt.items).map clearAssigned
      = mergeReceipt.items.map clearAssigned ∧
    (∀ i p, i < mergeReceipt.items.length →
      cell (mergeChanges.foldl applyChange mergeReceipt.items) i p
        = (lastTarget mergeChanges i p).or (cell mergeReceipt.items i p)) ∧
    (∀ o, o ≠ "anna" →
      alookup (applyPendingChanges mergeState "anna" "f1" "r1").users o
        = alookup mergeState.users o) ∧
    (∀ f, f ≠ "f1" →
      (alookup (applyPendingChanges mergeState "anna" "f1" "r1").users "anna").bind
          (fun fs => alookup fs f)
        = alookup [("f1", mergeFolder)] f) ∧
    getPendingChangesForReceipt (applyPendingChanges mergeState "anna" "f1" "r1").pending
      "anna" "r1" = none :=
  C18_apply_writes_entries mergeState "anna" "f1" "r1" mergeChanges [("f1", mergeFolder)]
    mergeFolder [] [] mergeReceipt rfl rfl rfl rfl rfl (by simp)

/-- C19: `applyPendingChanges` ends in one of two ways.  When pending
changes are stored and the owner, the folder and the receipt are found, all
changes are written into the receipt (those of missing items being skipped)
and the pending entry is cleared: every entry that refers to an existing
item leaves a value in its cell, its own value unless a later entry targets
the same cell, every cell holds the value of the last entry that targets it
or else its old value, and nothing else of the folder changes.  When the
owner, the folder or the receipt is not found (or nothing is pending), the
state, ledger and pending map alike, is returned as it was.  In the merge
scenario the three entries give the assignments `{0: false, 1: true}` and
`{1: true}`, the entry for the missing item 5 being skipped; for a folder
that does not exist nothing changes. -/
theorem C19_apply_atomic (st : AppState) (owner folderId receiptId : String) :
    ((alookup st.users owner = none ∨
        (∃ folders, alookup st.users owner = some folders ∧ alookup folders folderId = none) ∨
        (∃ folders folder, alookup st.users owner = some folders ∧
          alookup folders folderId = some folder ∧ ∀ x ∈ folder.receipts, x.id ≠ receiptId) ∨
        getPendingChangesForReceipt st.pending owner receiptId = none) →
      applyPendingChanges st owner folderId receiptId = st) ∧
    (∀ changes folders folder,
      getPendingChangesForReceipt st.pending owner receiptId = some changes →
      alookup st.users owner = some folders → alookup folders folderId = some folder →
      (∃ x ∈ folder.receipts, x.id = receiptId) →
      ∃ receipts, applyToReceipts changes receiptId folder.receipts = some receipts ∧
        (applyPendingChanges st owner folderId receiptId).users
          = aset st.users owner (aset folders folderId { folder with receipts := receipts }) ∧
        getPendingChangesForReceipt
          (applyPendingChanges st owner folderId receiptId).pending owner receiptId = none) ∧
    (∀ changes folders folder,
      getPendingChangesForReceipt st.pending owner receiptId = some changes →
      alookup st.users owner = some folders → alookup folders folderId = some folder →
      (∃ x ∈ folder.receipts, x.id = receiptId) →
      ∃ pre r post items,
        folder.receipts = pre ++ r :: post ∧ r.id = receiptId ∧
        (∀ x ∈ pre, x.id ≠ receiptId) ∧
        (alookup (applyPendingChanges st owner folderId receiptId).users owner).bind
            (fun fs => alookup fs folderId)
          = some { folder with receipts := pre ++ { r with items := items } :: post } ∧
        items.length = r.items.length ∧
        items.map clearAssigned = r.items.map clearAssigned ∧
        (∀ i p, i < r.items.length →
          cell items i p = (lastTarget changes i p).or (cell r.items i p)) ∧
        (∀ c ∈ changes, c.itemIndex < r.items.length →
          ∃ v, lastTarget changes c.itemIndex c.personIndex = some v ∧
            cell items c.itemIndex c.personIndex = some v) ∧
        (∀ l1 c l2, changes = l1 ++ c :: l2 → c.itemIndex < r.items.length →
          (∀ d ∈ l2, ¬ (d.itemIndex = c.itemIndex ∧ d.personIndex = c.personIndex)) →
          cell items c.itemIndex c.personIndex = some c.assigned) ∧
        getPendingChangesForReceipt
          (applyPendingChanges st owner folderId receiptId).pending owner receiptId = none) ∧
    ((alookup (applyPendingChanges mergeState "anna" "f1" "r1").users "anna").bind
        (fun fs => alookup fs "f1")).map
        (fun f => f.receipts.map (fun r => r.items.map Item.assigned))
      = some [[[(0, false), (1, true)], [(1, true)]]] ∧
    mergeReceipt.items.map Item.assigned = [[(0, true), (1, true)], []] ∧
    (applyPendingChanges mergeState "anna" "f1" "r1").pending = [] ∧
    applyPendingChanges mergeState "anna" "f2" "r1" = mergeState := by
  refine ⟨?_, ?_, ?_, by decide!, by decide!, by decide!, by decide!⟩
  · intro h
    rcases applyPendingChanges_cases st owner folderId receiptId with hc | hc
    · exact hc.2
    · obtain ⟨changes, folders, folder, pre, r, post, hp, hu, hf, hr, hid, _, _⟩ := hc
      exfalso
      rcases h with h | ⟨fs, h1, h2⟩ | ⟨fs, f, h1, h2, h3⟩ | h
      · rw [hu] at h; cases h
      · rw [hu] at h1; cases h1; rw [hf] at h2; cases h2
      · rw [hu] at h1; cases h1; rw [hf] at h2; cases h2
        exact h3 r (by rw [hr]; simp) hid
      · rw [hp] at h; cases h
  · intro changes folders folder hp hu hf hex
    obtain ⟨pre, r, post, hr, hid, hpre⟩ := receipts_split_at_id receiptId folder.receipts hex
    have hfound := applyToReceipts_found changes receiptId pre post r hid hpre
    rw [← hr] at hfound
    refine ⟨_, hfound, ?_, ?_⟩
    · simp only [applyPendingChanges, hp, hu, hf, hfound]
    · simp only [applyPendingChanges, hp, hu, hf, hfound]
      exact getPending_discard_self _ _ _
  · intro changes folders folder hp hu hf hex
    obtain ⟨pre, r, post, hr, hid, hpre⟩ := receipts_split_at_id receiptId folder.receipts hex
    have hfound := applyToReceipts_found changes receiptId pre post r hid hpre
    rw [← hr] at hfound
    have hcell : ∀ i p, i < r.items.length →
        cell (changes.foldl applyChange r.items) i p
          = (lastTarget changes i p).or (cell r.items i p) :=
      fun i p hi => cell_foldl_applyChange changes i p r.items hi
    refine ⟨pre, r, post, changes.foldl applyChange r.items, hr, hid, hpre, ?_,
      length_foldl_applyChange _ _, map_clearAssigned_foldl _ _, hcell, ?_, ?_, ?_⟩
    · simp only [applyPendingChanges, hp, hu, hf, hfound]
      simp [alookup_aset_self]
    · intro c hc hlt
      obtain ⟨v, hv⟩ := lastTarget_of_mem changes c hc
      exact ⟨v, hv, by rw [hcell _ _ hlt, hv]; rfl⟩
    · intro l1 c l2 hch hlt hlast
      rw [hcell _ _ hlt, hch, lastTarget_of_last l1 l2 c hlast]
      rfl
    · simp only [applyPendingChanges, hp, hu, hf, hfound]
      exact getPending_discard_self _ _ _

/-- C20: without pending changes for `(owner, receiptId)` the call of
`applyPendingChanges` returns the state as it was, ledger and pending map
alike; hence a second call right after a first one changes nothing more. -/
theorem C20_apply_idempotent (st : AppState) (owner folderId receiptId : String) :
    (getPendingChangesForReceipt st.pending owner receiptId = none →
      applyPendingChanges st owner folderId receiptId = st) ∧
    applyPendingChanges (applyPendingChanges st owner folderId receiptId) owner folderId
        receiptId
      = applyPendingChanges st owner folderId receiptId := by
  have hnone : ∀ s : AppState, getPendingChangesForReceipt s.pending owner receiptId = none →
      applyPendingChanges s owner folderId receiptId = s := by
    intro s h
    simp only [applyPendingChanges, h]
  refine ⟨hnone st, ?_⟩
  rcases applyPendingChanges_cases st owner folderId receiptId with hc | hc
  · rw [hc.2, hc.2]
  · obtain ⟨changes, folders, folder, pre, r, post, _, _, _, _, _, _, happly⟩ := hc
    apply hnone
    rw [happly]
    exact getPending_discard_self _ _ _

/-- C21 (the code at the failing input): the receipt `r1` holds the shared
item and the unassigned item; a collaborator's pending change ticks item 0
for participant 1, and the owner deletes item 0.  `applyPendingChanges`
raises no error and clears the pending entry, but it writes the tick into
the item that now stands at position 0, the unassigned item, whose `assigned`
mapping changes from empty to `{1: true}`.  In general the change is written
into the former item 1; only a receipt without a second item is left
as it was. -/
theorem C21_delta_after_delete :
    (deleteItemHandler mergeReceipt 0).items = [unassignedItem] ∧
      ((alookup (applyPendingChanges deleteState "anna" "f1" "r1").users "anna").bind
          (fun fs => alookup fs "f1")).map
          (fun f => f.receipts.map (fun r => r.items))
        = some [[{ unassignedItem with assigned := [(1, true)] }]] ∧
      unassignedItem.assigned = [] ∧
      (applyPendingChanges deleteState "anna" "f1" "r1").pending = [] ∧
      ∀ receipt : Receipt,
        [(⟨0, 1, true⟩ : Change)].foldl applyChange (deleteItemHandler receipt 0).items
          = match receipt.items with
            | _ :: second :: rest =>
              { second with
                assigned := setAssigned second.assigned 1 true, assignedMissing := false } :: rest
            | _ => [] := by
  refine ⟨by decide!, by decide!, rfl, by decide!, ?_⟩
  intro receipt
  rcases hitems : receipt.items with _ | ⟨first, _ | ⟨second, rest⟩⟩ <;>
    simp [deleteItemHandler, hitems, applyChange]

/-- C22: after `addPendingChange(owner, receiptId, changes)` the list stored
for `(owner, receiptId)` is `changes`, whatever was stored before; the lists
of all other pairs are as before; and when every key occurs at most once in
the map, it still does, the owner and, below the owner, the receipt id
occurring exactly once.  A submission of one entry for `r1` of the merge
scenario replaces the three entries stored there. -/
theorem C22_add_pending_last_wins (map : PendingMap) (owner receiptId : String)
    (changes : List Change) :
    getPendingChangesForReceipt (addPendingChange map owner receiptId changes) owner receiptId
        = some changes ∧
      (∀ o r, (o ≠ owner ∨ r ≠ receiptId) →
        getPendingChangesForReceipt (addPendingChange map owner receiptId changes) o r
          = getPendingChangesForReceipt map o r) ∧
      (map.KeysUnique →
        (addPendingChange map owner receiptId changes).KeysUnique ∧
        keyCount (addPendingChange map owner receiptId changes) owner = 1 ∧
        ∀ perOwner, alookup (addPendingChange map owner receiptId changes) owner = some perOwner →
          keyCount perOwner receiptId = 1) ∧
      addPendingChange mergeState.pending "anna" "r1" [⟨0, 0, true⟩]
        = [("anna", [("r1", [⟨0, 0, true⟩])])] := by
  refine ⟨getPending_add_self _ _ _ _, getPending_add_ne _ _ _ _, ?_, by decide⟩
  intro hu
  obtain ⟨hu1, hu2⟩ := hu
  have hinner : ∀ r, keyCount (aset ((alookup map owner).getD []) receiptId changes) r ≤ 1 := by
    intro r
    have hold : ∀ r, keyCount ((alookup map owner).getD []) r ≤ 1 := by
      intro r
      cases hl : alookup map owner with
      | none => simp [keyCount]
      | some perOwner => exact hu2 _ (mem_of_alookup _ _ _ hl) r
    rw [keyCount_aset]
    split
    · have := hold receiptId
      omega
    · exact hold r
  have hcount : ∀ o, keyCount (addPendingChange map owner receiptId changes) o
      = if o = owner then max 1 (keyCount map owner) else keyCount map o := by
    intro o
    unfold addPendingChange
    rw [keyCount_aset]
  refine ⟨⟨?_, ?_⟩, ?_, ?_⟩
  · intro o
    rw [hcount]
    split
    · have := hu1 owner
      omega
    · exact hu1 o
  · intro e he r
    rcases mem_aset _ _ _ _ he with h | h
    · rw [h]
      exact hinner r
    · exact hu2 e h r
  · rw [hcount, if_pos rfl]
    have := hu1 owner
    omega
  · intro perOwner hper
    unfold addPendingChange at hper
    rw [alookup_aset_self] at hper
    have hper' := Option.some.inj hper
    rw [← hper', keyCount_aset, if_pos rfl]
    have hold : keyCount ((alookup map owner).getD []) receiptId ≤ 1 := by
      cases hl : alookup map owner with
      | none => simp [keyCount]
      | some perOwner => exact hu2 _ (mem_of_alookup _ _ _ hl) receiptId
    omega

/-- C23: after `discardPendingChanges(owner, receiptId)` no list is stored
for `(owner, receiptId)`, whatever was stored before; the lists of all other
pairs are as before; and the ledger `data.users`, with its participants,
receipts, items and assignments, is as before.  In the merge scenario the
stored map is empty afterwards. -/
theorem C23_discard_pending (st : AppState) (owner receiptId : String) :
    getPendingChangesForReceipt (discardPendingChangesOn st owner receiptId).pending
        owner receiptId = none ∧
      (∀ o r, (o ≠ owner ∨ r ≠ receiptId) →
        getPendingChangesForReceipt (discardPendingChangesOn st owner receiptId).pending o r
          = getPendingChangesForReceipt st.pending o r) ∧
      (discardPendingChangesOn st owner receiptId).users = st.users ∧
      discardPendingChangesOn mergeState "anna" "r1" = { mergeState with pending := [] } :=
  ⟨getPending_discard_self _ _ _, getPending_discard_ne _ _ _, rfl, by decide!⟩

/-- C24: in the three share views the list handed to `addPendingChange` is
the list the specification words: for the chosen participant `p` it holds,
in ascending order of the items and once per item, the entry
`{ itemIndex: i, personIndex: p, assigned: v }` for exactly those items `i`
whose checkbox shows a value `v` that differs from the original assignment
of the snapshot (or of the live receipt in the view without snapshot).  The
list is stored for the receipt when it is not empty (in the snapshot views:
and the owner and the receipt id are present); an empty list is not
submitted.  In the snapshot receipt `r1` whose first item is assigned to
participant 1 and whose second item is not, unticking the first and ticking
the second as participant 1 stores the entries `{0, 1, false}` and
`{1, 1, true}`; so it does in the live receipt `r1` of the merge scenario.
The original assignment is `true` exactly when the live object holds `true`
for the participant, or the snapshot array holds a truthy element at the
participant's index. -/
theorem C24_submitted_entries (p : Nat) (current : Nat → Option Bool) :
    (∀ items : List SnapItem,
      collectPending (snapshotOrig p) current p items 0 []
        = xorEntries (items.map (snapshotOrig p))
            (checkboxStates (snapshotOrig p) current items 0) p) ∧
    (∀ items : List Item,
      collectPending (liveOrig p) current p items 0 []
        = xorEntries (items.map (liveOrig p)) (checkboxStates (liveOrig p) current items 0) p) ∧
    (∀ (origs checks : List Bool) (c : Change),
      c ∈ xorEntries origs checks p ↔
        c.personIndex = p ∧
        ∃ o v, origs[c.itemIndex]? = some o ∧ checks[c.itemIndex]? = some v ∧
          c.assigned = v ∧ v ≠ o) ∧
    (∀ origs checks : List Bool,
      (xorEntries origs checks p).Pairwise (fun a b => a.itemIndex < b.itemIndex)) ∧
    (∀ (map : PendingMap) (owner : String) (receipt : SnapReceipt),
      owner ≠ "" → receipt.id ≠ "" →
      collectPending (snapshotOrig p) current p receipt.items 0 [] ≠ [] →
      getPendingChangesForReceipt (submitReceiptSnapshot map owner receipt p current)
          owner receipt.id
        = some (collectPending (snapshotOrig p) current p receipt.items 0 []) ∧
      saveFolderSnapshot map owner [receipt] p (fun _ => current)
        = submitReceiptSnapshot map owner receipt p current) ∧
    (∀ (map : PendingMap) (owner receiptId : String) (receipt : Receipt),
      collectPending (liveOrig p) current p receipt.items 0 [] ≠ [] →
      getPendingChangesForReceipt (submitShareView map owner receiptId receipt p current)
          owner receiptId
        = some (collectPending (liveOrig p) current p receipt.items 0 [])) ∧
    (∀ (map : PendingMap) (owner receiptId : String) (receipt : Receipt) (snap : SnapReceipt),
      (collectPending (liveOrig p) current p receipt.items 0 [] = [] →
        submitShareView map owner receiptId receipt p current = map) ∧
      (collectPending (snapshotOrig p) current p snap.items 0 [] = [] →
        submitReceiptSnapshot map owner snap p current = map ∧
        saveFolderSnapshot map owner [snap] p (fun _ => current) = map)) ∧
    submitReceiptSnapshot [] "anna" snapReceiptTwo 1
        (fun i => if i = 0 then some false else if i = 1 then some true else none)
      = [("anna", [("r1", [⟨0, 1, false⟩, ⟨1, 1, true⟩])])] ∧
    (∀ it : Item, liveOrig p it = true ↔ alookup it.assigned p = some true) ∧
    (∀ it : SnapItem,
      snapshotOrig p it = true ↔ ∃ arr, it.assigned = some arr ∧ arr[p]? = some true) ∧
    submitShareView [] "anna" "r1" mergeReceipt 1
        (fun i => if i = 0 then some false else if i = 1 then some true else none)
      = [("anna", [("r1", [⟨0, 1, false⟩, ⟨1, 1, true⟩])])] := by
  refine ⟨fun items => collectPending_xor _ _ _ _, fun items => collectPending_xor _ _ _ _,
    fun origs checks c => mem_xorEntries origs checks p c,
    fun origs checks => pairwise_xorEntries origs checks p, ?_, ?_, ?_, by decide,
    liveOrig_iff p, snapshotOrig_iff p, by decide⟩
  · intro map owner receipt ho hid hne
    have hlen : (collectPending (snapshotOrig p) current p receipt.items 0 []).length ≠ 0 :=
      fun h => hne (List.length_eq_zero.mp h)
    have hpos : (collectPending (snapshotOrig p) current p receipt.items 0 []).length > 0 :=
      Nat.pos_of_ne_zero hlen
    have hsub : submitReceiptSnapshot map owner receipt p current
        = addPendingChange map owner receipt.id
            (collectPending (snapshotOrig p) current p receipt.items 0 []) := by
      simp only [submitReceiptSnapshot, hlen, if_false, ho, hid, ne_eq, not_false_eq_true,
        and_self, if_true]
    refine ⟨?_, ?_⟩
    · rw [hsub]
      exact getPending_add_self _ _ _ _
    · rw [hsub]
      simp only [saveFolderSnapshot, List.foldl_cons, List.foldl_nil, saveFolderStep, hpos, ho,
        hid, ne_eq, not_false_eq_true, and_self, if_true]
  · intro map owner receiptId receipt hne
    have hlen : (collectPending (liveOrig p) current p receipt.items 0 []).length ≠ 0 :=
      fun h => hne (List.length_eq_zero.mp h)
    simp only [submitShareView, hlen, if_false]
    exact getPending_add_self _ _ _ _
  · intro map owner receiptId receipt snap
    refine ⟨?_, ?_⟩
    · intro h
      simp [submitShareView, h]
    · intro h
      refine ⟨?_, ?_⟩
      · simp [submitReceiptSnapshot, h]
      · simp [saveFolderSnapshot, saveFolderStep, h]

/-- C25 (counterexample): the pending list of `r1` targets the cell `(0, 0)`
twice, first with the value `false`, then with `true`; the live value of the
cell is `false`.  The list holds an entry that targets the cell and differs
from the live value, yet the cell is not highlighted: the loop stops at the
first entry that targets the cell. -/
theorem C25_first_entry_decides :
    getPendingChangesForReceipt twiceTargeted "anna" unassignedReceipt.id
        = some [⟨0, 0, false⟩, ⟨0, 0, true⟩] ∧
      unassignedReceipt.items[0]? = some unassignedItem ∧
      currentAssigned unassignedItem 0 = false ∧
      (∃ ch ∈ [(⟨0, 0, false⟩ : Change), ⟨0, 0, true⟩],
        ch.itemIndex = 0 ∧ ch.personIndex = 0 ∧ ch.assigned ≠ currentAssigned unassignedItem 0) ∧
      pendingHighlight twiceTargeted "anna" unassignedReceipt 0 0 = false := by
  refine ⟨by decide, by decide, by decide, ⟨⟨0, 0, true⟩, by decide, by decide⟩, by decide⟩

/-- C25 (amended): while a pending list is stored for the receipt, the cell
of the item at position `i` and the participant `p` is highlighted if and
only if the first entry of the list that targets `(i, p)` carries a value
that differs from the live value of the cell; when at most one entry of the
list targets `(i, p)`, this is the case if and only if the list holds an
entry that targets `(i, p)` and differs from the live value.  The lists that
the share views submit target every cell at most once. -/
theorem C25_highlight (map : PendingMap) (currentUser : String) (receipt : Receipt)
    (i p : Nat) (pendingList : List Change) (item : Item)
    (hpending : getPendingChangesForReceipt map currentUser receipt.id = some pendingList)
    (hitem : receipt.items[i]? = some item) :
    (pendingHighlight map currentUser receipt i p = true ↔
        ∃ ch, firstTarget pendingList i p = some ch ∧ ch.assigned ≠ currentAssigned item p) ∧
      ((pendingList.filter (fun ch => ch.itemIndex = i ∧ ch.personIndex = p)).length ≤ 1 →
        (pendingHighlight map currentUser receipt i p = true ↔
          ∃ ch ∈ pendingList, ch.itemIndex = i ∧ ch.personIndex = p ∧
            ch.assigned ≠ currentAssigned item p)) ∧
      (∀ (origs checks : List Bool) (q : Nat),
        ((xorEntries origs checks q).filter
          (fun ch => ch.itemIndex = i ∧ ch.personIndex = p)).length ≤ 1) := by
  have hfirst : pendingHighlight map currentUser receipt i p = true ↔
      ∃ ch, firstTarget pendingList i p = some ch ∧ ch.assigned ≠ currentAssigned item p := by
    simp only [pendingHighlight, hpending, hitem, highlightLoop_eq]
    cases hf : firstTarget pendingList i p with
    | none => simp
    | some ch => simp
  refine ⟨hfirst, ?_, fun origs checks q =>
    targets_of_ascending _ i p (pairwise_xorEntries origs checks q)⟩
  intro huniq
  rw [hfirst]
  constructor
  · rintro ⟨ch, hch, hne⟩
    have hmem : ch ∈ pendingList := List.mem_of_find?_eq_some hch
    have hprop := List.find?_some hch
    simp only [decide_eq_true_eq] at hprop
    exact ⟨ch, hmem, hprop.1, hprop.2, hne⟩
  · rintro ⟨ch, hmem, hi, hp, hne⟩
    exact ⟨ch, firstTarget_of_unique pendingList i p huniq ch hmem hi hp, hne⟩

/-- C25 (witness): the receipt `r1` of the merge scenario with its pending
changes, at the cell `(1, 1)`. -/
theorem C25_highlight_witness :
    (pendingHighlight mergeState.pending "anna" mergeReceipt 1 1 = true ↔
        ∃ ch, firstTarget mergeChanges 1 1 = some ch ∧
          ch.assigned ≠ currentAssigned unassignedItem 1) ∧
      ((mergeChanges.filter (fun ch => ch.itemIndex = 1 ∧ ch.personIndex = 1)).length ≤ 1 →
        (pendingHighlight mergeState.pending "anna" mergeReceipt 1 1 = true ↔
          ∃ ch ∈ mergeChanges, ch.itemIndex = 1 ∧ ch.personIndex = 1 ∧
            ch.assigned ≠ currentAssigned unassignedItem 1)) ∧
      (∀ (origs checks : List Bool) (q : Nat),
        ((xorEntries origs checks q).filter
          (fun ch => ch.itemIndex = 1 ∧ ch.personIndex = 1)).length ≤ 1) :=
  C25_highlight mergeState.pending "anna" mergeReceipt 1 1 mergeChanges unassignedItem
    (by decide) (by decide)

/-- C26 (the code at the failing input): for the owner `anna` with the
folder `f1` and its receipt `r1`, whose two items carry the `assigned`
objects `{0: true, 1: true}` and `{}`, `encodeShareData` raises a
`TypeError` for the receipt, for the folder and for an undefined receipt id:
no token is produced that could be decoded.  It raises on every item that
has an `assigned` object, the empty object of a newly added item included;
an item passes only when it has no property `assigned`, and its snapshot
then holds `assigned: undefined` next to the copied name, quantity, unit
price, total and extras. -/
theorem C26_snapshot_raises :
    encodeShareData mergeState.users "anna" "f1" (some "r1") = .raised ∧
      encodeShareData mergeState.users "anna" "f1" (some "folder") = .raised ∧
      encodeShareData mergeState.users "anna" "f1" none = .raised ∧
      mergeReceipt.items.map Item.assigned = [[(0, true), (1, true)], []] ∧
      (∀ item : Item, snapItem { item with assignedMissing := false } = none) ∧
      snapItem { name := "", qty := .num 1, extras := some [], assigned := [] } = none ∧
      (∀ item : Item,
        snapItem { item with assigned := [], assignedMissing := true }
          = some { name := item.name, qty := item.qty, unitPrice := item.unitPrice,
                   total := item.total, extras := item.extras.getD [], assigned := none }) := by
  refine ⟨by decide!, by decide!, by decide!, by decide!, ?_, by decide!, ?_⟩
  · intro item
    simp [snapItem]
  · intro item
    simp [snapItem]

/-- C27: `decodeShareData` returns `null` when `atob` raises on the token,
and when the decoded text is neither parsed as a JSON object nor made of
exactly three fields separated by `|`; in every other case it returns an
object: the JSON object parsed from the text, or the three fields of the old
format.  No call of it raises, and the parser of the model never runs out
of fuel: a text that some amount of fuel parses is parsed by `jsonParse`.
The tokens `!` (no base64) and `YXxi` (the text `a|b`) give `null`. -/
theorem C27_decode_total (token : String) :
    (atob token = none → decodeShareData token = none) ∧
      (∀ decoded, atob token = some decoded →
        (¬ ∃ members, jsonParse decoded = some (.obj members)) →
        (splitPipe decoded).length ≠ 3 → decodeShareData token = none) ∧
      (decodeShareData token = none ∨
        (∃ decoded members, atob token = some decoded ∧
          jsonParse decoded = some (.obj members) ∧
          decodeShareData token = some (.structured (.obj members))) ∨
        (∃ decoded owner folderId receiptId, atob token = some decoded ∧
          splitPipe decoded = [owner, folderId, receiptId] ∧
          decodeShareData token = some (.legacy owner folderId receiptId))) ∧
      (∀ (decoded : String) (n : Nat) (v : Json) (rest : List Char),
        parseValue n decoded.toList = some (v, rest) → skipWs rest = [] →
        jsonParse decoded = some v) ∧
      decodeShareData "!" = none ∧ atob "YXxi" = some "a|b" ∧ decodeShareData "YXxi" = none := by
  refine ⟨?_, ?_, ?_, jsonParse_of_parseValue, by rfl, by decide, by rfl⟩
  · intro h
    simp only [decodeShareData, h]
  · intro decoded h hobj hlen
    rw [decodeShareData_of_text token decoded h]
    have hparsed : (if decoded ≠ "" ∧ startsWithBrace decoded = true then jsonParse decoded
        else none) = none := by
      split
      · rename_i hc
        cases hj : jsonParse decoded with
        | none => rfl
        | some v =>
          obtain ⟨ms, hms⟩ := jsonParse_obj_of_brace decoded v hc.2 hj
          exact absurd ⟨ms, hms ▸ hj⟩ hobj
      · rfl
    rw [decodeText_of_not_parsed decoded hparsed]
    unfold legacyFields
    split
    · rename_i hsplit
      rw [hsplit] at hlen
      simp at hlen
    · rfl
  · cases h : atob token with
    | none => exact Or.inl (by simp only [decodeShareData, h])
    | some decoded =>
      rw [decodeShareData_of_text token decoded h]
      cases hv : (if decoded ≠ "" ∧ startsWithBrace decoded = true then jsonParse decoded
          else none) with
      | some value =>
        right; left
        rw [decodeText_of_parsed decoded value hv]
        split at hv
        · rename_i hc
          obtain ⟨ms, hms⟩ := jsonParse_obj_of_brace decoded value hc.2 hv
          subst hms
          exact ⟨decoded, ms, rfl, hv, rfl⟩
        · simp at hv
      | none =>
        rw [decodeText_of_not_parsed decoded hv]
        unfold legacyFields
        split
        · rename_i owner folderId receiptId hsplit
          right; right
          exact ⟨decoded, owner, folderId, receiptId, rfl, hsplit, rfl⟩
        · exact Or.inl rfl

/-- C28 (counterexample): the owner `{"`, the folder id `":"` and the
receipt id `"}` contain no `|`; the owner is unknown, so `encodeShareData`
emits the token of the old format, `btoa` of the text `{"|":"|"}`, which is
`eyJ8IjoifCJ9`.  The text starts with a brace and is a JSON text, so
`decodeShareData` returns the parsed object `{"|": "|"}` and not the three
fields. -/
theorem C28_legacy_text_parsed_as_json :
    '|' ∉ "\x7b\"".toList ∧ '|' ∉ "\":\"".toList ∧ '|' ∉ "\"\x7d".toList ∧
      legacyText "\x7b\"" "\":\"" (some "\"\x7d") = "\x7b\"|\":\"|\"\x7d" ∧
      encodeShareData [] "\x7b\"" "\":\"" (some "\"\x7d") = .token "eyJ8IjoifCJ9" ∧
      atob "eyJ8IjoifCJ9" = some "\x7b\"|\":\"|\"\x7d" ∧
      decodeShareData "eyJ8IjoifCJ9" = some (.structured (.obj [("|", .str "|")])) ∧
      decodeShareData "eyJ8IjoifCJ9" ≠ some (.legacy "\x7b\"" "\":\"" "\"\x7d") := by
  refine ⟨by decide, by decide, by decide, by decide, by decide, by decide, by rfl, ?_⟩
  have h : decodeShareData "eyJ8IjoifCJ9" = some (.structured (.obj [("|", .str "|")])) := by
    rfl
  rw [h]
  intro e
  cases e

/-- C28 (amended): let `btoa` give a token for the text
`owner|folderId|receiptId` (the text has no character above U+00FF), the
three parts containing no `|`, and let the text not start with a brace after
trimming or not be a JSON text.  Then `atob` gives the text back and
`decodeShareData` returns exactly `{ owner, folderId, receiptId }`.  This
token is the one `encodeShareData` returns when the owner, the folder or the
receipt is not found.  The decoder takes the parsed JSON value whenever the
decoded text starts with a brace after trimming and is a JSON text, and
looks at the fields only otherwise. -/
theorem C28_legacy_round_trip (token owner folderId receiptId : String)
    (htoken : btoa (legacyText owner folderId (some receiptId)) = some token)
    (ho : '|' ∉ owner.toList) (hf : '|' ∉ folderId.toList) (hr : '|' ∉ receiptId.toList)
    (hparse : startsWithBrace (legacyText owner folderId (some receiptId)) = false ∨
      jsonParse (legacyText owner folderId (some receiptId)) = none) :
    atob token = some (legacyText owner folderId (some receiptId)) ∧
      decodeShareData token = some (.legacy owner folderId receiptId) ∧
      (∀ users : List (String × List (String × Folder)),
        (alookup users owner = none ∨
          (∃ folders, alookup users owner = some folders ∧ alookup folders folderId = none) ∨
          (∃ folders folder, alookup users owner = some folders ∧
            alookup folders folderId = some folder ∧ receiptId ≠ "folder" ∧
            folder.receipts.find? (fun r => some r.id = some receiptId) = none)) →
        encodeShareData users owner folderId (some receiptId) = .token token) ∧
      (∀ (other decoded : String) (value : Json), atob other = some decoded →
        decoded ≠ "" → startsWithBrace decoded = true → jsonParse decoded = some value →
        decodeShareData other = some (.structured value)) := by
  have hatob := atob_btoa _ _ htoken
  refine ⟨hatob, ?_, ?_, ?_⟩
  · rw [decodeShareData_of_text token _ hatob]
    have hparsed : (if legacyText owner folderId (some receiptId) ≠ "" ∧
          startsWithBrace (legacyText owner folderId (some receiptId)) = true
        then jsonParse (legacyText owner folderId (some receiptId)) else none) = none := by
      split
      · rename_i hc
        rcases hparse with h | h
        · rw [h] at hc
          simp at hc
        · exact h
      · rfl
    rw [decodeText_of_not_parsed _ hparsed]
    simp only [legacyFields, splitPipe_legacyText owner folderId receiptId ho hf hr]
  · intro users h
    rcases h with h | ⟨folders, h1, h2⟩ | ⟨folders, folder, h1, h2, h3, h4⟩
    · simp only [encodeShareData, h, legacyToken, htoken]
    · simp only [encodeShareData, h1, h2, legacyToken, htoken]
    · have hne : ¬ (some receiptId = some "folder" ∨ some receiptId = none) := by
        simp [h3]
      simp only [encodeShareData, h1, h2, if_neg hne, h4, legacyToken, htoken]
  · intro other decoded value hat hne hb hj
    rw [decodeShareData_of_text other decoded hat]
    apply decodeText_of_parsed
    simp [hne, hb, hj]

/-- C28 (witness): the token `YW5uYXxmMXxyMQ==` of the text `anna|f1|r1`. -/
theorem C28_legacy_round_trip_witness :
    atob "YW5uYXxmMXxyMQ==" = some (legacyText "anna" "f1" (some "r1")) ∧
      decodeShareData "YW5uYXxmMXxyMQ==" = some (.legacy "anna" "f1" "r1") ∧
      (∀ users : List (String × List (String × Folder)),
        (alookup users "anna" = none ∨
          (∃ folders, alookup users "anna" = some folders ∧ alookup folders "f1" = none) ∨
          (∃ folders folder, alookup users "anna" = some folders ∧
            alookup folders "f1" = some folder ∧ "r1" ≠ "folder" ∧
            folder.receipts.find? (fun r => some r.id = some "r1") = none)) →
        encodeShareData users "anna" "f1" (some "r1") = .token "YW5uYXxmMXxyMQ==") ∧
      (∀ (other decoded : String) (value : Json), atob other = some decoded →
        decoded ≠ "" → startsWithBrace decoded = true → jsonParse decoded = some value →
        decodeShareData other = some (.structured value)) :=
  C28_legacy_round_trip "YW5uYXxmMXxyMQ==" "anna" "f1" "r1" (by decide) (by decide) (by decide)
    (by decide) (Or.inl (by decide))

/-- C29: with a receipt rate `r ≠ 0`, an edit of the quantity field of an
item with the numeric unit price `u` sets the quantity to the typed integer
`q` (0 when the field holds no number), the total to `u * q` and the base
value to `u * q / r`; an edit of the unit price field to the number `v` of an
item with the numeric quantity `q` sets the unit price to `v`, the total to
`v * q` and the base value to `v * q / r`; in both cases
`totalBase * r = total`.  An edit that empties the unit price field, or
leaves no number in it, sets unit price, total and base value to
`undefined`; so does a quantity edit of an item without unit price for total
and base value.  After every edit total and base value are either both
`undefined` or both computed from the unit price and the quantity the item
now has. -/
theorem C29_edit_keeps_sync (item : Item) (r : ℚ) (hr : r ≠ 0) :
    (∀ (val : Option Int) (u : ℚ), item.unitPrice = .num u →
      qtyInputHandler (.num r) item val
        = { item with
            qty := .num ((val.getD 0 : Int) : ℚ), total := .num (u * ((val.getD 0 : Int) : ℚ)),
            totalBase := .num (u * ((val.getD 0 : Int) : ℚ) / r) } ∧
      u * ((val.getD 0 : Int) : ℚ) / r * r = u * ((val.getD 0 : Int) : ℚ)) ∧
    (∀ (valStr : String) (v q : ℚ), valStr ≠ "" → item.qty = .num q →
      unitInputHandler (.num r) item valStr (some v)
        = { item with unitPrice := .num v, total := .num (v * q), totalBase := .num (v * q / r) } ∧
      v * q / r * r = v * q) ∧
    (∀ (valStr : String) (valNum : Option ℚ), valStr = "" ∨ valNum = none →
      unitInputHandler (.num r) item valStr valNum
        = { item with unitPrice := .undefined, total := .undefined, totalBase := .undefined }) ∧
    (∀ val : Option Int, item.unitPrice.isNumber = false →
      qtyInputHandler (.num r) item val
        = { item with
            qty := .num ((val.getD 0 : Int) : ℚ), total := .undefined,
            totalBase := .undefined }) ∧
    (∀ (rate : JsNum) (e : Item),
      ((∃ val, e = qtyInputHandler rate item val) ∨
        (∃ valStr valNum, e = unitInputHandler rate item valStr valNum)) →
      (e.total = .undefined ∧ e.totalBase = .undefined) ∨
        (e.total = e.unitPrice.mul e.qty ∧ e.totalBase = (e.unitPrice.mul e.qty).div rate)) := by
  refine ⟨?_, ?_, ?_, ?_, ?_⟩
  · intro val u hu
    refine ⟨?_, by field_simp⟩
    simp [qtyInputHandler, hu, JsNum.isNumber, JsNum.mul, JsNum.div, hr]
  · intro valStr v q hv hq
    refine ⟨?_, by field_simp⟩
    simp [unitInputHandler, hv, hq, JsNum.isNumber, JsNum.mul, JsNum.div, hr]
  · intro valStr valNum h
    by_cases hv : valStr = ""
    · simp [unitInputHandler, hv]
    · rcases h with h | h
      · exact absurd h hv
      · subst h
        simp [unitInputHandler, hv, JsNum.isNumber]
  · intro val hu
    simp [qtyInputHandler, hu]
  · intro rate e he
    rcases he with ⟨val, rfl⟩ | ⟨valStr, valNum, rfl⟩
    · unfold qtyInputHandler
      simp only
      split
      · exact Or.inr ⟨rfl, rfl⟩
      · exact Or.inl ⟨rfl, rfl⟩
    · unfold unitInputHandler
      split
      · exact Or.inl ⟨rfl, rfl⟩
      · simp only
        split
        · exact Or.inr ⟨rfl, rfl⟩
        · exact Or.inl ⟨rfl, rfl⟩

/-- C29 (witness): the item of unit price 5 in a receipt at rate 1.1. -/
theorem C29_edit_keeps_sync_witness :
    (∀ (val : Option Int) (u : ℚ), pricedItem.unitPrice = .num u →
      qtyInputHandler (.num (11 / 10)) pricedItem val
        = { pricedItem with
            qty := .num ((val.getD 0 : Int) : ℚ), total := .num (u * ((val.getD 0 : Int) : ℚ)),
            totalBase := .num (u * ((val.getD 0 : Int) : ℚ) / (11 / 10)) } ∧
      u * ((val.getD 0 : Int) : ℚ) / (11 / 10) * (11 / 10) = u * ((val.getD 0 : Int) : ℚ)) ∧
    (∀ (valStr : String) (v q : ℚ), valStr ≠ "" → pricedItem.qty = .num q →
      unitInputHandler (.num (11 / 10)) pricedItem valStr (some v)
        = { pricedItem with
            unitPrice := .num v, total := .num (v * q), totalBase := .num (v * q / (11 / 10)) } ∧
      v * q / (11 / 10) * (11 / 10) = v * q) ∧
    (∀ (valStr : String) (valNum : Option ℚ), valStr = "" ∨ valNum = none →
      unitInputHandler (.num (11 / 10)) pricedItem valStr valNum
        = { pricedItem with
            unitPrice := .undefined, total := .undefined, totalBase := .undefined }) ∧
    (∀ val : Option Int, pricedItem.unitPrice.isNumber = false →
      qtyInputHandler (.num (11 / 10)) pricedItem val
        = { pricedItem with
            qty := .num ((val.getD 0 : Int) : ℚ), total := .undefined,
            totalBase := .undefined }) ∧
    (∀ (rate : JsNum) (e : Item),
      ((∃ val, e = qtyInputHandler rate pricedItem val) ∨
        (∃ valStr valNum, e = unitInputHandler rate pricedItem valStr valNum)) →
      (e.total = .undefined ∧ e.totalBase = .undefined) ∨
        (e.total = e.unitPrice.mul e.qty ∧ e.totalBase = (e.unitPrice.mul e.qty).div rate)) :=
  C29_edit_keeps_sync pricedItem (11 / 10) (by norm_num)

/-- C30: when every item of a receipt has a base value of type number and a
quantity other than 0, replacing the receipt by the result of
`changeReceiptCurrency` (to any currency at any rate, with or without
conversion of the items) or of the manual override (with any input) leaves
the result of the settlement computation of the folder as it was: the same
total consumption, net balances and debt matrix, or the same raised error. -/
theorem C30_settlement_independent_of_currency (folder : Folder) (rs1 rs2 : List Receipt)
    (r : Receipt)
    (h : ∀ item ∈ r.items, item.totalBase.isNumber = true ∧ item.qty ≠ .num 0) :
    (∀ (newCurrency : String) (newRate : ℚ) (apply : Bool) (now : Nat),
      computeSettlement { folder with
          receipts := rs1 ++ changeReceiptCurrency r newCurrency newRate apply now :: rs2 }
        = computeSettlement { folder with receipts := rs1 ++ r :: rs2 }) ∧
    (∀ (input : JsNum) (reason : Option String) (now : Nat),
      computeSettlement { folder with
          receipts := rs1 ++ manualOverride r input reason now :: rs2 }
        = computeSettlement { folder with receipts := rs1 ++ r :: rs2 }) := by
  refine ⟨?_, ?_⟩
  · intro newCurrency newRate apply now
    exact computeSettlement_replace folder rs1 rs2 r _ (payer_changeReceiptCurrency _ _ _ _ _)
      (receiptSums_changeReceiptCurrency _ _ r h _ _ _ _)
  · intro input reason now
    exact computeSettlement_replace folder rs1 rs2 r _ (payer_manualOverride _ _ _ _)
      (receiptSums_manualOverride _ _ r (fun item hi => (h item hi).1) _ _ _)

/-- C30 (witness): the folder of the shared-item scenario; its receipt
retargeted to USD at 1.1 with conversion gives the same accumulators as
before. -/
theorem C30_settlement_independent_of_currency_witness :
    ((∀ (newCurrency : String) (newRate : ℚ) (apply : Bool) (now : Nat),
      computeSettlement { scenarioShared with
          receipts := [] ++ changeReceiptCurrency sharedReceipt newCurrency newRate apply now
            :: [] }
        = computeSettlement { scenarioShared with receipts := [] ++ sharedReceipt :: [] }) ∧
    (∀ (input : JsNum) (reason : Option String) (now : Nat),
      computeSettlement { scenarioShared with
          receipts := [] ++ manualOverride sharedReceipt input reason now :: [] }
        = computeSettlement { scenarioShared with receipts := [] ++ sharedReceipt :: [] })) ∧
    scenarioShared.receipts = [sharedReceipt] ∧
    (changeReceiptCurrency sharedReceipt "USD" (11 / 10) true 7).items.map Item.unitPrice
      = [.num 11] ∧
    computeSettlement { scenarioShared with
        receipts := [changeReceiptCurrency sharedReceipt "USD" (11 / 10) true 7] }
      = computeSettlement scenarioShared :=
  ⟨C30_settlement_independent_of_currency scenarioShared [] [] sharedReceipt (by decide),
    by decide!, by decide!, by decide!⟩

end Script
